import Mathlib

/-!
# Verification of the markdown-rules-mcp core

A shallow embedding, in Lean 4, of the core services of the
`@valstro/markdown-rules-mcp` server (v0.4.6):

* `LinkExtractorService` (`extractLinks`, `parseEmbedParameter`,
  `isParamTruthy`, `isEmbedParamPresentAndNotFalse`),
* `DocParserService` (`trimContent`, `parse`),
* `DocIndexService` (`getDoc` load deduplication,
  `recursivelyResolveAndLoadLinks`),
* `DocContextService` (`buildContextItems` classification and BFS
  expansion, `sortItems` hoist-aware ordering).

TypeScript `Map`/`Set` objects are modelled as association lists with
JavaScript insertion-order semantics (updating an existing key keeps its
position; new keys are appended).  External collaborators that are not
part of this repository (the WHATWG URL parser, `micromatch`,
`path.relative`, the file system, JavaScript `Number` coercion) are
parameters of the embedding.  `String.prototype.localeCompare` is
modelled as lexicographic comparison of code points, and
`Array.prototype.sort` (stable in modern JavaScript) as a stable merge
sort on the comparator.
-/

namespace MdRules

/-! ## JavaScript Map / Set semantics -/

/-- A JavaScript `Map` with string keys: an association list in insertion
order, at most one entry per key. -/
abbrev JSMap (α : Type) := List (String × α)

/-- `Map.get`: the value at the first matching key. -/
def jmGet {α : Type} : JSMap α → String → Option α
  | [], _ => none
  | p :: m, k => if p.1 = k then some p.2 else jmGet m k

/-- `Map.has`. -/
def jmHas {α : Type} (m : JSMap α) (k : String) : Bool :=
  (jmGet m k).isSome

/-- `Map.set`: replace the first matching entry in place (keeping its
position), else append — JavaScript insertion-order semantics. -/
def jmSet {α : Type} : JSMap α → String → α → JSMap α
  | [], k, v => [(k, v)]
  | p :: m, k, v => if p.1 = k then (k, v) :: m else p :: jmSet m k v

/-- `Map.values()` in insertion order. -/
def jmValues {α : Type} (m : JSMap α) : List α := m.map Prod.snd

/-- `Map.keys()` in insertion order. -/
def jmKeys {α : Type} (m : JSMap α) : List String := m.map Prod.fst

/-- A JavaScript `Set` of strings: insertion-ordered, duplicate-free. -/
abbrev JSSet := List String

/-- `Set.add`: append when absent. -/
def sAdd (s : JSSet) (x : String) : JSSet :=
  if s.contains x then s else s ++ [x]

theorem jmGet_set {α : Type} (m : JSMap α) (k k' : String) (v : α) :
    jmGet (jmSet m k v) k' = if k = k' then some v else jmGet m k' := by
  induction m with
  | nil => by_cases h : k = k' <;> simp [jmSet, jmGet, h]
  | cons p m ih =>
    obtain ⟨a, b⟩ := p
    by_cases h1 : a = k
    · subst h1
      by_cases h2 : a = k' <;> simp [jmSet, jmGet, h2]
    · by_cases h2 : a = k'
      · subst h2
        have : ¬ k = a := fun h => h1 h.symm
        simp [jmSet, jmGet, h1, this]
      · simp [jmSet, jmGet, h1, h2, ih]

theorem jmKeys_set {α : Type} (m : JSMap α) (k : String) (v : α) :
    jmKeys (jmSet m k v) = if jmHas m k then jmKeys m else jmKeys m ++ [k] := by
  induction m with
  | nil => simp [jmSet, jmKeys, jmHas, jmGet]
  | cons p m ih =>
    obtain ⟨a, b⟩ := p
    by_cases h1 : a = k
    · subst h1; simp [jmSet, jmKeys, jmHas, jmGet]
    · simp only [jmKeys, jmHas, jmGet] at ih ⊢
      simp only [jmSet, if_neg h1, List.map_cons, if_neg h1]
      by_cases h2 : (jmGet m k).isSome <;> simp [h2] at ih ⊢ <;> simp [ih]

theorem jmHas_set {α : Type} (m : JSMap α) (k k' : String) (v : α) :
    jmHas (jmSet m k v) k' = (k = k' || jmHas m k') := by
  unfold jmHas
  rw [jmGet_set]
  by_cases h : k = k' <;> simp [h]

/-- Membership of an entry is propagated to `jmGet`-success. -/
theorem jmGet_isSome_of_mem {α : Type} {m : JSMap α} {p : String × α}
    (h : p ∈ m) : (jmGet m p.1).isSome := by
  induction m with
  | nil => cases h
  | cons q m ih =>
    rcases List.mem_cons.mp h with h | h
    · subst h; simp [jmGet]
    · by_cases hq : q.1 = p.1 <;> simp [jmGet, hq, ih h]

/-- On a map whose keys are duplicate-free, `jmGet` finds exactly the
entries. -/
theorem jmGet_eq_some_iff_mem {α : Type} {m : JSMap α}
    (hnd : (jmKeys m).Nodup) (k : String) (v : α) :
    jmGet m k = some v ↔ (k, v) ∈ m := by
  induction m with
  | nil => simp [jmGet]
  | cons p m ih =>
    obtain ⟨a, b⟩ := p
    simp only [jmKeys, List.map_cons, List.nodup_cons] at hnd
    by_cases h : a = k
    · subst h
      constructor
      · intro hv
        have hv2 : b = v := by simpa [jmGet] using hv
        exact List.mem_cons.mpr (Or.inl (by rw [hv2]))
      · intro hmem
        rcases List.mem_cons.mp hmem with hh | hh
        · have h2 : v = b := congrArg Prod.snd hh
          simp [jmGet, h2]
        · exact absurd (List.mem_map_of_mem Prod.fst hh) (by simpa [jmKeys] using hnd.1)
    · simp only [jmGet, if_neg h, List.mem_cons]
      rw [ih hnd.2]
      constructor
      · exact Or.inr
      · rintro (hh | hh)
        · exact absurd (congrArg Prod.fst hh.symm) h
        · exact hh

theorem jmValues_perm_of_perm {α : Type} {m₁ m₂ : JSMap α} (h : m₁.Perm m₂) :
    (jmValues m₁).Perm (jmValues m₂) := h.map Prod.snd

theorem jmKeys_perm_of_perm {α : Type} {m₁ m₂ : JSMap α} (h : m₁.Perm m₂) :
    (jmKeys m₁).Perm (jmKeys m₂) := h.map Prod.fst

/-- `sAdd` preserves duplicate-freedom. -/
theorem sAdd_nodup {s : JSSet} (h : s.Nodup) (x : String) : (sAdd s x).Nodup := by
  unfold sAdd
  by_cases hc : x ∈ s
  · simp [hc, h]
  · have hc2 : s.contains x = false := by
      cases hcc : s.contains x
      · rfl
      · exact absurd (by simpa [List.contains, List.elem_iff] using hcc) hc
    simp only [hc2, Bool.false_eq_true, if_false]
    refine List.Nodup.append h (List.nodup_singleton x) ?_
    intro a ha hb
    simp at hb
    subst hb
    exact hc ha

theorem sAdd_mem {s : JSSet} {x y : String} :
    y ∈ sAdd s x ↔ y ∈ s ∨ y = x := by
  unfold sAdd
  by_cases hc : x ∈ s
  · have hc2 : s.contains x = true := by simpa [List.contains, List.elem_iff] using hc
    simp only [hc2, if_true]
    constructor
    · exact Or.inl
    · rintro (h | h)
      · exact h
      · subst h; exact hc
  · have hc2 : s.contains x = false := by
      cases hcc : s.contains x
      · rfl
      · exact absurd (by simpa [List.contains, List.elem_iff] using hcc) hc
    simp only [hc2, Bool.false_eq_true, if_false]
    simp [hc, or_comm]

/-! ## Data model (`types.ts`) -/

/-- `DocLinkRange` from `types.ts`: `{from: number, to: number | "end"}`.
JavaScript numbers are modelled as rationals (the claims only compare
them); `lineTo = none` stands for the literal `"end"`. -/
structure DocLinkRange where
  lineFrom : ℚ
  lineTo : Option ℚ
  deriving DecidableEq, Repr

/-- `DocLink` from `types.ts` (current revision, with `rawLinkTarget`). -/
structure DocLink where
  anchorText : String
  filePath : String
  rawLinkTarget : String
  isInline : Bool
  inlineLinesRange : Option DocLinkRange
  deriving DecidableEq, Repr

/-- `DocMeta` from `types.ts`. -/
structure DocMeta where
  description : Option String
  globs : List String
  alwaysApply : Bool
  deriving DecidableEq, Repr

/-- `Doc` from `types.ts`. -/
structure Doc where
  contentLinesBeforeParsed : Nat
  content : String
  meta : DocMeta
  filePath : String
  linksTo : List DocLink
  isMarkdown : Bool
  isError : Bool
  errorReason : Option String
  deriving DecidableEq, Repr

/-! ## Link extractor (`link-extractor.service.ts`)

The regex `/\[([^\]]+?)\]\(([^)]+)\)/g` is reproduced as a left-to-right
scanner: at each position, a match needs `[`, a non-empty anchor free of
`]`, the two characters `](`, and a non-empty target free of `)`.  After
a match the scan resumes past the closing parenthesis; after a failed
attempt it resumes one character later, exactly like `RegExp.exec` with
a global flag. -/

/-- Split a character list at the first occurrence of `c` (exclusive);
`none` when `c` does not occur. -/
def takeUntil (c : Char) : List Char → Option (List Char × List Char)
  | [] => none
  | x :: xs =>
    if x = c then some ([], xs)
    else (takeUntil c xs).map (fun p => (x :: p.1, p.2))

/-- All matches of the link regex, in text order, as
`(anchorText, linkTarget)` pairs.  The `fuel` argument only makes the
recursion structural: every recursive call strictly shortens the
character list, so fuel equal to the input length never runs out. -/
def scanAux : Nat → List Char → List (String × String)
  | 0, _ => []
  | _ + 1, [] => []
  | fuel + 1, c :: rest =>
    if c = '[' then
      match takeUntil ']' rest with
      | none => scanAux fuel rest
      | some (anchor, afterBracket) =>
        if anchor.isEmpty then scanAux fuel rest
        else
          match afterBracket with
          | '(' :: afterParen =>
            (match takeUntil ')' afterParen with
             | none => scanAux fuel rest
             | some (target, afterClose) =>
               if target.isEmpty then scanAux fuel rest
               else (String.mk anchor, String.mk target) :: scanAux fuel afterClose)
          | _ => scanAux fuel rest
    else scanAux fuel rest

/-- JavaScript `String.prototype.toLowerCase`, restricted to the ASCII
range (the embedding only compares against ASCII literals). -/
def jsToLower (s : String) : String := String.mk (s.data.map Char.toLower)

/-- Worker of `jsSplitChar`. -/
def splitCharAux (sep : Char) : List Char → List Char → List String
  | [], acc => [String.mk acc.reverse]
  | c :: rest, acc =>
    if c = sep then String.mk acc.reverse :: splitCharAux sep rest []
    else splitCharAux sep rest (c :: acc)

/-- JavaScript `String.prototype.split` with a one-character separator
(`"".split(sep) = [""]`; every separator occurrence splits). -/
def jsSplitChar (sep : Char) (s : String) : List String :=
  splitCharAux sep s.data []

/-- Worker of `unescapeAmp`; fuel makes the recursion structural and
equals the input length, which every call strictly decreases. -/
def unescapeAux : Nat → List Char → List Char
  | 0, l => l
  | _ + 1, [] => []
  | fuel + 1, c :: rest =>
    if List.isPrefixOf "&amp;".data (c :: rest) then
      '&' :: unescapeAux fuel ((c :: rest).drop 5)
    else c :: unescapeAux fuel rest

/-- `target.replace(/&amp;/g, "&")`. -/
def unescapeAmp (s : String) : String :=
  String.mk (unescapeAux s.data.length s.data)

/-- `linkRegex.exec` loop over the document text. -/
def scanLinks (docContent : String) : List (String × String) :=
  scanAux docContent.data.length docContent.data

/-- A parsed URL query string: the `searchParams` entries in order.
`searchParams.get` returns the first value for the name. -/
abbrev QueryParams := List (String × String)

/-- `LinkExtractorService.LINK_PARAM`. -/
def linkParamName : String := "md-link"

/-- `LinkExtractorService.EMBED_PARAM`. -/
def embedParamName : String := "md-embed"

/-- `isParamTruthy(url, param)`: the parameter exists and equals
`"true"` or `"1"` (case-sensitive). -/
def isParamTruthy (params : QueryParams) (param : String) : Bool :=
  match jmGet params param with
  | none => false
  | some v => v = "true" || v = "1"

/-- `isEmbedParamPresentAndNotFalse(url)`: `md-embed` exists and its
value, lower-cased, differs from `"false"`. -/
def isEmbedParamPresentAndNotFalse (params : QueryParams) : Bool :=
  match jmGet params embedParamName with
  | none => false
  | some v => jsToLower v ≠ "false"

/-- `parseEmbedParameter(url, docFilePath)` (logging dropped).
`jsNumber` models the JavaScript `Number(string)` coercion: `none` is
`NaN`.  Returns `(isInline, inlineLinesRange)`. -/
def parseEmbedParameter (jsNumber : String → Option ℚ) (params : QueryParams) :
    Bool × Option DocLinkRange :=
  let embedParamValue := jmGet params embedParamName
  let isInline := isEmbedParamPresentAndNotFalse params
  if isInline = false ∨ embedParamValue = none then (false, none)
  else
    match embedParamValue with
    | none => (false, none)
    | some rangeString =>
      let parts := jsSplitChar '-' rangeString
      if parts.length = 2 then
        let fromStr := parts.headD ""
        let toStr := (parts.drop 1).headD ""
        let fromNum : Option ℚ := if fromStr = "" then some 0 else jsNumber fromStr
        let toNumOrEnd : Option (Option ℚ) :=
          if toStr = "" ∨ jsToLower toStr = "end" then some none
          else (jsNumber toStr).map some
        match fromNum, toNumOrEnd with
        | some f, some t =>
          match t with
          | none => (isInline, some ⟨f, none⟩)
          | some tv =>
            if f > tv then (isInline, none) else (isInline, some ⟨f, some tv⟩)
        | _, _ => (isInline, none)
      else (isInline, none)

/-- External collaborators of the link extractor: the WHATWG URL parser
(returning the `searchParams` list, `none` on an invalid URL), the
JavaScript `Number` coercion, and the file-system path helpers. -/
structure LinkEnv where
  parseURL : String → Option QueryParams
  jsNumber : String → Option ℚ
  resolvePath : String → String → String
  getDirname : String → String

/-- `LinkExtractorService.extractLinks(docFilePath, docContent)`.
An occurrence with an invalid URL is skipped (the `try`/`catch`); a
non-qualifying occurrence is dropped. -/
def extractLinks (env : LinkEnv) (docFilePath docContent : String) : List DocLink :=
  let sourceDir := env.getDirname docFilePath
  (scanLinks docContent).filterMap fun occ =>
    let anchorText := occ.1
    let linkTarget := occ.2
    let relativePath := (jsSplitChar '?' linkTarget).headD ""
    let cleanedLinkTarget := unescapeAmp linkTarget
    let cleanedRelativePath := unescapeAmp relativePath
    match env.parseURL cleanedLinkTarget with
    | none => none
    | some params =>
      let shouldProcessLink :=
        isParamTruthy params linkParamName || isEmbedParamPresentAndNotFalse params
      if shouldProcessLink then
        let pr := parseEmbedParameter env.jsNumber params
        let absolutePath := env.resolvePath sourceDir cleanedRelativePath
        some { filePath := absolutePath
               rawLinkTarget := linkTarget
               isInline := pr.1
               inlineLinesRange := pr.2
               anchorText := anchorText }
      else none

/-- The qualification condition, spelled out as the spec states it. -/
theorem qualifies_iff (params : QueryParams) :
    (isParamTruthy params linkParamName || isEmbedParamPresentAndNotFalse params) = true ↔
      ((jmGet params linkParamName = some "true" ∨ jmGet params linkParamName = some "1") ∨
        ∃ v, jmGet params embedParamName = some v ∧ jsToLower v ≠ "false") := by
  unfold isParamTruthy isEmbedParamPresentAndNotFalse
  cases hl : jmGet params linkParamName with
  | none =>
    cases he : jmGet params embedParamName with
    | none => simp
    | some v => by_cases hv : jsToLower v = "false" <;> simp [hv]
  | some w =>
    cases he : jmGet params embedParamName with
    | none => by_cases hw : w = "true" <;> by_cases h1 : w = "1" <;> simp [hw, h1]
    | some v =>
      by_cases hw : w = "true" <;> by_cases h1 : w = "1" <;>
        by_cases hv : jsToLower v = "false" <;> simp [hw, h1, hv]

/-- **C4.** A `[anchor](target)` occurrence contributes a link to the
result of `extractLinks` if and only if the `md-link` parameter equals
exactly `"true"` or `"1"` (case-sensitive) or the `md-embed` parameter
is present with a value that, lower-cased, is not `"false"`; every other
occurrence is dropped.  (The occurrence's target must parse as a URL —
the surrounding `try`/`catch` skips invalid URLs.) -/
theorem extractLinks_qualification (env : LinkEnv) (docFilePath docContent : String)
    (anchor target : String) (params : QueryParams)
    (hocc : (anchor, target) ∈ scanLinks docContent)
    (hurl : env.parseURL (unescapeAmp target) = some params) :
    (∃ l ∈ extractLinks env docFilePath docContent, l.rawLinkTarget = target) ↔
      ((jmGet params linkParamName = some "true" ∨ jmGet params linkParamName = some "1") ∨
        ∃ v, jmGet params embedParamName = some v ∧ jsToLower v ≠ "false") := by
  rw [← qualifies_iff]
  constructor
  · rintro ⟨l, hl, hraw⟩
    unfold extractLinks at hl
    simp only [List.mem_filterMap] at hl
    obtain ⟨⟨a', t'⟩, hocc', hf⟩ := hl
    simp only at hf
    cases hq : env.parseURL (unescapeAmp t') with
    | none => rw [hq] at hf; simp at hf
    | some params' =>
      rw [hq] at hf
      simp only at hf
      by_cases hs : (isParamTruthy params' linkParamName ||
          isEmbedParamPresentAndNotFalse params') = true
      · rw [hs] at hf
        simp only [if_true, Option.some_inj] at hf
        have ht : t' = target := by
          have h1 := congrArg DocLink.rawLinkTarget hf
          simp only at h1
          rw [h1, hraw]
        subst ht
        rw [hurl] at hq
        cases hq
        exact hs
      · rw [Bool.not_eq_true] at hs
        rw [hs] at hf
        simp at hf
  · intro hcond
    refine ⟨⟨anchor,
        env.resolvePath (env.getDirname docFilePath)
          (unescapeAmp ((jsSplitChar '?' target).headD "")),
        target,
        (parseEmbedParameter env.jsNumber params).1,
        (parseEmbedParameter env.jsNumber params).2⟩, ?_, rfl⟩
    unfold extractLinks
    refine List.mem_filterMap.mpr ⟨(anchor, target), hocc, ?_⟩
    simp only
    rw [hurl]
    simp only [hcond, if_true]

/-- The `"A-B"` range rules exactly as the claim states them: `A` empty
becomes 0, `B` empty or case-insensitive `"end"` becomes end, a range is
produced only when `A ≤ B` whenever both are numeric, and any parse
failure or `A > B` degrades to a whole-document embed (`none`). -/
def specEmbedRange (jsNumber : String → Option ℚ) (v : String) : Option DocLinkRange :=
  match jsSplitChar '-' v with
  | [a, b] =>
    let fa : Option ℚ := if a = "" then some 0 else jsNumber a
    let tb : Option (Option ℚ) :=
      if b = "" ∨ jsToLower b = "end" then some none else (jsNumber b).map some
    match fa, tb with
    | some f, some none => some ⟨f, none⟩
    | some f, some (some t) => if f ≤ t then some ⟨f, some t⟩ else none
    | _, _ => none
  | _ => none

/-- Code/spec agreement for the embed-range parse, given that the
`md-embed` parameter is present and not `"false"`. -/
theorem parseEmbed_eq_spec (jsNumber : String → Option ℚ) (params : QueryParams)
    (v : String) (hv : jmGet params embedParamName = some v)
    (hinl : isEmbedParamPresentAndNotFalse params = true) :
    parseEmbedParameter jsNumber params = (true, specEmbedRange jsNumber v) := by
  unfold parseEmbedParameter
  rw [hv, hinl]
  simp only [Bool.true_eq_false, reduceCtorEq, or_self, if_false]
  unfold specEmbedRange
  cases hsplit : jsSplitChar '-' v with
  | nil => simp
  | cons a rest =>
    cases rest with
    | nil => simp
    | cons b rest2 =>
      cases rest2 with
      | cons c rest3 => simp
      | nil =>
        simp only [List.length_cons, List.length_nil, Nat.zero_add, List.headD_cons,
          List.drop_succ_cons, List.drop_zero, if_true]
        norm_num
        by_cases ha : a = ""
        · simp only [ha, if_true]
          by_cases hb : b = "" ∨ jsToLower b = "end"
          · simp [hb]
          · simp only [hb, if_false]
            cases jsNumber b with
            | none => simp
            | some t =>
              by_cases hcmp : t < (0 : ℚ)
              · simp [hcmp, not_le.mpr hcmp]
              · simp [hcmp, not_lt.mp hcmp]
        · simp only [ha, if_false]
          cases jsNumber a with
          | none =>
            by_cases hb : b = "" ∨ jsToLower b = "end" <;> simp [hb]
          | some f =>
            by_cases hb : b = "" ∨ jsToLower b = "end"
            · simp [hb]
            · simp only [hb, if_false]
              cases jsNumber b with
              | none => simp
              | some t =>
                by_cases hcmp : t < f
                · simp [hcmp, not_le.mpr hcmp]
                · simp [hcmp, not_lt.mp hcmp]

/-- Every range the spec-side parse produces satisfies `from ≤ to`
whenever `to` is numeric. -/
theorem specEmbedRange_le (jsNumber : String → Option ℚ) (v : String) (f t : ℚ)
    (h : specEmbedRange jsNumber v = some ⟨f, some t⟩) : f ≤ t := by
  unfold specEmbedRange at h
  split at h
  next a b heq =>
    cases hja : (if a = "" then some (0:ℚ) else jsNumber a) with
    | none => rw [hja] at h; simp at h
    | some fv =>
      rw [hja] at h
      cases hjb : (if b = "" ∨ jsToLower b = "end" then some (none : Option ℚ)
          else Option.map some (jsNumber b)) with
      | none => rw [hjb] at h; simp at h
      | some tb =>
        rw [hjb] at h
        cases tb with
        | none => simp at h
        | some tv =>
          simp only at h
          by_cases hc : fv ≤ tv
          · simp only [hc, if_true, Option.some_inj, DocLinkRange.mk.injEq,
              Option.some.injEq] at h
            obtain ⟨h1, h2⟩ := h
            rw [← h1, ← h2]
            exact hc
          · simp [hc] at h
  next => simp at h

/-- **C5.** For a link whose `md-embed` parameter is present and not
`"false"`, `parseEmbedParameter` marks the link inline and parses the
value by the `"A-B"` rules (`A` empty becomes 0, `B` empty or
case-insensitive `"end"` becomes end, a range only when `A ≤ B` whenever
both are numeric, and any parse failure or `A > B` degrades to a
whole-document embed), and every produced numeric range satisfies
`from ≤ to`. -/
theorem parseEmbedParameter_range_rules (jsNumber : String → Option ℚ)
    (params : QueryParams) (v : String)
    (hv : jmGet params embedParamName = some v) (hf : jsToLower v ≠ "false") :
    parseEmbedParameter jsNumber params = (true, specEmbedRange jsNumber v) ∧
      ∀ f t, (parseEmbedParameter jsNumber params).2 = some ⟨f, some t⟩ → f ≤ t := by
  have hinline : isEmbedParamPresentAndNotFalse params = true := by
    unfold isEmbedParamPresentAndNotFalse
    rw [hv]
    simpa using hf
  have hmain := parseEmbed_eq_spec jsNumber params v hv hinline
  refine ⟨hmain, ?_⟩
  intro f t hrange
  rw [hmain] at hrange
  exact specEmbedRange_le jsNumber v f t hrange

/-- URL-parser stub for the concrete examples below: it handles exactly
the targets occurring in them. -/
def urlParseW : String → Option QueryParams := fun s =>
  if s = "t.md?md-link=true" then some [("md-link", "true")] else none

/-- Concrete link-extractor environment for the examples. -/
def linkEnvW : LinkEnv :=
  { parseURL := urlParseW
    jsNumber := fun _ => none
    resolvePath := fun _ rel => rel
    getDirname := fun _ => "/d" }

/-- Witness for `extractLinks_qualification` at a concrete document. -/
theorem extractLinks_qualification_witness :
    ("A", "t.md?md-link=true") ∈ scanLinks "see [A](t.md?md-link=true)" ∧
      ∃ l ∈ extractLinks linkEnvW "/d/doc.md" "see [A](t.md?md-link=true)",
        l.rawLinkTarget = "t.md?md-link=true" :=
  ⟨by decide,
    (extractLinks_qualification linkEnvW "/d/doc.md" "see [A](t.md?md-link=true)"
        "A" "t.md?md-link=true" [("md-link", "true")] (by decide)
        (by decide)).mpr (Or.inl (Or.inl (by decide)))⟩

/-- `Number` stub for the concrete examples. -/
def jsNumberW : String → Option ℚ := fun s =>
  if s = "3" then some 3 else if s = "7" then some 7 else none

/-- Witness for `parseEmbedParameter_range_rules` at a concrete
parameter list. -/
theorem parseEmbedParameter_range_rules_witness :
    parseEmbedParameter jsNumberW [("md-embed", "3-7")] =
      (true, specEmbedRange jsNumberW "3-7") ∧ (3 : ℚ) ≤ 7 :=
  ⟨(parseEmbedParameter_range_rules jsNumberW [("md-embed", "3-7")] "3-7"
      (by decide) (by decide)).1,
    (parseEmbedParameter_range_rules jsNumberW [("md-embed", "3-7")] "3-7"
      (by decide) (by decide)).2 3 7 (by decide)⟩

/-! ## Document parser (`doc-parser.service.ts`)

`gray-matter` and the `zod` meta schema are external collaborators;
they are modelled as one abstract function returning the normalized
meta and the post-front-matter body on success, `none` on a parse
failure.  The parser's own `trimContent` is embedded exactly. -/

/-- The whitespace class trimmed by `String.prototype.trim` (ASCII
portion; the claims never involve Unicode spaces). -/
def jsIsWhitespace (c : Char) : Bool :=
  c = ' ' || c = '\t' || c = '\n' || c = '\r' || c = '\x0b' || c = '\x0c'

/-- `content.trim()`. -/
def jsTrim (s : String) : String :=
  String.mk (((s.data.dropWhile jsIsWhitespace).reverse.dropWhile jsIsWhitespace).reverse)

/-- Worker for `replace(/\n{2,}/g, "\n")`: every maximal run of
newlines becomes a single newline (runs of length one are unchanged
either way, so this equals replacing only the runs of two or more).
Fuel makes the recursion structural; fuel equal to the input length
never runs out because every call strictly shortens the list. -/
def collapseAux : Nat → List Char → List Char
  | 0, l => l
  | _ + 1, [] => []
  | fuel + 1, c :: rest =>
    if c = '\n' then '\n' :: collapseAux fuel (rest.dropWhile (fun d => d = '\n'))
    else c :: collapseAux fuel rest

/-- `DocParserService.trimContent`:
`content.trim().replace(/\n{2,}/g, "\n")`. -/
def trimContent (content : String) : String :=
  String.mk (collapseAux (jsTrim content).data.length (jsTrim content).data)

/-- `DocParserService.countLines`. -/
def countLines (content : String) : Nat := (jsSplitChar '\n' content).length

/-- `DocParserService.isMarkdown`. -/
def isMarkdownName (fileName : String) : Bool :=
  List.isSuffixOf ".md".data (jsToLower fileName).data

/-- `DocParserService.getBlankDoc` (the `DocOverride` fields that the
parser itself passes). -/
def getBlankDoc (fileName : String) (content : Option String)
    (isErr : Bool) (reason : Option String) : Doc :=
  { contentLinesBeforeParsed := countLines (content.getD "")
    content := trimContent (content.getD "")
    meta := { description := none, globs := [], alwaysApply := false }
    filePath := fileName
    linksTo := []
    isMarkdown := isMarkdownName fileName
    isError := isErr
    errorReason := reason }

/-- `DocParserService.parse(fileName, fileContent)`. `matterFn` stands
for `gray-matter` plus the `zod` schema plus the meta normalizers:
`some (meta, body)` on success, `none` when front matter is
malformed. -/
def parse (matterFn : String → Option (DocMeta × String))
    (fileName fileContent : String) : Doc :=
  let doc := getBlankDoc fileName (some fileContent) false none
  match matterFn fileContent with
  | some mb => { doc with meta := mb.1, content := trimContent mb.2 }
  | none =>
    { doc with isError := true
               errorReason := some "Failed to parse doc meta YAML" }

theorem collapseAux_head? (fuel : Nat) (l : List Char) :
    (collapseAux fuel l).head? = l.head? := by
  cases fuel with
  | zero => rfl
  | succ n =>
    cases l with
    | nil => rfl
    | cons c rest =>
      by_cases h : c = '\n' <;> simp [collapseAux, h]

theorem dropWhile_head?_false {p : Char → Bool} {l : List Char} {c : Char}
    (h : (l.dropWhile p).head? = some c) : p c = false := by
  induction l with
  | nil => simp [List.dropWhile] at h
  | cons x xs ih =>
    by_cases hx : p x
    · rw [List.dropWhile_cons_of_pos hx] at h
      exact ih h
    · rw [List.dropWhile_cons_of_neg hx] at h
      simp at h
      subst h
      simpa using hx

/-- `collapseAux` leaves no two adjacent newline characters when the
fuel covers the input. -/
theorem collapseAux_chain (fuel : Nat) :
    ∀ l : List Char, l.length ≤ fuel →
      (collapseAux fuel l).Chain' (fun a b => ¬(a = '\n' ∧ b = '\n')) := by
  induction fuel with
  | zero =>
    intro l hl
    rw [Nat.le_zero, List.length_eq_zero] at hl
    subst hl
    simp [collapseAux]
  | succ n ih =>
    intro l hl
    cases l with
    | nil => simp [collapseAux]
    | cons c rest =>
      simp only [List.length_cons, Nat.succ_le_succ_iff] at hl
      by_cases h : c = '\n'
      · subst h
        simp only [collapseAux, if_pos rfl]
        have hlen : (rest.dropWhile (fun d => d = '\n')).length ≤ n :=
          le_trans (List.dropWhile_sublist _).length_le hl
        refine List.Chain'.cons' (ih _ hlen) ?_
        intro y hy
        rw [collapseAux_head?] at hy
        have := dropWhile_head?_false hy
        simp at this
        intro hc
        exact this hc.2
      · simp only [collapseAux, if_neg h]
        refine List.Chain'.cons' (ih rest hl) ?_
        intro y hy
        intro hc
        exact h hc.1

/-- The first character of the trimmed text is never whitespace. -/
theorem jsTrim_head_not_ws {s : String} {c : Char}
    (h : (jsTrim s).data.head? = some c) : jsIsWhitespace c = false := by
  unfold jsTrim at h
  simp only [String.data] at h
  set t1 := s.data.dropWhile jsIsWhitespace with ht1
  have hpre : (t1.reverse.dropWhile jsIsWhitespace).reverse <+: t1 := by
    have hsuf : t1.reverse.dropWhile jsIsWhitespace <:+ t1.reverse :=
      List.dropWhile_suffix _
    have := List.reverse_prefix.mpr hsuf
    simpa using this
  obtain ⟨t, htt⟩ := hpre
  have hh : t1.head? = some c := by
    rw [← htt]
    cases hres : (t1.reverse.dropWhile jsIsWhitespace).reverse with
    | nil =>
      rw [hres] at h
      simp at h
    | cons x xs =>
      rw [hres] at h
      simp at h
      simp [h]
  exact dropWhile_head?_false hh

/-- The last character of the trimmed text is never whitespace. -/
theorem jsTrim_getLast_not_ws {s : String} {c : Char}
    (h : (jsTrim s).data.getLast? = some c) : jsIsWhitespace c = false := by
  unfold jsTrim at h
  simp only [String.data] at h
  rw [List.getLast?_reverse] at h
  exact dropWhile_head?_false h

/-- `collapseAux` never changes the last character. -/
theorem collapseAux_getLast? (fuel : Nat) :
    ∀ l : List Char, l.length ≤ fuel →
      (collapseAux fuel l).getLast? = l.getLast? := by
  induction fuel with
  | zero => intro l _; rfl
  | succ n ih =>
    intro l hl
    cases l with
    | nil => rfl
    | cons c rest =>
      simp only [List.length_cons, Nat.succ_le_succ_iff] at hl
      by_cases h : c = '\n'
      · subst h
        have hstep : collapseAux (n + 1) ('\n' :: rest) =
            '\n' :: collapseAux n (rest.dropWhile (fun d => d = '\n')) := by
          simp [collapseAux]
        rw [hstep, List.getLast?_cons, List.getLast?_cons]
        have hsub : (rest.dropWhile (fun d => d = '\n')).length ≤ n :=
          le_trans (List.dropWhile_sublist _).length_le hl
        rw [ih _ hsub]
        refine congrArg some ?_
        cases hres : rest.dropWhile (fun d => d = '\n') with
        | nil =>
          have hall : ∀ x ∈ rest, x = '\n' := fun x hx => by
            simpa using List.dropWhile_eq_nil_iff.mp hres x hx
          cases rest with
          | nil => simp
          | cons r rs =>
            have hmem : (r :: rs).getLast? = some '\n' := by
              cases hg : (r :: rs).getLast? with
              | none => simp at hg
              | some d =>
                have hd : d ∈ r :: rs := List.mem_of_mem_getLast? hg
                rw [hall d hd]
            simp [hmem]
        | cons d ds =>
          have hsuf : d :: ds <:+ rest := hres ▸ List.dropWhile_suffix _
          obtain ⟨pre, hpre⟩ := hsuf
          rw [← hpre, List.getLast?_append]
          cases hg : (d :: ds).getLast? with
          | none => simp at hg
          | some y => simp
      · have hstep : collapseAux (n + 1) (c :: rest) = c :: collapseAux n rest := by
          simp [collapseAux, h]
        rw [hstep, List.getLast?_cons, List.getLast?_cons, ih rest hl]

/-- **C10.** When front matter parses successfully, the stored content
is the normalized text `trimContent(body)` — leading/trailing whitespace
trimmed and every newline run collapsed to one — so it has no blank line
(no two adjacent newlines), does not begin or end with whitespace, and
differs in general from the verbatim post-front-matter body (so any
line-range embed, which slices `doc.content`, slices this normalized
text, not the on-disk lines). -/
theorem parse_normalizes_content (matterFn : String → Option (DocMeta × String))
    (fileName fileContent : String) (meta : DocMeta) (body : String)
    (h : matterFn fileContent = some (meta, body)) :
    (parse matterFn fileName fileContent).content = trimContent body ∧
      (trimContent body).data.Chain' (fun a b => ¬(a = '\n' ∧ b = '\n')) ∧
      (∀ c, (trimContent body).data.head? = some c → jsIsWhitespace c = false) ∧
      (∀ c, (trimContent body).data.getLast? = some c → jsIsWhitespace c = false) ∧
      ∃ b : String, trimContent b ≠ b := by
  refine ⟨by simp [parse, h], ?_, ?_, ?_, ⟨"a\n\nb", by decide⟩⟩
  · exact collapseAux_chain _ _ le_rfl
  · intro c hc
    unfold trimContent at hc
    simp only [String.data] at hc
    rw [collapseAux_head?] at hc
    exact jsTrim_head_not_ws (c := c) hc
  · intro c hc
    unfold trimContent at hc
    simp only [String.data] at hc
    rw [collapseAux_getLast? _ _ le_rfl] at hc
    exact jsTrim_getLast_not_ws (c := c) hc

/-- Front-matter stub for the concrete example: one fixed document. -/
def matterFnW : String → Option (DocMeta × String) := fun s =>
  if s = "rawfile" then
    some ({ description := none, globs := [], alwaysApply := false }, "\nA\n\nB\n")
  else none

/-- Witness for `parse_normalizes_content` at a concrete document. -/
theorem parse_normalizes_content_witness :
    (parse matterFnW "f.md" "rawfile").content = trimContent "\nA\n\nB\n" ∧
      trimContent "\nA\n\nB\n" = "A\nB" :=
  ⟨(parse_normalizes_content matterFnW "f.md" "rawfile"
      { description := none, globs := [], alwaysApply := false } "\nA\n\nB\n"
      (by decide)).1, by decide⟩

/-! ## Document graph builder (`doc-index.service.ts`)

`getDoc` runs on the single-threaded JavaScript event loop.  Its
synchronous prefix — the `docMap` check, the `pendingDocPromises` check
and, when both miss, constructing the fetch promise (which issues the
`readFile` call) and registering it in `pendingDocPromises` — executes
without interleaving before the first `await` suspends, so it is one
atomic step of the concurrency model.  The continuation after the read
resolves (parse, `docMap.set`, and the `finally` that deletes the
pending entry) is the second atomic step.  Loads are numbered so that
"returns the same pending operation" is expressible. -/

/-- The shared mutable state of `DocIndexService`: the document index,
the pending-load table (path ↦ load id), a fresh-id counter, and the
log of `readFile`/extract operations started (path, load id). -/
structure IndexSt where
  docMap : JSMap Doc
  pending : JSMap Nat
  nextId : Nat
  reads : List (String × Nat)
  deriving DecidableEq, Repr

/-- What a `getDoc` call observes when its synchronous prefix runs. -/
inductive GetDocOutcome where
  | hitIndex (d : Doc)
  | joinedPending (id : Nat)
  | startedLoad (id : Nat)
  deriving DecidableEq, Repr

/-- The synchronous prefix of `getDoc(path)` as one atomic step:
index hit, join of the pending load, or start of a new load (read
issued, pending entry registered) — in that order, as in the source. -/
def getDocStep (s : IndexSt) (p : String) : IndexSt × GetDocOutcome :=
  match jmGet s.docMap p with
  | some d => (s, .hitIndex d)
  | none =>
    match jmGet s.pending p with
    | some id => (s, .joinedPending id)
    | none =>
      ({ s with
          pending := jmSet s.pending p s.nextId
          nextId := s.nextId + 1
          reads := s.reads ++ [(p, s.nextId)] },
        .startedLoad s.nextId)

/-- The continuation after the load for `p` finishes (successfully or
as an error placeholder `d`): `docMap.set`, then the `finally` deletes
the pending entry. -/
def loadCompleteStep (s : IndexSt) (p : String) (d : Doc) : IndexSt :=
  { s with
      docMap := jmSet s.docMap p d
      pending := s.pending.filter (fun q => q.1 ≠ p) }

/-- Number of reads issued for `p`. -/
def readsFor (s : IndexSt) (p : String) : Nat :=
  (s.reads.filter (fun r => r.1 = p)).length

/-- `n` consecutive `getDoc(p)` prefixes with no completion between. -/
def iterateGetDoc : Nat → IndexSt → String → IndexSt
  | 0, s, _ => s
  | n + 1, s, p => iterateGetDoc n (getDocStep s p).1 p

theorem getDocStep_of_pending {s : IndexSt} {p : String} {id : Nat}
    (hp : jmGet s.pending p = some id) (hm : jmGet s.docMap p = none) :
    getDocStep s p = (s, .joinedPending id) := by
  unfold getDocStep
  rw [hm, hp]

theorem iterateGetDoc_of_pending {p : String} {id : Nat} :
    ∀ (n : Nat) (s : IndexSt), jmGet s.pending p = some id →
      jmGet s.docMap p = none → iterateGetDoc n s p = s := by
  intro n
  induction n with
  | zero => intro s _ _; rfl
  | succ m ih =>
    intro s hp hm
    unfold iterateGetDoc
    rw [getDocStep_of_pending hp hm]
    exact ih s hp hm

/-- **C6.** The at-most-one-load-in-flight discipline of `getDoc`:
a read is issued only when the path is neither in the index nor
pending; a started load is registered as pending in the resulting
state; a `getDoc` arriving while the load is pending joins that very
load (same id) and changes nothing; and from a state where `p` is not
yet loaded, any number `n ≥ 1` of consecutive `getDoc(p)` calls issues
exactly one read — the first call starts the load, every later call
joins it. -/
theorem getDoc_single_flight (s : IndexSt) (p : String) :
    (∀ id, (getDocStep s p).2 = .startedLoad id →
        jmGet s.docMap p = none ∧ jmGet s.pending p = none) ∧
      (∀ id, (getDocStep s p).2 = .startedLoad id →
        jmGet (getDocStep s p).1.pending p = some id ∧
          readsFor (getDocStep s p).1 p = readsFor s p + 1) ∧
      (∀ id, jmGet s.pending p = some id → jmGet s.docMap p = none →
        (getDocStep s p).2 = .joinedPending id ∧ (getDocStep s p).1 = s) ∧
      (jmGet s.docMap p = none → jmGet s.pending p = none →
        ∀ n, 1 ≤ n →
          readsFor (iterateGetDoc n s p) p = readsFor s p + 1) := by
  refine ⟨?_, ?_, ?_, ?_⟩
  · intro id hout
    unfold getDocStep at hout
    cases hm : jmGet s.docMap p with
    | some d => rw [hm] at hout; simp at hout
    | none =>
      cases hp : jmGet s.pending p with
      | some j => rw [hm, hp] at hout; simp at hout
      | none => exact ⟨rfl, rfl⟩
  · intro id hout
    cases hm : jmGet s.docMap p with
    | some d => unfold getDocStep at hout; rw [hm] at hout; simp at hout
    | none =>
      cases hp : jmGet s.pending p with
      | some j => unfold getDocStep at hout; rw [hm, hp] at hout; simp at hout
      | none =>
        have hstep : getDocStep s p =
            ({ s with
                pending := jmSet s.pending p s.nextId
                nextId := s.nextId + 1
                reads := s.reads ++ [(p, s.nextId)] },
              .startedLoad s.nextId) := by
          unfold getDocStep
          rw [hm, hp]
        rw [hstep] at hout ⊢
        simp only [GetDocOutcome.startedLoad.injEq] at hout
        subst hout
        constructor
        · simp [jmGet_set]
        · unfold readsFor
          simp

  · intro id hp hm
    rw [getDocStep_of_pending hp hm]
    exact ⟨rfl, rfl⟩
  · intro hm hp n hn
    cases n with
    | zero => omega
    | succ m =>
      unfold iterateGetDoc
      have hstep : getDocStep s p =
          ({ s with
              pending := jmSet s.pending p s.nextId
              nextId := s.nextId + 1
              reads := s.reads ++ [(p, s.nextId)] },
            .startedLoad s.nextId) := by
        unfold getDocStep
        rw [hm, hp]
      rw [hstep]
      have hp1 : jmGet (jmSet s.pending p s.nextId) p = some s.nextId := by
        simp [jmGet_set]
      have hfix := iterateGetDoc_of_pending m
        { s with
            pending := jmSet s.pending p s.nextId
            nextId := s.nextId + 1
            reads := s.reads ++ [(p, s.nextId)] } hp1 hm
      rw [hfix]
      unfold readsFor
      simp

/-- Witness for `getDoc_single_flight`: two consecutive requests on an
empty state issue exactly one read. -/
theorem getDoc_single_flight_witness :
    readsFor (iterateGetDoc 2 ⟨[], [], 0, []⟩ "/a.md") "/a.md" = 1 :=
  (getDoc_single_flight ⟨[], [], 0, []⟩ "/a.md").2.2.2 (by decide) (by decide) 2 (by decide)

/-! ### The link-resolution loop (`recursivelyResolveAndLoadLinks`)

Loading is deterministic: `getDoc` writes `load(path)` into `docMap`
(an error placeholder when the read or parse fails), so the outbound
non-error markdown links of a path are a fixed function of the file
system.  `succ` abstracts that function: `succ p` is the list of
`link.filePath` of the node loaded for `p` (empty for non-markdown or
error nodes).  The loop state is the `processed` set and the current
round's `pathsToProcess` frontier; the `docMap` writes do not influence
the control flow and are omitted. -/

/-- One iteration of the `while` body: add the batch to `processed`,
then queue every linked path that is neither processed nor already
queued. -/
def resolveRound (succ : String → List String) (processed frontier : JSSet) :
    JSSet × JSSet :=
  let processed2 := frontier.foldl sAdd processed
  let next := frontier.foldl
    (fun acc p =>
      (succ p).foldl
        (fun acc2 q =>
          if processed2.contains q || acc2.contains q then acc2 else acc2 ++ [q])
        acc)
    []
  (processed2, next)

/-- The `while (pathsToProcess.size > 0)` loop.  `none` means the fuel
ran out before the frontier emptied. -/
def resolveLoop (succ : String → List String) : Nat → JSSet → JSSet → Option JSSet
  | 0, _, _ => none
  | fuel + 1, processed, frontier =>
    if frontier = [] then some processed
    else
      let pr := resolveRound succ processed frontier
      resolveLoop succ fuel pr.1 pr.2

theorem contains_iff (l : List String) (x : String) :
    l.contains x = true ↔ x ∈ l := by
  simp [List.contains, List.elem_iff]

theorem foldl_sAdd_mem (l : List String) :
    ∀ (s : JSSet) (x : String), x ∈ l.foldl sAdd s ↔ x ∈ s ∨ x ∈ l := by
  induction l with
  | nil => intro s x; simp
  | cons a l ih =>
    intro s x
    simp only [List.foldl_cons]
    rw [ih, sAdd_mem]
    simp [or_assoc, or_comm, or_left_comm]

theorem foldl_sAdd_nodup (l : List String) :
    ∀ s : JSSet, s.Nodup → (l.foldl sAdd s).Nodup := by
  induction l with
  | nil => intro s hs; exact hs
  | cons a l ih => intro s hs; exact ih _ (sAdd_nodup hs a)

/-- Spec of the inner queueing fold over one node's links. -/
theorem queueFold_spec (P : JSSet) (links : List String) :
    ∀ acc : JSSet, acc.Nodup → (∀ q ∈ acc, q ∉ P) →
      ((links.foldl
          (fun acc2 q =>
            if P.contains q || acc2.contains q then acc2 else acc2 ++ [q])
          acc).Nodup ∧
        ∀ q ∈ links.foldl
            (fun acc2 q =>
              if P.contains q || acc2.contains q then acc2 else acc2 ++ [q])
            acc, q ∉ P ∧ (q ∈ acc ∨ q ∈ links)) := by
  induction links with
  | nil => intro acc hnd hP; exact ⟨hnd, fun q hq => ⟨hP q hq, Or.inl hq⟩⟩
  | cons a links ih =>
    intro acc hnd hP
    simp only [List.foldl_cons]
    by_cases hcond : (P.contains a || acc.contains a) = true
    · rw [if_pos hcond]
      obtain ⟨h1, h2⟩ := ih acc hnd hP
      exact ⟨h1, fun q hq => ⟨(h2 q hq).1, by
        rcases (h2 q hq).2 with h | h
        · exact Or.inl h
        · exact Or.inr (List.mem_cons_of_mem a h)⟩⟩
    · rw [if_neg hcond]
      simp only [Bool.or_eq_true, not_or, Bool.not_eq_true] at hcond
      obtain ⟨hPa, hacca⟩ := hcond
      have hPa' : a ∉ P := fun hm => by
        rw [(contains_iff P a).mpr hm] at hPa; exact Bool.false_ne_true hPa.symm
      have hacca' : a ∉ acc := fun hm => by
        rw [(contains_iff acc a).mpr hm] at hacca; exact Bool.false_ne_true hacca.symm
      have hnd' : (acc ++ [a]).Nodup := by
        refine List.Nodup.append hnd (List.nodup_singleton a) ?_
        intro x hx hxa
        simp at hxa
        subst hxa
        exact hacca' hx
      have hP' : ∀ q ∈ acc ++ [a], q ∉ P := by
        intro q hq
        rcases List.mem_append.mp hq with h | h
        · exact hP q h
        · simp at h; subst h; exact hPa'
      obtain ⟨h1, h2⟩ := ih (acc ++ [a]) hnd' hP'
      refine ⟨h1, fun q hq => ⟨(h2 q hq).1, ?_⟩⟩
      rcases (h2 q hq).2 with h | h
      · rcases List.mem_append.mp h with h | h
        · exact Or.inl h
        · simp at h
          exact Or.inr (by simp [h])
      · exact Or.inr (List.mem_cons_of_mem a h)

/-- Spec of one round: `processed` becomes `processed ∪ frontier`; the
next frontier is duplicate-free, disjoint from the new `processed`, and
drawn from the links of the batch. -/
theorem resolveRound_spec (succ : String → List String)
    (processed frontier : JSSet) :
    (∀ x, x ∈ (resolveRound succ processed frontier).1 ↔
        x ∈ processed ∨ x ∈ frontier) ∧
      (resolveRound succ processed frontier).2.Nodup ∧
      ∀ q ∈ (resolveRound succ processed frontier).2,
        q ∉ (resolveRound succ processed frontier).1 ∧
          ∃ p ∈ frontier, q ∈ succ p := by
  refine ⟨fun x => foldl_sAdd_mem frontier processed x, ?_, ?_⟩
  all_goals
    have hmain :
        ∀ (fr : List String) (acc : JSSet), acc.Nodup →
          (∀ q ∈ acc, q ∉ frontier.foldl sAdd processed) →
          ((fr.foldl
              (fun acc p =>
                (succ p).foldl
                  (fun acc2 q =>
                    if (frontier.foldl sAdd processed).contains q ||
                        acc2.contains q then acc2
                    else acc2 ++ [q])
                  acc)
              acc).Nodup ∧
            ∀ q ∈ fr.foldl
                (fun acc p =>
                  (succ p).foldl
                    (fun acc2 q =>
                      if (frontier.foldl sAdd processed).contains q ||
                          acc2.contains q then acc2
                      else acc2 ++ [q])
                    acc)
                acc,
              q ∉ frontier.foldl sAdd processed ∧
                (q ∈ acc ∨ ∃ p ∈ fr, q ∈ succ p)) := by
      intro fr
      induction fr with
      | nil => intro acc h1 h2; exact ⟨h1, fun q hq => ⟨h2 q hq, Or.inl hq⟩⟩
      | cons p fr ih =>
        intro acc h1 h2
        simp only [List.foldl_cons]
        obtain ⟨g1, g2⟩ := queueFold_spec (frontier.foldl sAdd processed) (succ p) acc h1 h2
        obtain ⟨k1, k2⟩ := ih _ g1 (fun q hq => (g2 q hq).1)
        refine ⟨k1, fun q hq => ⟨(k2 q hq).1, ?_⟩⟩
        rcases (k2 q hq).2 with h | ⟨p', hp', hq'⟩
        · rcases (g2 q h).2 with h' | h'
          · exact Or.inl h'
          · exact Or.inr ⟨p, List.mem_cons_self p fr, h'⟩
        · exact Or.inr ⟨p', List.mem_cons_of_mem p hp', hq'⟩
  · exact (hmain frontier [] List.nodup_nil (by intro q hq; cases hq)).1
  · intro q hq
    have := (hmain frontier [] List.nodup_nil (by intro q hq; cases hq)).2 q hq
    refine ⟨this.1, ?_⟩
    rcases this.2 with h | h
    · cases h
    · exact h

/-- Universe elements not yet in `processed`. -/
def unprocessedCount (U processed : JSSet) : Nat :=
  (U.filter (fun u => !processed.contains u)).length

theorem unprocessedCount_lt (U : JSSet) {processed processed2 : JSSet}
    (hsub : ∀ u, u ∈ processed → u ∈ processed2) {x : String}
    (hxU : x ∈ U) (hxold : x ∉ processed) (hxnew : x ∈ processed2) :
    unprocessedCount U processed2 < unprocessedCount U processed := by
  unfold unprocessedCount
  have hmono : List.Sublist (U.filter (fun u => !processed2.contains u))
      (U.filter (fun u => !processed.contains u)) := by
    apply List.monotone_filter_right
    intro u hu
    simp only [Bool.not_eq_true'] at hu ⊢
    cases hc : processed.contains u with
    | false => rfl
    | true =>
      have hu2 : processed2.contains u = true :=
        (contains_iff processed2 u).mpr (hsub u ((contains_iff processed u).mp hc))
      rw [hu2] at hu
      cases hu
  have hle := hmono.length_le
  rcases Nat.lt_or_ge (U.filter (fun u => !processed2.contains u)).length
      (U.filter (fun u => !processed.contains u)).length with h | h
  · exact h
  · exfalso
    have heq : U.filter (fun u => !processed2.contains u) =
        U.filter (fun u => !processed.contains u) :=
      hmono.eq_of_length (le_antisymm hle h)
    have hx1 : x ∈ U.filter (fun u => !processed.contains u) := by
      refine List.mem_filter.mpr ⟨hxU, ?_⟩
      cases hc : processed.contains x with
      | false => rfl
      | true => exact absurd ((contains_iff processed x).mp hc) hxold
    rw [← heq] at hx1
    have := (List.mem_filter.mp hx1).2
    rw [(contains_iff processed2 x).mpr hxnew] at this
    simp at this

/-- The loop succeeds whenever the fuel exceeds the number of
unprocessed universe elements. -/
theorem resolveLoop_some (succ : String → List String) (U : JSSet)
    (hcl : ∀ p ∈ U, ∀ q ∈ succ p, q ∈ U) :
    ∀ (fuel : Nat) (processed frontier : JSSet),
      (∀ q ∈ frontier, q ∈ U ∧ q ∉ processed) →
      unprocessedCount U processed < fuel →
      ∃ P, resolveLoop succ fuel processed frontier = some P := by
  intro fuel
  induction fuel with
  | zero => intro processed frontier _ hlt; omega
  | succ n ih =>
    intro processed frontier hfr hlt
    unfold resolveLoop
    by_cases hemp : frontier = []
    · rw [if_pos hemp]
      exact ⟨processed, rfl⟩
    · rw [if_neg hemp]
      obtain ⟨hmem, hnd2, hnext⟩ := resolveRound_spec succ processed frontier
      obtain ⟨x, hx⟩ := List.exists_mem_of_ne_nil frontier hemp
      refine ih (resolveRound succ processed frontier).1
        (resolveRound succ processed frontier).2 ?_ ?_
      · intro q hq
        obtain ⟨hnp, p, hp, hqsucc⟩ := hnext q hq
        exact ⟨hcl p (hfr p hp).1 q hqsucc, hnp⟩
      · have hdec : unprocessedCount U (resolveRound succ processed frontier).1 <
            unprocessedCount U processed := by
          refine unprocessedCount_lt U
            (fun u hu => (hmem u).mpr (Or.inl hu))
            (hfr x hx).1 (hfr x hx).2 ((hmem x).mpr (Or.inr hx))
        omega

/-- **C7.** Termination and single-scan discipline of the
link-resolution loop: with a finite universe `U` closed under `succ`
and an initial frontier inside `U`, the loop with fuel `|U| + 1`
reaches the empty frontier and returns; every round turns `processed`
into exactly `processed ∪ frontier` (so it only grows); the next
frontier never contains an already-processed path (so no path is
re-scanned and none is added to `processed` twice); and a round with an
empty frontier exits the loop. -/
theorem resolveLoop_terminates (succ : String → List String) (U F0 : JSSet)
    (hcl : ∀ p ∈ U, ∀ q ∈ succ p, q ∈ U)
    (hF0 : ∀ q ∈ F0, q ∈ U) :
    (∃ P, resolveLoop succ (U.length + 1) [] F0 = some P) ∧
      (∀ processed frontier x,
        x ∈ (resolveRound succ processed frontier).1 ↔
          x ∈ processed ∨ x ∈ frontier) ∧
      (∀ processed frontier q,
        q ∈ (resolveRound succ processed frontier).2 →
          q ∉ (resolveRound succ processed frontier).1) ∧
      (∀ fuel processed, resolveLoop succ (fuel + 1) processed [] = some processed) := by
  refine ⟨?_, ?_, ?_, ?_⟩
  · refine resolveLoop_some succ U hcl (U.length + 1) [] F0
      (fun q hq => ⟨hF0 q hq, by simp⟩) ?_
    have : unprocessedCount U [] ≤ U.length := by
      unfold unprocessedCount
      exact (List.filter_sublist U).length_le
    omega
  · intro processed frontier x
    exact (resolveRound_spec succ processed frontier).1 x
  · intro processed frontier q hq
    exact ((resolveRound_spec succ processed frontier).2.2 q hq).1
  · intro fuel processed
    rfl

/-- Successor stub for the concrete example: a two-document cycle. -/
def succW : String → List String := fun p =>
  if p = "a.md" then ["b.md"] else if p = "b.md" then ["a.md"] else []

/-- Witness for `resolveLoop_terminates`: the loop terminates on a
two-document cycle. -/
theorem resolveLoop_terminates_witness :
    (∃ P, resolveLoop succW 3 [] ["a.md"] = some P) ∧
      resolveLoop succW 3 [] ["a.md"] = some ["a.md", "b.md"] :=
  ⟨(resolveLoop_terminates succW ["a.md", "b.md"] ["a.md"]
      (by decide) (by decide)).1, by decide⟩

/-! ## Context assembler (`doc-context.service.ts`)

`micromatch.isMatch` (with `dot: true`) and `path.relative` are
external collaborators, passed as an environment.
`String.prototype.localeCompare` is modelled as code-point comparison
(`≤` on `String`), and the stable `Array.prototype.sort` as
`jsSort` on the comparator's `≤`. -/

/-- Stable insertion into a sorted list: the new element goes before
the first element it compares `le` to. -/
def sInsert {α : Type} (le : α → α → Bool) (a : α) : List α → List α
  | [] => [a]
  | b :: l => if le a b then a :: b :: l else b :: sInsert le a l

/-- `Array.prototype.sort` (stable in modern JavaScript), modelled as
insertion sort so that it is kernel-computable; same argument order as
`List.mergeSort`. -/
def jsSort {α : Type} : List α → (α → α → Bool) → List α
  | [], _ => []
  | a :: l, le => sInsert le a (jsSort l le)

theorem sInsert_perm {α : Type} (le : α → α → Bool) (a : α) :
    ∀ l : List α, (sInsert le a l).Perm (a :: l) := by
  intro l
  induction l with
  | nil => exact List.Perm.refl _
  | cons b l ih =>
    cases h : le a b
    · simp only [sInsert, h, Bool.false_eq_true, if_false]
      exact (ih.cons b).trans (List.Perm.swap a b l)
    · simp [sInsert, h]

theorem jsSort_perm {α : Type} :
    ∀ (l : List α) (le : α → α → Bool), (jsSort l le).Perm l := by
  intro l le
  induction l with
  | nil => exact List.Perm.refl _
  | cons a l ih =>
    exact (sInsert_perm le a (jsSort l le)).trans (ih.cons a)

theorem mem_jsSort {α : Type} {le : α → α → Bool} {a : α} {l : List α} :
    a ∈ jsSort l le ↔ a ∈ l := (jsSort_perm l le).mem_iff

theorem jsSort_nil {α : Type} {le : α → α → Bool} : jsSort ([] : List α) le = [] := rfl

/-- `AttachedItemType` from `types.ts` (current revision). -/
inductive AttachedItemType where
  | always
  | auto
  | agent
  | manual
  | related
  deriving DecidableEq, Repr

/-- The `typePriority` table (lower is higher priority). -/
def typePriority : AttachedItemType → Nat
  | .always => 0
  | .auto => 1
  | .agent => 2
  | .manual => 3
  | .related => 4

/-- `ContextItem` from `types.ts` (current revision). -/
structure ContextItem where
  doc : Doc
  type : AttachedItemType
  linkedViaAnchor : Option String
  linkedFromPath : Option String
  deriving DecidableEq, Repr

/-- External collaborators of the assembler. -/
structure CtxEnv where
  pathRelative : String → String → String
  isMatch : String → List String → Bool

/-- The per-document classification of `buildContextItems`: the mutable
`currentType`/`currentPriority` pair threaded through the four checks
(`alwaysApply`, glob match, agent description, manual attachment);
`Infinity` is a priority every check passes.  A JavaScript empty-string
description is falsy, hence the `d ≠ ""` conjunct. -/
def classifyDoc (env : CtxEnv) (root : String)
    (attachedFiles relevantDocsByDescription : List String) (doc : Doc) :
    Option AttachedItemType :=
  let st0 : Option AttachedItemType × Nat := (none, 1000)
  let st1 :=
    if doc.meta.alwaysApply then (some AttachedItemType.always, typePriority .always)
    else st0
  let st2 :=
    if st1.2 > typePriority .auto then
      if doc.meta.globs ≠ [] ∧
          attachedFiles.any
            (fun f => env.isMatch (env.pathRelative root f) doc.meta.globs) then
        (some AttachedItemType.auto, typePriority .auto)
      else st1
    else st1
  let st3 :=
    if st2.2 > typePriority .agent then
      if (match doc.meta.description with
          | some d => decide (d ≠ "") && relevantDocsByDescription.contains d
          | none => false) then
        (some AttachedItemType.agent, typePriority .agent)
      else st2
    else st2
  let st4 :=
    if st3.2 > typePriority .manual ∧ attachedFiles.contains doc.filePath then
      (some AttachedItemType.manual, st3.2)
    else st3
  st4.1

/-- The seed-classification pass over the index values. -/
def buildSeeds (env : CtxEnv) (root : String)
    (attachedFiles relevantDocsByDescription : List String) (docs : List Doc) :
    JSMap ContextItem × JSSet :=
  docs.foldl
    (fun st doc =>
      if doc.isError then st
      else
        match classifyDoc env root attachedFiles relevantDocsByDescription doc with
        | none => st
        | some t =>
          let m1 :=
            match jmGet st.1 doc.filePath with
            | none => jmSet st.1 doc.filePath ⟨doc, t, none, none⟩
            | some existing =>
              if typePriority t < typePriority existing.type then
                jmSet st.1 doc.filePath ⟨doc, t, none, none⟩
              else st.1
          (m1, sAdd st.2 doc.filePath))
    ([], [])

/-- The processing of one outbound link inside the BFS loop: skip
inline links, missing targets and error targets; first discovery wins;
`visited` gates the queue. -/
def bfsLink (index : JSMap Doc) (currentPath : String)
    (st : JSMap ContextItem × JSSet × List String) (link : DocLink) :
    JSMap ContextItem × JSSet × List String :=
  if link.isInline then st
  else
    match jmGet index link.filePath with
    | none => st
    | some linkedDoc =>
      if linkedDoc.isError then st
      else if jmHas st.1 link.filePath then st
      else
        let m2 := jmSet st.1 link.filePath
          ⟨linkedDoc, .related, some link.anchorText, some currentPath⟩
        if st.2.1.contains link.filePath then (m2, st.2.1, st.2.2)
        else (m2, st.2.1 ++ [link.filePath], st.2.2 ++ [link.filePath])

/-- The BFS `while (queue.length > 0)` loop.  Fuel only makes the
recursion structural; `collectItems` passes enough (each pop either
shortens the queue or was paired with a strictly growing `visited`). -/
def bfsLoop (index : JSMap Doc) :
    Nat → JSMap ContextItem → JSSet → List String → JSMap ContextItem
  | 0, m, _, _ => m
  | fuel + 1, m, visited, queue =>
    match queue with
    | [] => m
    | currentPath :: rest =>
      match jmGet m currentPath with
      | none => bfsLoop index fuel m visited rest
      | some currentItem =>
        if currentItem.doc.isError then bfsLoop index fuel m visited rest
        else
          let st := currentItem.doc.linksTo.foldl (bfsLink index currentPath) (m, visited, rest)
          bfsLoop index fuel st.1 st.2.1 st.2.2

/-- Seed classification plus BFS expansion: the `contextItemsMap` that
`buildContextItems` builds before sorting. -/
def collectItems (env : CtxEnv) (root : String) (index : JSMap Doc)
    (attachedFiles relevantDocsByDescription : List String) : JSMap ContextItem :=
  let seeds := buildSeeds env root attachedFiles relevantDocsByDescription (jmValues index)
  bfsLoop index (index.length + seeds.2.length + 1) seeds.1 seeds.2 seeds.2

/-- `item.type === "related"`. -/
def isRelatedItem (i : ContextItem) : Bool := i.type = AttachedItemType.related

/-- Code-point comparison of character lists (kernel-computable,
unlike `String` order, whose instances use `String.Pos`). -/
def charListLe : List Char → List Char → Bool
  | [], _ => true
  | _ :: _, [] => false
  | a :: s, b :: t =>
    if a.val.toNat < b.val.toNat then true
    else if b.val.toNat < a.val.toNat then false
    else charListLe s t

/-- `a.localeCompare(b) <= 0`, modelled as code-point order. -/
def jsStrLe (a b : String) : Bool := charListLe a.data b.data

/-- The non-related comparator: type priority, then path
(`localeCompare` modelled as code-point order). -/
def nrLe (a b : ContextItem) : Bool :=
  typePriority a.type < typePriority b.type ||
    (typePriority a.type = typePriority b.type && jsStrLe a.doc.filePath b.doc.filePath)

/-- Alphabetical-by-path comparator. -/
def pathLe (a b : ContextItem) : Bool := jsStrLe a.doc.filePath b.doc.filePath

/-- The `if (!map.has(k)) map.set(k, []); map.get(k)!.push(v)` idiom of
`sortItems`. -/
def jmPush {β : Type} (m : JSMap (List β)) (k : String) (v : β) : JSMap (List β) :=
  let m1 := if jmHas m k then m else jmSet m k []
  jmSet m1 k ((jmGet m1 k).getD [] ++ [v])

/-- Step 2 inner scan of `sortItems`: one potential linker checked
against one related path; pushes the linker's path and raises the
`hasNonRelatedLinker` flag. -/
def scanLinkers (relatedPath : String)
    (st : JSMap (List String) × Bool) (potentialLinker : ContextItem) :
    JSMap (List String) × Bool :=
  if potentialLinker.type ≠ AttachedItemType.related ∧
      potentialLinker.doc.linksTo.any (fun l => l.filePath = relatedPath) then
    (jmPush st.1 relatedPath potentialLinker.doc.filePath, true)
  else st

/-- Step 2 of `sortItems`: the `relatedLinkers` map and the initial
orphan list (related items with no non-related linker among `items`). -/
def buildLinkers (items relatedItems : List ContextItem) :
    JSMap (List String) × List ContextItem :=
  relatedItems.foldl
    (fun st relatedItem =>
      let inner := items.foldl (scanLinkers relatedItem.doc.filePath) (st.1, false)
      if inner.2 then (inner.1, st.2) else (inner.1, st.2 ++ [relatedItem]))
    ([], [])

/-- `relatedItemsMap` of `sortItems`. -/
def relatedItemsMapOf (relatedItems : List ContextItem) : JSMap ContextItem :=
  relatedItems.foldl (fun m it => jmSet m it.doc.filePath it) []

/-- Step 3 of `sortItems`: group each related item under the first
sorted non-related linker; a related path with linkers but no linker in
the sorted list would be re-classified an orphan (dead branch in fact). -/
def buildGroups (nonRelatedSorted : List ContextItem)
    (relatedItemsMap : JSMap ContextItem)
    (relatedLinkers : JSMap (List String)) (orphans0 : List ContextItem) :
    JSMap (List ContextItem) × List ContextItem :=
  relatedLinkers.foldl
    (fun st entry =>
      match jmGet relatedItemsMap entry.1 with
      | none => st
      | some relatedItem =>
        match nonRelatedSorted.find? (fun nr => entry.2.contains nr.doc.filePath) with
        | some nrItem => (jmPush st.1 nrItem.doc.filePath relatedItem, st.2)
        | none =>
          if st.2.any (fun orphan => orphan.doc.filePath = entry.1) then st
          else (st.1, jsSort (st.2 ++ [relatedItem]) pathLe))
    ([], orphans0)

/-- Steps 4 and 5 of `sortItems`: emit each sorted non-related item with
its related group hoisted before (or placed after) it, each related item
at most once, then append the orphans. -/
def assembleMain (hoist : Bool) (groups : JSMap (List ContextItem))
    (nonRelatedSorted orphans : List ContextItem) : List ContextItem :=
  let place := fun (acc : List ContextItem × JSSet) (it : ContextItem) =>
    if acc.2.contains it.doc.filePath then acc
    else (acc.1 ++ [it], acc.2 ++ [it.doc.filePath])
  let main :=
    nonRelatedSorted.foldl
      (fun st nonRelatedItem =>
        let grp := (jmGet groups nonRelatedItem.doc.filePath).getD []
        let st1 := if hoist then grp.foldl place st else st
        let st2 := (st1.1 ++ [nonRelatedItem], st1.2)
        if hoist then st2 else grp.foldl place st2)
      ([], [])
  (orphans.foldl place main).1

/-- `DocContextService.sortItems` (logging dropped; the sanity checks at
the end only log and leave the returned list unchanged). -/
def sortItems (hoist : Bool) (items : List ContextItem) : List ContextItem :=
  let relatedItems := items.filter isRelatedItem
  let nonRelatedItems := jsSort (items.filter (fun i => !isRelatedItem i)) nrLe
  let lo := buildLinkers items relatedItems
  let orphans0 := jsSort lo.2 pathLe
  let go := buildGroups nonRelatedItems (relatedItemsMapOf relatedItems) lo.1 orphans0
  let groups := go.1.map (fun e => (e.1, jsSort e.2 pathLe))
  assembleMain hoist groups nonRelatedItems go.2

/-- `buildContextItems(attachedFiles, relevantDocsByDescription)`:
empty index short-circuit, seed classification, BFS expansion, sort.
`hoist` is `config.HOIST_CONTEXT ?? true`. -/
def buildContextItems (env : CtxEnv) (root : String) (hoist : Bool)
    (index : JSMap Doc) (attachedFiles relevantDocsByDescription : List String) :
    List ContextItem :=
  if index.length = 0 then []
  else
    sortItems hoist
      (jmValues (collectItems env root index attachedFiles relevantDocsByDescription))

/-! ### Map-fold and sorting toolkit -/

theorem jmSet_not_has {α : Type} {m : JSMap α} {k : String} (h : ¬ jmHas m k) (v : α) :
    jmSet m k v = m ++ [(k, v)] := by
  induction m with
  | nil => rfl
  | cons p m ih =>
    by_cases hp : p.1 = k
    · exact absurd (by simp [jmHas, jmGet, hp]) h
    · have h2 : ¬ jmHas m k := by
        simp only [jmHas, jmGet, hp, if_false] at h
        exact h
      simp [jmSet, hp, ih h2]

theorem jmPush_get {β : Type} (m : JSMap (List β)) (k k' : String) (v : β) :
    jmGet (jmPush m k v) k' =
      if k = k' then some ((jmGet m k).getD [] ++ [v]) else jmGet m k' := by
  unfold jmPush
  by_cases hh : jmHas m k
  · simp only [hh, if_true]
    rw [jmGet_set]
  · simp only [hh, Bool.false_eq_true, if_false]
    rw [jmGet_set]
    by_cases he : k = k'
    · subst he
      rw [jmGet_set]
      have : jmGet m k = none := by
        unfold jmHas at hh
        cases hg : jmGet m k
        · rfl
        · rw [hg] at hh; simp at hh
      simp [this]
    · rw [if_neg he, if_neg he, jmGet_set, if_neg he]

theorem fold_jmPush_get {β : Type} (pairs : List (String × β)) :
    ∀ (m0 : JSMap (List β)) (k : String),
      jmGet (pairs.foldl (fun m p => jmPush m p.1 p.2) m0) k =
        (if (pairs.filter (fun p => p.1 = k)).isEmpty then jmGet m0 k
         else some ((jmGet m0 k).getD [] ++
            (pairs.filter (fun p => p.1 = k)).map Prod.snd)) := by
  induction pairs with
  | nil => intro m0 k; simp
  | cons a pairs ih =>
    intro m0 k
    simp only [List.foldl_cons]
    rw [ih]
    by_cases ha : a.1 = k
    · have hg : jmGet (jmPush m0 a.1 a.2) k = some ((jmGet m0 k).getD [] ++ [a.2]) := by
        rw [jmPush_get]
        simp [ha]
      rw [hg, List.filter_cons_of_pos (by simpa using ha)]
      simp only [List.isEmpty_cons, Bool.false_eq_true, if_false, List.map_cons]
      by_cases hrest : (pairs.filter (fun p => p.1 = k)).isEmpty
      · rw [if_pos hrest]
        rw [List.isEmpty_iff] at hrest
        simp [hrest]
      · rw [if_neg hrest]
        simp
    · have hg : jmGet (jmPush m0 a.1 a.2) k = jmGet m0 k := by
        rw [jmPush_get, if_neg ha]
      rw [hg, List.filter_cons_of_neg (by simpa using ha)]

theorem jmGet_map_values {α β : Type} (m : JSMap α) (f : α → β) (k : String) :
    jmGet (m.map (fun e => (e.1, f e.2))) k = (jmGet m k).map f := by
  induction m with
  | nil => rfl
  | cons p m ih =>
    by_cases hp : p.1 = k <;> simp [jmGet, hp, ih]

theorem jmGet_eq_of_perm {α : Type} {m1 m2 : JSMap α}
    (hnd : (jmKeys m1).Nodup) (hp : m1.Perm m2) (k : String) :
    jmGet m1 k = jmGet m2 k := by
  have hnd2 : (jmKeys m2).Nodup := ((jmKeys_perm_of_perm hp).nodup_iff).mp hnd
  cases hg : jmGet m1 k with
  | some v =>
    exact ((jmGet_eq_some_iff_mem hnd2 k v).mpr
      (hp.mem_iff.mp ((jmGet_eq_some_iff_mem hnd k v).mp hg))).symm
  | none =>
    cases hg2 : jmGet m2 k with
    | none => rfl
    | some w =>
      have : (k, w) ∈ m1 :=
        hp.mem_iff.mpr ((jmGet_eq_some_iff_mem hnd2 k w).mp hg2)
      rw [(jmGet_eq_some_iff_mem hnd k w).mpr this] at hg
      cases hg

theorem find?_congr {α : Type} {p q : α → Bool} :
    ∀ {l : List α}, (∀ x ∈ l, p x = q x) → l.find? p = l.find? q := by
  intro l
  induction l with
  | nil => intro _; rfl
  | cons a l ih =>
    intro h
    simp only [List.find?]
    rw [h a (List.mem_cons_self a l)]
    cases q a
    · exact ih (fun x hx => h x (List.mem_cons_of_mem a hx))
    · rfl

/-- Two sorted lists that are permutations of each other, over a
relation antisymmetric on their members, are equal. -/
theorem eq_of_perm_sorted {α : Type} (r : α → α → Bool) :
    ∀ (l1 l2 : List α), l1.Perm l2 →
      l1.Pairwise (fun a b => r a b = true) →
      l2.Pairwise (fun a b => r a b = true) →
      (∀ a ∈ l1, ∀ b ∈ l1, r a b = true → r b a = true → a = b) →
      l1 = l2 := by
  intro l1
  induction l1 with
  | nil => intro l2 hp _ _ _; exact (hp.nil_eq).symm ▸ rfl
  | cons h1 t1 ih =>
    intro l2 hp hs1 hs2 hanti
    cases l2 with
    | nil => exact absurd hp.symm (by simp)
    | cons h2 t2 =>
      have hh : h1 = h2 := by
        by_cases he : h1 = h2
        · exact he
        · have hm1 : h1 ∈ h2 :: t2 := hp.mem_iff.mp (List.mem_cons_self h1 t1)
          have hm2 : h2 ∈ h1 :: t1 := hp.mem_iff.mpr (List.mem_cons_self h2 t2)
          have h1t2 : h1 ∈ t2 := by
            rcases List.mem_cons.mp hm1 with h | h
            · exact absurd h he
            · exact h
          have h2t1 : h2 ∈ t1 := by
            rcases List.mem_cons.mp hm2 with h | h
            · exact absurd h.symm he
            · exact h
          have hr12 : r h1 h2 = true := (List.pairwise_cons.mp hs1).1 h2 h2t1
          have hr21 : r h2 h1 = true := (List.pairwise_cons.mp hs2).1 h1 h1t2
          exact absurd
            (hanti h1 (List.mem_cons_self h1 t1) h2 (List.mem_cons_of_mem h1 h2t1)
              hr12 hr21) he
      subst hh
      have hpt : t1.Perm t2 := hp.cons_inv
      rw [ih t2 hpt (List.pairwise_cons.mp hs1).2 (List.pairwise_cons.mp hs2).2
        (fun a ha b hb => hanti a (List.mem_cons_of_mem h1 ha) b (List.mem_cons_of_mem h1 hb))]

/-! ### Spec-side assembly -/

/-- The path key of a context item. -/
def pathOf (i : ContextItem) : String := i.doc.filePath

/-- Does the item link — inline or not — to path `p`?  (This is the
predicate the code's linker scan actually uses.) -/
def linksAny (i : ContextItem) (p : String) : Bool :=
  i.doc.linksTo.any (fun l => l.filePath = p)

/-- Does the item have a non-inline link to path `p`?  (The predicate
the spec claims the linker scan uses.) -/
def linksNonInline (i : ContextItem) (p : String) : Bool :=
  i.doc.linksTo.any (fun l => !l.isInline && l.filePath = p)

/-- The non-related items among `items` that link to `p`. -/
def linkersOf (items : List ContextItem) (p : String) : List ContextItem :=
  items.filter (fun i => !isRelatedItem i && linksAny i p)

/-- The spec-worded assembly, parametrised by the linker predicate:
sort the non-related items; each related item's primary linker is the
earliest sorted non-related item satisfying the predicate against its
path; groups are sorted by path and hoisted before (or placed after)
their linker; orphans are appended, sorted by path. -/
def specAssemble (linker : ContextItem → String → Bool) (hoist : Bool)
    (items : List ContextItem) : List ContextItem :=
  let nonR := jsSort (items.filter (fun i => !isRelatedItem i)) nrLe
  let rels := items.filter isRelatedItem
  let primPath := fun (r : ContextItem) =>
    (nonR.find? (fun nr => linker nr (pathOf r))).map pathOf
  let orphans := jsSort (rels.filter (fun r => (primPath r).isNone)) pathLe
  let main := nonR.flatMap (fun nr =>
    let grp :=
      jsSort (rels.filter (fun r => primPath r = some (pathOf nr))) pathLe
    if hoist then grp ++ [nr] else nr :: grp)
  main ++ orphans

/-- The amended spec assembly: a linker is any link to the path. -/
def specAssembleAny : Bool → List ContextItem → List ContextItem :=
  specAssemble linksAny

/-- Claim C3's assembly as stated: only non-inline links make linkers. -/
def specAssembleNonInline : Bool → List ContextItem → List ContextItem :=
  specAssemble linksNonInline

/-! ### Characterising the fold steps of sortItems -/

theorem jmGet_append_last {α : Type} {pre : JSMap α} {k : String}
    (h : ¬ jmHas pre k) (u : α) : jmGet (pre ++ [(k, u)]) k = some u := by
  induction pre with
  | nil => simp [jmGet]
  | cons p pre ih =>
    by_cases hp : p.1 = k
    · exact absurd (by simp [jmHas, jmGet, hp]) h
    · have h2 : ¬ jmHas pre k := by
        simp only [jmHas, jmGet, hp, if_false] at h
        exact h
      simpa [jmGet, hp] using ih h2

theorem jmSet_append_last {α : Type} {pre : JSMap α} {k : String}
    (h : ¬ jmHas pre k) (u w : α) :
    jmSet (pre ++ [(k, u)]) k w = pre ++ [(k, w)] := by
  induction pre with
  | nil => simp [jmSet]
  | cons p pre ih =>
    by_cases hp : p.1 = k
    · exact absurd (by simp [jmHas, jmGet, hp]) h
    · have h2 : ¬ jmHas pre k := by
        simp only [jmHas, jmGet, hp, if_false] at h
        exact h
      simp [jmSet, hp, ih h2]

/-- Pushing values for one fresh key in sequence appends a single entry
holding all of them (and leaves the map alone when no value comes). -/
theorem fold_jmPush_fresh {β : Type} (k : String) :
    ∀ (vs : List β) (m0 : JSMap (List β)), ¬ jmHas m0 k →
      vs.foldl (fun m v => jmPush m k v) m0 =
        if vs.isEmpty then m0 else m0 ++ [(k, vs)] := by
  have step : ∀ (m0 : JSMap (List β)) (u : List β), ¬ jmHas m0 k → ∀ (v : β),
      jmPush (m0 ++ [(k, u)]) k v = m0 ++ [(k, u ++ [v])] := by
    intro m0 u h v
    have hhas : jmHas (m0 ++ [(k, u)]) k := by
      simp [jmHas, jmGet_append_last h]
    simp only [jmPush, hhas, if_true, jmGet_append_last h u, Option.getD_some]
    exact jmSet_append_last h u (u ++ [v])
  have tailfold : ∀ (vs : List β) (m0 : JSMap (List β)) (u : List β), ¬ jmHas m0 k →
      vs.foldl (fun m v => jmPush m k v) (m0 ++ [(k, u)]) = m0 ++ [(k, u ++ vs)] := by
    intro vs
    induction vs with
    | nil => intro m0 u h; simp
    | cons v vs ih =>
      intro m0 u h
      simp only [List.foldl_cons, step m0 u h v, ih m0 (u ++ [v]) h]
      simp
  intro vs m0 h
  cases vs with
  | nil => simp
  | cons v vs =>
    simp only [List.foldl_cons, List.isEmpty_cons, Bool.false_eq_true, if_false]
    have hfirst : jmPush m0 k v = m0 ++ [(k, [v])] := by
      have hget : jmGet m0 k = none := by
        unfold jmHas at h
        cases hg : jmGet m0 k
        · rfl
        · rw [hg] at h; simp at h
      simp only [jmPush, h, Bool.false_eq_true, if_false]
      rw [jmSet_not_has h, jmGet_append_last h, Option.getD_some,
        jmSet_append_last h]
      simp [hget]
    rw [hfirst, tailfold vs m0 [v] h]
    simp

theorem jmGet_append {α : Type} (m1 m2 : JSMap α) (k : String) :
    jmGet (m1 ++ m2) k = (jmGet m1 k).or (jmGet m2 k) := by
  induction m1 with
  | nil => simp [jmGet]
  | cons p m1 ih => by_cases hp : p.1 = k <;> simp [jmGet, hp, ih]

/-- One pass of the linker scan over all items for one related path:
pushes exactly the linkers' paths and reports whether any exists. -/
theorem scanLinkers_fold (p : String) (items : List ContextItem) :
    ∀ (m0 : JSMap (List String)) (b0 : Bool),
      items.foldl (scanLinkers p) (m0, b0) =
        ((linkersOf items p).foldl (fun m i => jmPush m p (pathOf i)) m0,
          b0 || !(linkersOf items p).isEmpty) := by
  induction items with
  | nil => intro m0 b0; simp [linkersOf]
  | cons i items ih =>
    intro m0 b0
    simp only [List.foldl_cons]
    cases hb : (!isRelatedItem i && linksAny i p) with
    | true =>
      rw [Bool.and_eq_true] at hb
      have h1 : i.type ≠ AttachedItemType.related := by
        have := hb.1
        simp [isRelatedItem] at this
        exact this
      have h2 : i.doc.linksTo.any (fun l => l.filePath = p) = true := hb.2
      have hstep : scanLinkers p (m0, b0) i = (jmPush m0 p (pathOf i), true) := by
        simp [scanLinkers, h1, h2, pathOf]
      have hlk : linkersOf (i :: items) p = i :: linkersOf items p := by
        simp only [linkersOf, List.filter_cons]
        rw [if_pos (by rw [Bool.and_eq_true]; exact hb)]
      rw [hstep, ih, hlk]
      simp
    | false =>
      have hstep : scanLinkers p (m0, b0) i = (m0, b0) := by
        unfold scanLinkers
        rw [if_neg]
        intro hc
        have : (!isRelatedItem i && linksAny i p) = true := by
          rw [Bool.and_eq_true]
          constructor
          · simp [isRelatedItem]; exact hc.1
          · exact hc.2
        rw [hb] at this
        cases this
      have hlk : linkersOf (i :: items) p = linkersOf items p := by
        simp only [linkersOf, List.filter_cons, hb, if_false]
        rfl
      rw [hstep, ih, hlk]

/-- The `relatedLinkers`/`initial orphans` fold of `sortItems`, made
explicit: in related order, each related path with at least one linker
contributes one appended map entry listing its linkers' paths; each
related item with none is appended to the orphans. -/
theorem buildLinkers_fold (items : List ContextItem) :
    ∀ (rels : List ContextItem) (M0 : JSMap (List String)) (O0 : List ContextItem),
      (rels.map pathOf).Nodup →
      (∀ r ∈ rels, ¬ jmHas M0 (pathOf r)) →
      rels.foldl
        (fun st relatedItem =>
          let inner := items.foldl (scanLinkers relatedItem.doc.filePath) (st.1, false)
          if inner.2 then (inner.1, st.2) else (inner.1, st.2 ++ [relatedItem]))
        (M0, O0) =
      (M0 ++ rels.filterMap (fun r =>
          if (linkersOf items (pathOf r)).isEmpty then none
          else some (pathOf r, (linkersOf items (pathOf r)).map pathOf)),
        O0 ++ rels.filter (fun r => (linkersOf items (pathOf r)).isEmpty)) := by
  intro rels
  induction rels with
  | nil => intro M0 O0 _ _; simp
  | cons r rels ih =>
    intro M0 O0 hnd hfresh
    simp only [List.map_cons, List.nodup_cons] at hnd
    have hM0 : ¬ jmHas M0 (pathOf r) := hfresh r (List.mem_cons_self r rels)
    simp only [List.foldl_cons]
    rw [show r.doc.filePath = pathOf r from rfl, scanLinkers_fold (pathOf r) items M0 false]
    rw [show (linkersOf items (pathOf r)).foldl (fun m i => jmPush m (pathOf r) (pathOf i)) M0
        = ((linkersOf items (pathOf r)).map pathOf).foldl
            (fun m v => jmPush m (pathOf r) v) M0 from (List.foldl_map _ _ _ _).symm]
    rw [fold_jmPush_fresh (pathOf r) _ M0 hM0]
    by_cases he : (linkersOf items (pathOf r)).isEmpty
    · have hem : ((linkersOf items (pathOf r)).map pathOf).isEmpty = true := by
        rw [List.isEmpty_iff] at he ⊢
        simp [he]
      rw [if_pos hem]
      simp only [Bool.false_or, he, Bool.not_true, Bool.false_eq_true, if_false]
      rw [ih M0 (O0 ++ [r]) hnd.2 (fun x hx => hfresh x (List.mem_cons_of_mem r hx))]
      rw [List.filterMap_cons, List.filter_cons]
      simp [he, List.append_assoc]
    · have hem : ¬ ((linkersOf items (pathOf r)).map pathOf).isEmpty = true := by
        rw [List.isEmpty_iff] at he ⊢
        simp [he]
      rw [if_neg hem]
      have hbe : (linkersOf items (pathOf r)).isEmpty = false := by
        cases hx : (linkersOf items (pathOf r)).isEmpty
        · rfl
        · exact absurd hx he
      simp only [Bool.false_or, hbe, Bool.not_false, if_true]
      have hfresh2 : ∀ x ∈ rels,
          ¬ jmHas (M0 ++ [(pathOf r, (linkersOf items (pathOf r)).map pathOf)]) (pathOf x) := by
        intro x hx
        have hne : pathOf r ≠ pathOf x := by
          intro hcontra
          exact hnd.1 (hcontra ▸ List.mem_map_of_mem pathOf hx)
        have := hfresh x (List.mem_cons_of_mem r hx)
        simp [jmHas, jmGet_append, jmGet] at this ⊢
        exact ⟨this, hne⟩
      rw [ih _ O0 hnd.2 hfresh2]
      rw [List.filterMap_cons, List.filter_cons]
      simp [hbe, List.append_assoc]

/-- Under duplicate-free paths, `relatedItemsMap` is literally the list
of (path, item) pairs in related order. -/
theorem relatedItemsMapOf_fold :
    ∀ (rels : List ContextItem) (M0 : JSMap ContextItem),
      (rels.map pathOf).Nodup →
      (∀ r ∈ rels, ¬ jmHas M0 (pathOf r)) →
      rels.foldl (fun m it => jmSet m it.doc.filePath it) M0 =
        M0 ++ rels.map (fun r => (pathOf r, r)) := by
  intro rels
  induction rels with
  | nil => intro M0 _ _; simp
  | cons r rels ih =>
    intro M0 hnd hfresh
    simp only [List.map_cons, List.nodup_cons] at hnd
    simp only [List.foldl_cons]
    rw [show r.doc.filePath = pathOf r from rfl,
      jmSet_not_has (hfresh r (List.mem_cons_self r rels)) r]
    have hfresh2 : ∀ x ∈ rels, ¬ jmHas (M0 ++ [(pathOf r, r)]) (pathOf x) := by
      intro x hx
      have hne : pathOf r ≠ pathOf x := fun hc =>
        hnd.1 (hc ▸ List.mem_map_of_mem pathOf hx)
      have := hfresh x (List.mem_cons_of_mem r hx)
      simp [jmHas, jmGet_append, jmGet] at this ⊢
      exact ⟨this, hne⟩
    rw [ih (M0 ++ [(pathOf r, r)]) hnd.2 hfresh2]
    simp

/-- Lookup in a (path, item) pair list is `find?` by path. -/
theorem jmGet_pair_list (rels : List ContextItem) (p : String) :
    jmGet (rels.map (fun r => (pathOf r, r))) p =
      rels.find? (fun r => pathOf r = p) := by
  induction rels with
  | nil => rfl
  | cons r rels ih =>
    simp only [List.map_cons, jmGet, List.find?]
    by_cases hp : pathOf r = p
    · simp [hp]
    · rw [if_neg hp, show (decide (pathOf r = p)) = false from by simp [hp]]
      exact ih

/-- With duplicate-free paths, `find?` by an item's own path returns the
item itself. -/
theorem find?_pathOf_self :
    ∀ {rels : List ContextItem} {r : ContextItem},
      (rels.map pathOf).Nodup → r ∈ rels →
      rels.find? (fun x => pathOf x = pathOf r) = some r := by
  intro rels
  induction rels with
  | nil => intro r _ hr; cases hr
  | cons a rels ih =>
    intro r hnd hr
    simp only [List.map_cons, List.nodup_cons] at hnd
    rcases List.mem_cons.mp hr with h | h
    · subst h
      simp [List.find?]
    · by_cases hp : pathOf a = pathOf r
      · exact absurd (hp ▸ List.mem_map_of_mem pathOf h) hnd.1
      · rw [List.find?_cons_of_neg _ (by simp [hp])]
        exact ih hnd.2 h

/-- An if-none filterMap is a filter followed by a map. -/
theorem filterMap_if_eq {α β : Type} (c : α → Bool) (g : α → β) :
    ∀ l : List α,
      l.filterMap (fun r => if c r then none else some (g r)) =
        (l.filter (fun r => !c r)).map g := by
  intro l
  induction l with
  | nil => rfl
  | cons a l ih =>
    by_cases h : c a <;>
      simp [List.filterMap_cons, List.filter_cons, h, ih]

/-- Under duplicate-free item paths, a non-related item's path occurs
among the recorded linkers of `p` exactly when the item itself links to
`p` (inline or not). -/
theorem contains_linkers_iff (items : List ContextItem)
    (hnd : (items.map pathOf).Nodup) (nr : ContextItem) (hnr : nr ∈ items)
    (hnrel : isRelatedItem nr = false) (p : String) :
    ((linkersOf items p).map pathOf).contains (pathOf nr) = linksAny nr p := by
  cases hl : linksAny nr p with
  | true =>
    have hmem : nr ∈ linkersOf items p := by
      simp only [linkersOf, List.mem_filter]
      exact ⟨hnr, by simp [hnrel, hl]⟩
    rw [contains_iff] at *
    · exact List.mem_map_of_mem pathOf hmem
  | false =>
    cases hc : ((linkersOf items p).map pathOf).contains (pathOf nr) with
    | false => rfl
    | true =>
      rw [contains_iff] at hc
      rcases List.mem_map.mp hc with ⟨i, hi, hpi⟩
      have hi2 : i ∈ items ∧ (!isRelatedItem i && linksAny i p) = true :=
        List.mem_filter.mp hi
      have : i = nr := List.inj_on_of_nodup_map hnd hi2.1 hnr hpi
      subst this
      rw [Bool.and_eq_true] at hi2
      rw [hl] at hi2
      cases hi2.2.2

/-- The grouping fold of `sortItems` step 3, when every entry's related
item resolves and every entry has a first sorted non-related linker
`pp r`: it reduces to pushing each related item under its primary
linker's path, leaving the orphans untouched. -/
theorem buildGroups_eq (nonR : List ContextItem) (rim : JSMap ContextItem)
    (lp : ContextItem → List String) (pp : ContextItem → ContextItem) :
    ∀ (relsL : List ContextItem) (st : JSMap (List ContextItem) × List ContextItem),
      (∀ r ∈ relsL, jmGet rim (pathOf r) = some r) →
      (∀ r ∈ relsL, nonR.find? (fun nr => (lp r).contains nr.doc.filePath) = some (pp r)) →
      (relsL.map (fun r => (pathOf r, lp r))).foldl
        (fun st entry =>
          match jmGet rim entry.1 with
          | none => st
          | some relatedItem =>
            match nonR.find? (fun nr => entry.2.contains nr.doc.filePath) with
            | some nrItem => (jmPush st.1 nrItem.doc.filePath relatedItem, st.2)
            | none =>
              if st.2.any (fun orphan => orphan.doc.filePath = entry.1) then st
              else (st.1, jsSort (st.2 ++ [relatedItem]) pathLe)) st =
      ((relsL.map (fun r => (pathOf (pp r), r))).foldl
          (fun m p => jmPush m p.1 p.2) st.1, st.2) := by
  intro relsL
  induction relsL with
  | nil => intro st _ _; rfl
  | cons r relsL ih =>
    intro st h1 h2
    simp only [List.map_cons, List.foldl_cons]
    have hr1 := h1 r (List.mem_cons_self r relsL)
    have hr2 := h2 r (List.mem_cons_self r relsL)
    simp only [hr1, hr2]
    exact ih _ (fun x hx => h1 x (List.mem_cons_of_mem r hx))
      (fun x hx => h2 x (List.mem_cons_of_mem r hx))

/-- The `place` fold of `sortItems` steps 4-6 appends a whole group when
none of its paths was placed yet and the group's paths are
duplicate-free. -/
theorem place_fold :
    ∀ (grp out : List ContextItem) (placed : JSSet),
      (∀ g ∈ grp, ¬ placed.contains (pathOf g) = true) →
      (grp.map pathOf).Nodup →
      grp.foldl
        (fun acc it =>
          if acc.2.contains it.doc.filePath then acc
          else (acc.1 ++ [it], acc.2 ++ [it.doc.filePath])) (out, placed) =
      (out ++ grp, placed ++ grp.map pathOf) := by
  intro grp
  induction grp with
  | nil => intro out placed _ _; simp
  | cons g grp ih =>
    intro out placed hfree hnd
    simp only [List.map_cons, List.nodup_cons] at hnd
    simp only [List.foldl_cons]
    rw [if_neg (by
      intro hc
      exact hfree g (List.mem_cons_self g grp) (by exact hc))]
    have hfree2 : ∀ x ∈ grp, ¬ (placed ++ [g.doc.filePath]).contains (pathOf x) = true := by
      intro x hx hc
      rw [contains_iff] at hc
      rcases List.mem_append.mp hc with h | h
      · exact hfree x (List.mem_cons_of_mem g hx) ((contains_iff _ _).mpr h)
      · have : pathOf x = pathOf g := by simpa [pathOf] using h
        exact hnd.1 (this ▸ List.mem_map_of_mem pathOf hx)
    rw [ih (out ++ [g]) (placed ++ [g.doc.filePath]) hfree2 hnd.2]
    simp [pathOf]

/-- Steps 4-5 of `sortItems` as a `flatMap`: with per-linker groups
duplicate-free, pairwise disjoint and fresh against `placed`, the fold
emits each non-related item adjacent to its full group. -/
theorem assembleMain_fold (hoist : Bool) (groups : JSMap (List ContextItem))
    (G : ContextItem → List ContextItem) :
    ∀ (nonR : List ContextItem) (out : List ContextItem) (placed : JSSet),
      (∀ nr ∈ nonR, (jmGet groups (pathOf nr)).getD [] = G nr) →
      (∀ nr ∈ nonR, ((G nr).map pathOf).Nodup) →
      (∀ nr ∈ nonR, ∀ g ∈ G nr, ¬ placed.contains (pathOf g) = true) →
      nonR.Pairwise (fun a b => ∀ g ∈ G a, ∀ g2 ∈ G b, pathOf g ≠ pathOf g2) →
      nonR.foldl
        (fun st nonRelatedItem =>
          let grp := (jmGet groups nonRelatedItem.doc.filePath).getD []
          let st1 :=
            if hoist then
              grp.foldl
                (fun acc it =>
                  if acc.2.contains it.doc.filePath then acc
                  else (acc.1 ++ [it], acc.2 ++ [it.doc.filePath])) st
            else st
          let st2 := (st1.1 ++ [nonRelatedItem], st1.2)
          if hoist then st2
          else
            grp.foldl
              (fun acc it =>
                if acc.2.contains it.doc.filePath then acc
                else (acc.1 ++ [it], acc.2 ++ [it.doc.filePath])) st2) (out, placed) =
      (out ++ nonR.flatMap (fun nr => if hoist then G nr ++ [nr] else nr :: G nr),
        placed ++ nonR.flatMap (fun nr => (G nr).map pathOf)) := by
  intro nonR
  induction nonR with
  | nil => intro out placed _ _ _ _; simp
  | cons nr nonR ih =>
    intro out placed hG hnd hfree hpair
    have hGnr := hG nr (List.mem_cons_self nr nonR)
    have hfree2 : ∀ x ∈ nonR, ∀ g ∈ G x,
        ¬ (placed ++ (G nr).map pathOf).contains (pathOf g) = true := by
      intro x hx g hg hc
      rw [contains_iff] at hc
      rcases List.mem_append.mp hc with h | h
      · exact hfree x (List.mem_cons_of_mem nr hx) g hg ((contains_iff _ _).mpr h)
      · rcases List.mem_map.mp h with ⟨g2, hg2, hpg2⟩
        exact (List.pairwise_cons.mp hpair).1 x hx g2 hg2 g hg hpg2
    simp only [List.foldl_cons]
    cases hoist with
    | true =>
      simp only [if_true]
      rw [show nr.doc.filePath = pathOf nr from rfl, hGnr]
      rw [place_fold (G nr) out placed (hfree nr (List.mem_cons_self nr nonR))
        (hnd nr (List.mem_cons_self nr nonR))]
      have ih2 := ih (out ++ G nr ++ [nr]) (placed ++ (G nr).map pathOf)
        (fun x hx => hG x (List.mem_cons_of_mem nr hx))
        (fun x hx => hnd x (List.mem_cons_of_mem nr hx))
        hfree2 (List.pairwise_cons.mp hpair).2
      simp only [if_true] at ih2
      rw [ih2]
      simp [List.flatMap_cons, List.append_assoc]
    | false =>
      simp only [Bool.false_eq_true, if_false]
      rw [show nr.doc.filePath = pathOf nr from rfl, hGnr]
      rw [place_fold (G nr) (out ++ [nr]) placed (hfree nr (List.mem_cons_self nr nonR))
        (hnd nr (List.mem_cons_self nr nonR))]
      have ih2 := ih (out ++ [nr] ++ G nr) (placed ++ (G nr).map pathOf)
        (fun x hx => hG x (List.mem_cons_of_mem nr hx))
        (fun x hx => hnd x (List.mem_cons_of_mem nr hx))
        hfree2 (List.pairwise_cons.mp hpair).2
      simp only [Bool.false_eq_true, if_false] at ih2
      rw [ih2]
      simp [List.flatMap_cons, List.append_assoc]

/-- `assembleMain` with well-formed groups and orphans: the output is
the non-related items each adjacent to its whole group, with the orphans
appended. -/
theorem assembleMain_eq (hoist : Bool) (groups : JSMap (List ContextItem))
    (G : ContextItem → List ContextItem) (nonR orph : List ContextItem)
    (hG : ∀ nr ∈ nonR, (jmGet groups (pathOf nr)).getD [] = G nr)
    (hGnd : ∀ nr ∈ nonR, ((G nr).map pathOf).Nodup)
    (hpair : nonR.Pairwise (fun a b => ∀ g ∈ G a, ∀ g2 ∈ G b, pathOf g ≠ pathOf g2))
    (horph : ∀ o ∈ orph, ∀ nr ∈ nonR, ∀ g ∈ G nr, pathOf o ≠ pathOf g)
    (hond : (orph.map pathOf).Nodup) :
    assembleMain hoist groups nonR orph =
      nonR.flatMap (fun nr => if hoist then G nr ++ [nr] else nr :: G nr) ++ orph := by
  show (orph.foldl
      (fun acc it =>
        if acc.2.contains it.doc.filePath then acc
        else (acc.1 ++ [it], acc.2 ++ [it.doc.filePath]))
      (nonR.foldl
        (fun st nonRelatedItem =>
          let grp := (jmGet groups nonRelatedItem.doc.filePath).getD []
          let st1 :=
            if hoist then
              grp.foldl
                (fun acc it =>
                  if acc.2.contains it.doc.filePath then acc
                  else (acc.1 ++ [it], acc.2 ++ [it.doc.filePath])) st
            else st
          let st2 := (st1.1 ++ [nonRelatedItem], st1.2)
          if hoist then st2
          else
            grp.foldl
              (fun acc it =>
                if acc.2.contains it.doc.filePath then acc
                else (acc.1 ++ [it], acc.2 ++ [it.doc.filePath])) st2) ([], []))).1 = _
  rw [assembleMain_fold hoist groups G nonR [] [] hG hGnd
    (by
      intro nr _ g _ hc
      rw [contains_iff] at hc
      cases hc) hpair]
  rw [place_fold orph _ _
    (by
      intro o ho hc
      rw [contains_iff] at hc
      rcases List.mem_append.mp hc with h | h
      · cases h
      · rcases List.mem_flatMap.mp h with ⟨nr, hnr, hpg⟩
        rcases List.mem_map.mp hpg with ⟨g, hg, hpe⟩
        exact horph o ho nr hnr g hg hpe.symm) hond]
  simp

/-- The primary linker the code determines for a related item: the
first sorted non-related item with any link to its path (the item
itself as a never-used default). -/
def primOf (items : List ContextItem) (r : ContextItem) : ContextItem :=
  ((jsSort (items.filter fun i => !isRelatedItem i) nrLe).find?
    (fun nr => linksAny nr (pathOf r))).getD r

/-- The related group the code attaches to a non-related item. -/
def grpOf (items : List ContextItem) (nr : ContextItem) : List ContextItem :=
  jsSort
    (((items.filter isRelatedItem).filter
        (fun r => !(linkersOf items (pathOf r)).isEmpty)).filter
      (fun r => pathOf (primOf items r) = pathOf nr)) pathLe

theorem map_snd_pair {α : Type} (f : α → String) :
    ∀ l : List α, List.map Prod.snd (List.map (fun r => (f r, r)) l) = l := by
  intro l
  induction l with
  | nil => rfl
  | cons a l ih =>
    simp only [List.map_cons]
    rw [ih]

/-- **Key assembly lemma.**  Under duplicate-free item paths,
`sortItems` computes exactly the spec-worded assembly whose linker rule
admits ANY link — inline or not — to the related path. -/
theorem sortItems_eq_specAssembleAny (hoist : Bool) (items : List ContextItem)
    (hnd : (items.map pathOf).Nodup) :
    sortItems hoist items = specAssembleAny hoist items := by
  have hndR : ((items.filter isRelatedItem).map pathOf).Nodup :=
    ((List.filter_sublist items).map pathOf).nodup hnd
  have hpermNR :
      (jsSort (items.filter fun i => !isRelatedItem i) nrLe).Perm
        (items.filter fun i => !isRelatedItem i) :=
    jsSort_perm _ _
  have hmemNR : ∀ nr ∈ jsSort (items.filter fun i => !isRelatedItem i) nrLe,
      nr ∈ items ∧ isRelatedItem nr = false := by
    intro nr hm
    have h2 := List.mem_filter.mp (hpermNR.mem_iff.mp hm)
    exact ⟨h2.1, by simpa using h2.2⟩
  have hndNRp :
      ((jsSort (items.filter fun i => !isRelatedItem i) nrLe).map pathOf).Nodup :=
    ((hpermNR.map pathOf).nodup_iff).mpr
      (((List.filter_sublist items).map pathOf).nodup hnd)
  have hndRelsL : (((items.filter isRelatedItem).filter
        (fun r => !(linkersOf items (pathOf r)).isEmpty)).map pathOf).Nodup :=
    ((List.filter_sublist _).map pathOf).nodup hndR
  have hiffE : ∀ p : String,
      ((linkersOf items p).isEmpty = true ↔
        (jsSort (items.filter fun i => !isRelatedItem i) nrLe).find?
          (fun nr => linksAny nr p) = none) := by
    intro p
    rw [List.isEmpty_iff, List.find?_eq_none]
    unfold linkersOf
    rw [List.filter_eq_nil_iff]
    constructor
    · intro h nr hnr hl
      have h2 := hmemNR nr hnr
      exact h nr h2.1 (by simp [h2.2, hl])
    · intro h i hi hp
      rw [Bool.and_eq_true] at hp
      have h3 : i ∈ jsSort (items.filter fun i => !isRelatedItem i) nrLe := by
        rw [mem_jsSort, List.mem_filter]
        exact ⟨hi, hp.1⟩
      exact h i h3 hp.2
  have hEfalse : ∀ (p : String) (v : ContextItem),
      (jsSort (items.filter fun i => !isRelatedItem i) nrLe).find?
        (fun nr => linksAny nr p) = some v →
      (linkersOf items p).isEmpty = false := by
    intro p v hf
    cases he : (linkersOf items p).isEmpty
    · rfl
    · rw [(hiffE p).mp he] at hf
      cases hf
  have hfreshNilS : ∀ (k : String), ¬ jmHas ([] : JSMap (List String)) k := by
    intro k h
    simp [jmHas, jmGet] at h
  have hfreshNilC : ∀ (k : String), ¬ jmHas ([] : JSMap ContextItem) k := by
    intro k h
    simp [jmHas, jmGet] at h
  have E1 : buildLinkers items (items.filter isRelatedItem) =
      (((items.filter isRelatedItem).filter
          (fun r => !(linkersOf items (pathOf r)).isEmpty)).map
        (fun r => (pathOf r, (linkersOf items (pathOf r)).map pathOf)),
       (items.filter isRelatedItem).filter
          (fun r => (linkersOf items (pathOf r)).isEmpty)) := by
    unfold buildLinkers
    rw [buildLinkers_fold items (items.filter isRelatedItem) [] [] hndR
      (fun r _ => hfreshNilS (pathOf r))]
    rw [filterMap_if_eq (fun r => (linkersOf items (pathOf r)).isEmpty)
      (fun r => (pathOf r, (linkersOf items (pathOf r)).map pathOf))]
    simp
  have E2 : relatedItemsMapOf (items.filter isRelatedItem) =
      (items.filter isRelatedItem).map (fun r => (pathOf r, r)) := by
    unfold relatedItemsMapOf
    rw [relatedItemsMapOf_fold (items.filter isRelatedItem) [] hndR
      (fun r _ => hfreshNilC (pathOf r))]
    simp
  have hfindSome : ∀ r ∈ (items.filter isRelatedItem).filter
        (fun r => !(linkersOf items (pathOf r)).isEmpty),
      (jsSort (items.filter fun i => !isRelatedItem i) nrLe).find?
          (fun nr => linksAny nr (pathOf r)) = some (primOf items r) := by
    intro r hr
    have hmem := (List.mem_filter.mp hr).2
    have hcE : (linkersOf items (pathOf r)).isEmpty = false := by
      cases he : (linkersOf items (pathOf r)).isEmpty
      · rfl
      · rw [he] at hmem
        cases hmem
    cases hf : (jsSort (items.filter fun i => !isRelatedItem i) nrLe).find?
        (fun nr => linksAny nr (pathOf r)) with
    | none =>
      rw [(hiffE (pathOf r)).mpr hf] at hcE
      cases hcE
    | some v =>
      unfold primOf
      rw [hf]
      rfl
  have hfindC : ∀ r ∈ (items.filter isRelatedItem).filter
        (fun r => !(linkersOf items (pathOf r)).isEmpty),
      (jsSort (items.filter fun i => !isRelatedItem i) nrLe).find?
          (fun nr => ((linkersOf items (pathOf r)).map pathOf).contains (pathOf nr)) =
        some (primOf items r) := by
    intro r hr
    rw [find?_congr (fun nr hnr =>
      contains_linkers_iff items hnd nr (hmemNR nr hnr).1 (hmemNR nr hnr).2 (pathOf r))]
    exact hfindSome r hr
  have hrim : ∀ r ∈ (items.filter isRelatedItem).filter
        (fun r => !(linkersOf items (pathOf r)).isEmpty),
      jmGet ((items.filter isRelatedItem).map (fun x => (pathOf x, x))) (pathOf r) =
        some r := by
    intro r hr
    rw [jmGet_pair_list]
    exact find?_pathOf_self hndR (List.mem_filter.mp hr).1
  have E3 :
      buildGroups (jsSort (items.filter fun i => !isRelatedItem i) nrLe)
        ((items.filter isRelatedItem).map (fun x => (pathOf x, x)))
        (((items.filter isRelatedItem).filter
            (fun r => !(linkersOf items (pathOf r)).isEmpty)).map
          (fun r => (pathOf r, (linkersOf items (pathOf r)).map pathOf)))
        (jsSort ((items.filter isRelatedItem).filter
            (fun r => (linkersOf items (pathOf r)).isEmpty)) pathLe) =
      ((((items.filter isRelatedItem).filter
            (fun r => !(linkersOf items (pathOf r)).isEmpty)).map
          (fun r => (pathOf (primOf items r), r))).foldl
        (fun m p => jmPush m p.1 p.2) [],
       jsSort ((items.filter isRelatedItem).filter
            (fun r => (linkersOf items (pathOf r)).isEmpty)) pathLe) := by
    unfold buildGroups
    exact buildGroups_eq _ _ _ _ _ _ hrim hfindC
  have memGrp : ∀ (nr : ContextItem), ∀ g ∈ grpOf items nr,
      (g ∈ (items.filter isRelatedItem).filter
          (fun r => !(linkersOf items (pathOf r)).isEmpty)) ∧
        pathOf (primOf items g) = pathOf nr := by
    intro nr g hg
    have h1 := mem_jsSort.mp hg
    have h2 := List.mem_filter.mp h1
    exact ⟨h2.1, by simpa using h2.2⟩
  have hG : ∀ nr ∈ jsSort (items.filter fun i => !isRelatedItem i) nrLe,
      (jmGet (((((items.filter isRelatedItem).filter
            (fun r => !(linkersOf items (pathOf r)).isEmpty)).map
          (fun r => (pathOf (primOf items r), r))).foldl
            (fun m p => jmPush m p.1 p.2) []).map
        (fun e => (e.1, jsSort e.2 pathLe))) (pathOf nr)).getD [] =
      grpOf items nr := by
    intro nr _
    rw [jmGet_map_values _ (fun l => jsSort l pathLe) (pathOf nr),
      fold_jmPush_get]
    rw [List.filter_map
      (fun r => (pathOf (primOf items r), r))
      ((items.filter isRelatedItem).filter
        (fun r => !(linkersOf items (pathOf r)).isEmpty))]
    have hpred : ∀ x, ((fun p => decide (p.1 = pathOf nr)) ∘
        (fun r => (pathOf (primOf items r), r))) x =
        decide (pathOf (primOf items x) = pathOf nr) := fun x => rfl
    rw [List.filter_congr (fun x _ => hpred x)]
    by_cases hq : ((items.filter isRelatedItem).filter
        (fun r => !(linkersOf items (pathOf r)).isEmpty)).filter
          (fun r => pathOf (primOf items r) = pathOf nr) = []
    · rw [hq]
      unfold grpOf
      rw [hq, jsSort_nil]
      simp [jmGet]
    · rw [if_neg (by
        rw [List.isEmpty_iff, List.map_eq_nil_iff]
        exact hq)]
      show jsSort (List.map Prod.snd
          (List.map (fun r => (pathOf (primOf items r), r))
            (((items.filter isRelatedItem).filter
                (fun r => !(linkersOf items (pathOf r)).isEmpty)).filter
              (fun r => pathOf (primOf items r) = pathOf nr)))) pathLe = grpOf items nr
      rw [map_snd_pair (fun r => pathOf (primOf items r))]
      rfl
  have hGnd : ∀ nr ∈ jsSort (items.filter fun i => !isRelatedItem i) nrLe,
      ((grpOf items nr).map pathOf).Nodup := by
    intro nr _
    have hsub : ((((items.filter isRelatedItem).filter
          (fun r => !(linkersOf items (pathOf r)).isEmpty)).filter
        (fun r => pathOf (primOf items r) = pathOf nr)).map pathOf).Nodup :=
      ((List.filter_sublist _).map pathOf).nodup hndRelsL
    exact (((jsSort_perm _ pathLe).map pathOf).nodup_iff).mpr hsub
  have hpair : (jsSort (items.filter fun i => !isRelatedItem i) nrLe).Pairwise
      (fun a b => ∀ g ∈ grpOf items a, ∀ g2 ∈ grpOf items b, pathOf g ≠ pathOf g2) := by
    have hpw : (jsSort (items.filter fun i => !isRelatedItem i) nrLe).Pairwise
        (fun a b => pathOf a ≠ pathOf b) := List.pairwise_map.mp hndNRp
    refine hpw.imp ?_
    intro a b hne g hg g2 hg2 hpe
    have m1 := memGrp a g hg
    have m2 := memGrp b g2 hg2
    have hgI : g ∈ items := (List.mem_filter.mp (List.mem_filter.mp m1.1).1).1
    have hg2I : g2 ∈ items := (List.mem_filter.mp (List.mem_filter.mp m2.1).1).1
    have heq : g = g2 := List.inj_on_of_nodup_map hnd hgI hg2I hpe
    subst heq
    exact hne (m1.2.symm.trans m2.2)
  have horph : ∀ o ∈ jsSort ((items.filter isRelatedItem).filter
        (fun r => (linkersOf items (pathOf r)).isEmpty)) pathLe,
      ∀ nr ∈ jsSort (items.filter fun i => !isRelatedItem i) nrLe,
      ∀ g ∈ grpOf items nr, pathOf o ≠ pathOf g := by
    intro o ho nr _ g hg hpe
    have ho2 := List.mem_filter.mp (mem_jsSort.mp ho)
    have hoI : o ∈ items := (List.mem_filter.mp ho2.1).1
    have m1 := memGrp nr g hg
    have hgE := (List.mem_filter.mp m1.1).2
    have hgI : g ∈ items := (List.mem_filter.mp (List.mem_filter.mp m1.1).1).1
    have heq : o = g := List.inj_on_of_nodup_map hnd hoI hgI hpe
    subst heq
    simp only [decide_eq_true_eq] at ho2
    simp [ho2.2] at hgE
  have hond : ((jsSort ((items.filter isRelatedItem).filter
        (fun r => (linkersOf items (pathOf r)).isEmpty)) pathLe).map pathOf).Nodup := by
    have hsub : (((items.filter isRelatedItem).filter
          (fun r => (linkersOf items (pathOf r)).isEmpty)).map pathOf).Nodup :=
      ((List.filter_sublist _).map pathOf).nodup hndR
    exact (((jsSort_perm _ pathLe).map pathOf).nodup_iff).mpr hsub
  have E1a : (buildLinkers items (items.filter isRelatedItem)).1 =
      ((items.filter isRelatedItem).filter
          (fun r => !(linkersOf items (pathOf r)).isEmpty)).map
        (fun r => (pathOf r, (linkersOf items (pathOf r)).map pathOf)) := by
    rw [E1]
  have E1b : (buildLinkers items (items.filter isRelatedItem)).2 =
      (items.filter isRelatedItem).filter
        (fun r => (linkersOf items (pathOf r)).isEmpty) := by
    rw [E1]
  have E3a :
      (buildGroups (jsSort (items.filter fun i => !isRelatedItem i) nrLe)
        ((items.filter isRelatedItem).map (fun x => (pathOf x, x)))
        (((items.filter isRelatedItem).filter
            (fun r => !(linkersOf items (pathOf r)).isEmpty)).map
          (fun r => (pathOf r, (linkersOf items (pathOf r)).map pathOf)))
        (jsSort ((items.filter isRelatedItem).filter
            (fun r => (linkersOf items (pathOf r)).isEmpty)) pathLe)).1 =
      (((items.filter isRelatedItem).filter
            (fun r => !(linkersOf items (pathOf r)).isEmpty)).map
          (fun r => (pathOf (primOf items r), r))).foldl
        (fun m p => jmPush m p.1 p.2) [] := by
    rw [E3]
  have E3b :
      (buildGroups (jsSort (items.filter fun i => !isRelatedItem i) nrLe)
        ((items.filter isRelatedItem).map (fun x => (pathOf x, x)))
        (((items.filter isRelatedItem).filter
            (fun r => !(linkersOf items (pathOf r)).isEmpty)).map
          (fun r => (pathOf r, (linkersOf items (pathOf r)).map pathOf)))
        (jsSort ((items.filter isRelatedItem).filter
            (fun r => (linkersOf items (pathOf r)).isEmpty)) pathLe)).2 =
      jsSort ((items.filter isRelatedItem).filter
          (fun r => (linkersOf items (pathOf r)).isEmpty)) pathLe := by
    rw [E3]
  have E5 : sortItems hoist items =
      (jsSort (items.filter fun i => !isRelatedItem i) nrLe).flatMap
        (fun nr => if hoist then grpOf items nr ++ [nr] else nr :: grpOf items nr) ++
      jsSort ((items.filter isRelatedItem).filter
          (fun r => (linkersOf items (pathOf r)).isEmpty)) pathLe := by
    have hstart : sortItems hoist items =
        assembleMain hoist
          ((buildGroups (jsSort (items.filter fun i => !isRelatedItem i) nrLe)
              (relatedItemsMapOf (items.filter isRelatedItem))
              (buildLinkers items (items.filter isRelatedItem)).1
              (jsSort (buildLinkers items (items.filter isRelatedItem)).2
                pathLe)).1.map
            (fun e => (e.1, jsSort e.2 pathLe)))
          (jsSort (items.filter fun i => !isRelatedItem i) nrLe)
          (buildGroups (jsSort (items.filter fun i => !isRelatedItem i) nrLe)
              (relatedItemsMapOf (items.filter isRelatedItem))
              (buildLinkers items (items.filter isRelatedItem)).1
              (jsSort (buildLinkers items (items.filter isRelatedItem)).2
                pathLe)).2 := rfl
    rw [hstart, E1a, E1b, E2, E3a, E3b]
    exact assembleMain_eq hoist _ (grpOf items) _ _ hG hGnd hpair horph hond
  rw [E5]
  have B1 : ∀ nr : ContextItem,
      ((items.filter isRelatedItem).filter
        (fun r =>
          ((jsSort (items.filter fun i => !isRelatedItem i) nrLe).find?
            (fun x => linksAny x (pathOf r))).map pathOf = some (pathOf nr))) =
      (((items.filter isRelatedItem).filter
          (fun r => !(linkersOf items (pathOf r)).isEmpty)).filter
        (fun r => pathOf (primOf items r) = pathOf nr)) := by
    intro nr
    rw [List.filter_filter (fun r => !(linkersOf items (pathOf r)).isEmpty)
      (items.filter isRelatedItem)]
    apply List.filter_congr
    intro r _
    cases hf : (jsSort (items.filter fun i => !isRelatedItem i) nrLe).find?
        (fun x => linksAny x (pathOf r)) with
    | none =>
      have hT := (hiffE (pathOf r)).mpr hf
      simp [hf, hT]
    | some v =>
      have hF := hEfalse (pathOf r) v hf
      simp [hf, hF, primOf]
  have B2 :
      ((items.filter isRelatedItem).filter
        (fun r =>
          (((jsSort (items.filter fun i => !isRelatedItem i) nrLe).find?
            (fun x => linksAny x (pathOf r))).map pathOf).isNone)) =
      ((items.filter isRelatedItem).filter
        (fun r => (linkersOf items (pathOf r)).isEmpty)) := by
    apply List.filter_congr
    intro r _
    cases hf : (jsSort (items.filter fun i => !isRelatedItem i) nrLe).find?
        (fun x => linksAny x (pathOf r)) with
    | none => simp [hf, (hiffE (pathOf r)).mpr hf]
    | some v => simp [hf, hEfalse (pathOf r) v hf]
  show (jsSort (items.filter fun i => !isRelatedItem i) nrLe).flatMap
      (fun nr => if hoist then grpOf items nr ++ [nr] else nr :: grpOf items nr) ++
      jsSort ((items.filter isRelatedItem).filter
        (fun r => (linkersOf items (pathOf r)).isEmpty)) pathLe =
    (jsSort (items.filter fun i => !isRelatedItem i) nrLe).flatMap
      (fun nr =>
        let grp := jsSort ((items.filter isRelatedItem).filter
          (fun r =>
            ((jsSort (items.filter fun i => !isRelatedItem i) nrLe).find?
              (fun x => linksAny x (pathOf r))).map pathOf = some (pathOf nr))) pathLe
        if hoist then grp ++ [nr] else nr :: grp) ++
    jsSort ((items.filter isRelatedItem).filter
      (fun r =>
        (((jsSort (items.filter fun i => !isRelatedItem i) nrLe).find?
          (fun x => linksAny x (pathOf r))).map pathOf).isNone)) pathLe
  rw [B2]
  congr 1
  apply List.flatMap_congr
  intro nr _
  rw [B1 nr]
  rfl

theorem flatMap_perm_of_pointwise {α β : Type} (f g : α → List β) :
    ∀ l : List α, (∀ x ∈ l, (f x).Perm (g x)) → (l.flatMap f).Perm (l.flatMap g) := by
  intro l
  induction l with
  | nil => intro _; rfl
  | cons a l ih =>
    intro h
    simp only [List.flatMap_cons]
    exact (h a (List.mem_cons_self a l)).append
      (ih (fun x hx => h x (List.mem_cons_of_mem a hx)))

/-- Emitting each element adjacent to its group — on either side — is a
permutation of the elements followed by all groups. -/
theorem flatMap_sandwich_perm {α : Type} (A : α → List α) (hoist : Bool) :
    ∀ l : List α,
      (l.flatMap (fun x => if hoist then A x ++ [x] else x :: A x)).Perm
        (l ++ l.flatMap A) := by
  intro l
  induction l with
  | nil => rfl
  | cons a l ih =>
    simp only [List.flatMap_cons, List.cons_append]
    have key : ∀ rest : List α, rest.Perm (l ++ l.flatMap A) →
        (a :: (A a ++ rest)).Perm (a :: (l ++ (A a ++ l.flatMap A))) := by
      intro rest hrest
      refine List.Perm.cons a ?_
      have h1 : (A a ++ rest).Perm (A a ++ (l ++ l.flatMap A)) :=
        hrest.append_left (A a)
      have h2 : (A a ++ (l ++ l.flatMap A)).Perm (l ++ (A a ++ l.flatMap A)) := by
        rw [← List.append_assoc, ← List.append_assoc]
        exact (List.perm_append_comm).append_right (l.flatMap A)
      exact h1.trans h2
    cases hoist
    · simp only [Bool.false_eq_true, if_false]
      exact key _ ih
    · simp only [if_true]
      have hfront : ((A a ++ [a]) ++
          l.flatMap (fun x => if true = true then A x ++ [x] else x :: A x)).Perm
          (a :: (A a ++ l.flatMap (fun x => if true = true then A x ++ [x] else x :: A x))) := by
        have : (A a ++ [a]).Perm (a :: A a) := List.perm_append_comm
        exact this.append_right
          (l.flatMap (fun x => if true = true then A x ++ [x] else x :: A x))
      exact hfront.trans (key _ ih)

/-- Splitting a list by an optional key function: the keyed groups in
any covering duplicate-free key order, with the unkeyed elements
appended, permute the list. -/
theorem partition_by_key_perm {α : Type} (κ : α → Option String) :
    ∀ (keys : List String) (l : List α), keys.Nodup →
      (∀ x ∈ l, ∀ p, κ x = some p → p ∈ keys) →
      ((keys.flatMap (fun k => l.filter (fun x => κ x = some k))) ++
        l.filter (fun x => (κ x).isNone)).Perm l := by
  intro keys
  induction keys with
  | nil =>
    intro l _ hcov
    simp only [List.flatMap_nil, List.nil_append]
    have hall : ∀ x ∈ l, ((κ x).isNone) = true := by
      intro x hx
      cases hk : κ x with
      | none => rfl
      | some p => exact absurd (hcov x hx p hk) (by simp)
    rw [List.filter_eq_self.mpr hall]
  | cons k keys ih =>
    intro l hnd hcov
    simp only [List.nodup_cons] at hnd
    simp only [List.flatMap_cons]
    have hcomp : ∀ k2 ∈ keys, l.filter (fun x => κ x = some k2) =
        (l.filter (fun x => !(decide (κ x = some k)))).filter
          (fun x => κ x = some k2) := by
      intro k2 hk2
      rw [List.filter_filter]
      apply List.filter_congr
      intro x _
      cases hk : κ x with
      | none => simp
      | some p =>
        by_cases hp : p = k2
        · subst hp
          have hpk : p ≠ k := fun hc => hnd.1 (hc ▸ hk2)
          simp [hpk]
        · simp [hp]
    have hnone : l.filter (fun x => (κ x).isNone) =
        (l.filter (fun x => !(decide (κ x = some k)))).filter
          (fun x => (κ x).isNone) := by
      rw [List.filter_filter]
      apply List.filter_congr
      intro x _
      cases hk : κ x <;> simp
    have hflat : keys.flatMap (fun k2 => l.filter (fun x => κ x = some k2)) =
        keys.flatMap (fun k2 => (l.filter (fun x => !(decide (κ x = some k)))).filter
          (fun x => κ x = some k2)) :=
      List.flatMap_congr hcomp
    rw [hflat, hnone, List.append_assoc]
    have hih : ((keys.flatMap (fun k2 =>
          (l.filter (fun x => !(decide (κ x = some k)))).filter
            (fun x => κ x = some k2))) ++
        (l.filter (fun x => !(decide (κ x = some k)))).filter
          (fun x => (κ x).isNone)).Perm
        (l.filter (fun x => !(decide (κ x = some k)))) := by
      apply ih _ hnd.2
      intro x hx p hp
      have hxl := List.mem_filter.mp hx
      have hmem := hcov x hxl.1 p hp
      rcases List.mem_cons.mp hmem with h | h
      · subst h
        rw [hp] at hxl
        simp at hxl
      · exact h
    exact (hih.append_left _).trans (List.filter_append_perm _ l)

/-- The spec assembly is a permutation of its input (duplicate-free
paths). -/
theorem specAssembleAny_perm (hoist : Bool) (items : List ContextItem)
    (hnd : (items.map pathOf).Nodup) :
    (specAssembleAny hoist items).Perm items := by
  have hpermNR :
      (jsSort (items.filter fun i => !isRelatedItem i) nrLe).Perm
        (items.filter fun i => !isRelatedItem i) := jsSort_perm _ _
  have hndNRp :
      ((jsSort (items.filter fun i => !isRelatedItem i) nrLe).map pathOf).Nodup :=
    ((hpermNR.map pathOf).nodup_iff).mpr
      (((List.filter_sublist items).map pathOf).nodup hnd)
  have h1 := flatMap_sandwich_perm
    (fun nr => jsSort ((items.filter isRelatedItem).filter
      (fun r =>
        ((jsSort (items.filter fun i => !isRelatedItem i) nrLe).find?
          (fun x => linksAny x (pathOf r))).map pathOf = some (pathOf nr))) pathLe)
    hoist (jsSort (items.filter fun i => !isRelatedItem i) nrLe)
  have h2 := flatMap_perm_of_pointwise
    (fun nr => jsSort ((items.filter isRelatedItem).filter
      (fun r =>
        ((jsSort (items.filter fun i => !isRelatedItem i) nrLe).find?
          (fun x => linksAny x (pathOf r))).map pathOf = some (pathOf nr))) pathLe)
    (fun nr => (items.filter isRelatedItem).filter
      (fun r =>
        ((jsSort (items.filter fun i => !isRelatedItem i) nrLe).find?
          (fun x => linksAny x (pathOf r))).map pathOf = some (pathOf nr)))
    (jsSort (items.filter fun i => !isRelatedItem i) nrLe)
    (fun nr _ => jsSort_perm _ _)
  have h3 :
      ((jsSort (items.filter fun i => !isRelatedItem i) nrLe).map pathOf).flatMap
        (fun k => (items.filter isRelatedItem).filter
          (fun r =>
            ((jsSort (items.filter fun i => !isRelatedItem i) nrLe).find?
              (fun x => linksAny x (pathOf r))).map pathOf = some k)) =
      (jsSort (items.filter fun i => !isRelatedItem i) nrLe).flatMap
        (fun nr => (items.filter isRelatedItem).filter
          (fun r =>
            ((jsSort (items.filter fun i => !isRelatedItem i) nrLe).find?
              (fun x => linksAny x (pathOf r))).map pathOf = some (pathOf nr))) :=
    List.flatMap_map pathOf _ _
  have h4 := partition_by_key_perm
    (fun r => ((jsSort (items.filter fun i => !isRelatedItem i) nrLe).find?
        (fun x => linksAny x (pathOf r))).map pathOf)
    ((jsSort (items.filter fun i => !isRelatedItem i) nrLe).map pathOf)
    (items.filter isRelatedItem) hndNRp
    (by
      intro x _ p hp
      have hp2 : ((jsSort (items.filter fun i => !isRelatedItem i) nrLe).find?
          (fun y => linksAny y (pathOf x))).map pathOf = some p := hp
      cases hf : (jsSort (items.filter fun i => !isRelatedItem i) nrLe).find?
          (fun y => linksAny y (pathOf x)) with
      | none =>
        rw [hf] at hp2
        cases hp2
      | some v =>
        rw [hf] at hp2
        have hv : pathOf v = p := by simpa using hp2
        exact hv ▸ List.mem_map_of_mem pathOf (List.mem_of_find?_eq_some hf))
  have horphp : (jsSort ((items.filter isRelatedItem).filter
      (fun r =>
        (((jsSort (items.filter fun i => !isRelatedItem i) nrLe).find?
          (fun x => linksAny x (pathOf r))).map pathOf).isNone)) pathLe).Perm
      ((items.filter isRelatedItem).filter
      (fun r =>
        (((jsSort (items.filter fun i => !isRelatedItem i) nrLe).find?
          (fun x => linksAny x (pathOf r))).map pathOf).isNone)) := jsSort_perm _ _
  have hstep : (specAssembleAny hoist items).Perm
      ((jsSort (items.filter fun i => !isRelatedItem i) nrLe) ++
        (items.filter isRelatedItem)) := by
    refine (h1.append horphp).trans ?_
    rw [List.append_assoc]
    refine List.Perm.append_left _ ?_
    exact (h2.append_right _).trans (h3 ▸ h4)
  exact hstep.trans
    ((hpermNR.append_right (items.filter isRelatedItem)).trans
      ((List.perm_append_comm).trans (List.filter_append_perm isRelatedItem items)))

/-- `sortItems` permutes its input whenever paths are duplicate-free. -/
theorem sortItems_perm (hoist : Bool) (items : List ContextItem)
    (hnd : (items.map pathOf).Nodup) : (sortItems hoist items).Perm items := by
  rw [sortItems_eq_specAssembleAny hoist items hnd]
  exact specAssembleAny_perm hoist items hnd

/-! ### Concrete data for witnesses and counterexamples -/

/-- A concrete outbound link. -/
def mkLink (target : String) (inline : Bool) : DocLink :=
  { anchorText := "x", filePath := target, rawLinkTarget := target,
    isInline := inline, inlineLinesRange := none }

/-- A concrete non-error markdown document. -/
def mkDoc (path : String) (always : Bool) (links : List DocLink) : Doc :=
  { contentLinesBeforeParsed := 0, content := "", meta := ⟨none, [], always⟩,
    filePath := path, linksTo := links, isMarkdown := true, isError := false,
    errorReason := none }

/-- An `always` item whose only link to the related path is inline. -/
def inlineLinkerW : ContextItem :=
  ⟨mkDoc "a.md" true [mkLink "r.md" true], AttachedItemType.always, none, none⟩

/-- The related item the inline link points to. -/
def inlineRelatedW : ContextItem :=
  ⟨mkDoc "r.md" false [], AttachedItemType.related, some "x", some "a.md"⟩

/-- **C3, counterexample.**  The claim restricts primary linkers to
non-inline links; the code's linker scan checks `link.filePath` only and
ignores `isInline`.  With one always item whose only link to the related
path is inline, the claim's rule makes the related item an orphan
(placed after its linker), but `sortItems` hoists it adjacent before the
linker; the input has duplicate-free paths, so this is not a degenerate
input. -/
theorem sortItems_inline_linker_counterexample :
    sortItems true [inlineLinkerW, inlineRelatedW] =
        [inlineRelatedW, inlineLinkerW] ∧
      specAssembleNonInline true [inlineLinkerW, inlineRelatedW] =
        [inlineLinkerW, inlineRelatedW] ∧
      sortItems true [inlineLinkerW, inlineRelatedW] ≠
        specAssembleNonInline true [inlineLinkerW, inlineRelatedW] ∧
      (([inlineLinkerW, inlineRelatedW] : List ContextItem).map pathOf).Nodup := by
  refine ⟨by decide, by decide, by decide, by decide⟩

/-- **C3 (amended).**  Under duplicate-free item paths, `sortItems` is
exactly the spec-worded assembly in which a related item's primary
linker is the earliest item of the sorted non-related sequence with ANY
link — inline or not — to the related path, and related items with no
such linker are appended as orphans, sorted by path, at the end. -/
theorem sortItems_primary_linker_any_link (hoist : Bool) (items : List ContextItem)
    (hnd : (items.map pathOf).Nodup) :
    sortItems hoist items = specAssembleAny hoist items :=
  sortItems_eq_specAssembleAny hoist items hnd

/-- Witness for `sortItems_primary_linker_any_link` at a concrete
two-item input. -/
theorem sortItems_primary_linker_any_link_witness :
    (([inlineLinkerW, inlineRelatedW] : List ContextItem).map pathOf).Nodup ∧
      sortItems true [inlineLinkerW, inlineRelatedW] =
        specAssembleAny true [inlineLinkerW, inlineRelatedW] :=
  ⟨by decide,
    sortItems_primary_linker_any_link true [inlineLinkerW, inlineRelatedW] (by decide)⟩

/-- A related item used twice to fabricate a duplicated path. -/
def dupRelatedW : ContextItem :=
  ⟨mkDoc "d.md" false [], AttachedItemType.related, some "x", some "z.md"⟩

/-- **C8, counterexample.**  The end-of-assembly sanity check in
`sortItems` only logs (`console.error`) on an item-count mismatch and
returns the computed list regardless; no error reaches the caller.  On a
duplicated input item the final count (1) differs from the collected
count (2), yet a result is still returned. -/
theorem sortItems_count_mismatch_counterexample :
    (sortItems true [dupRelatedW, dupRelatedW]).length = 1 ∧
      ([dupRelatedW, dupRelatedW] : List ContextItem).length = 2 ∧
      sortItems true [dupRelatedW, dupRelatedW] = [dupRelatedW] := by
  refine ⟨by decide, by decide, by decide⟩

/-- **C8 (amended).**  Under duplicate-free item paths the assembled
sequence has exactly the collected item count, so the log-only sanity
check never fires; the function is total and never raises. -/
theorem sortItems_length_preserved (hoist : Bool) (items : List ContextItem)
    (hnd : (items.map pathOf).Nodup) :
    (sortItems hoist items).length = items.length :=
  (sortItems_perm hoist items hnd).length_eq

/-- Witness for `sortItems_length_preserved` at a concrete input. -/
theorem sortItems_length_preserved_witness :
    (([inlineLinkerW, dupRelatedW] : List ContextItem).map pathOf).Nodup ∧
      (sortItems false [inlineLinkerW, dupRelatedW]).length =
        ([inlineLinkerW, dupRelatedW] : List ContextItem).length :=
  ⟨by decide, sortItems_length_preserved false [inlineLinkerW, dupRelatedW] (by decide)⟩

/-! ### Well-formedness of the collected item map -/

/-- Key uniqueness plus key-value agreement for the context-item map. -/
def WFCtxMap (m : JSMap ContextItem) : Prop :=
  (jmKeys m).Nodup ∧ ∀ p ∈ m, pathOf p.2 = p.1

theorem jmHas_iff_mem_keys {α : Type} : ∀ (m : JSMap α) (k : String),
    jmHas m k = true ↔ k ∈ jmKeys m := by
  intro m k
  induction m with
  | nil => simp [jmHas, jmGet, jmKeys]
  | cons p m ih =>
    by_cases hp : p.1 = k
    · simp [jmHas, jmGet, jmKeys, hp]
    · have hh : jmHas (p :: m) k = jmHas m k := by simp [jmHas, jmGet, hp]
      rw [hh, ih]
      simp only [jmKeys, List.map_cons, List.mem_cons]
      constructor
      · exact Or.inr
      · intro h
        rcases h with h | h
        · exact absurd h.symm hp
        · exact h

theorem mem_jmSet {α : Type} : ∀ (m : JSMap α) (k : String) (v : α) (q : String × α),
    q ∈ jmSet m k v → q = (k, v) ∨ q ∈ m := by
  intro m k v q
  induction m with
  | nil =>
    intro h
    simp [jmSet] at h
    exact Or.inl (by simp [h])
  | cons p m ih =>
    intro h
    by_cases hp : p.1 = k
    · rw [jmSet, if_pos hp] at h
      rcases List.mem_cons.mp h with h | h
      · exact Or.inl h
      · exact Or.inr (List.mem_cons_of_mem p h)
    · rw [jmSet, if_neg hp] at h
      rcases List.mem_cons.mp h with h | h
      · exact Or.inr (List.mem_cons.mpr (Or.inl h))
      · rcases ih h with h2 | h2
        · exact Or.inl h2
        · exact Or.inr (List.mem_cons_of_mem p h2)

theorem jmKeys_set_nodup {α : Type} {m : JSMap α} (hnd : (jmKeys m).Nodup)
    (k : String) (v : α) : (jmKeys (jmSet m k v)).Nodup := by
  rw [jmKeys_set]
  by_cases h : jmHas m k
  · simp [h, hnd]
  · have hk : k ∉ jmKeys m := fun hc => h ((jmHas_iff_mem_keys m k).mpr hc)
    simp only [h, Bool.false_eq_true, if_false]
    rw [List.nodup_append]
    exact ⟨hnd, List.nodup_singleton k, by
      intro x hx hc
      rcases List.mem_singleton.mp hc with h2
      exact hk (h2 ▸ hx)⟩

theorem WFCtxMap_set {m : JSMap ContextItem} (h : WFCtxMap m) {k : String}
    {v : ContextItem} (hv : pathOf v = k) : WFCtxMap (jmSet m k v) := by
  refine ⟨jmKeys_set_nodup h.1 k v, ?_⟩
  intro p hp
  rcases mem_jmSet m k v p hp with h2 | h2
  · rw [h2]
    exact hv
  · exact h.2 p h2

theorem foldl_preserve {α σ : Type} (f : σ → α → σ) (P : σ → Prop) :
    ∀ (l : List α) (s0 : σ), P s0 → (∀ s a, a ∈ l → P s → P (f s a)) →
      P (l.foldl f s0) := by
  intro l
  induction l with
  | nil => intro s0 h _; exact h
  | cons a l ih =>
    intro s0 h hstep
    exact ih (f s0 a) (hstep s0 a (List.mem_cons_self a l) h)
      (fun s x hx hs => hstep s x (List.mem_cons_of_mem a hx) hs)

theorem buildSeeds_wf (env : CtxEnv) (root : String)
    (attached agent : List String) (docs : List Doc) :
    WFCtxMap (buildSeeds env root attached agent docs).1 := by
  unfold buildSeeds
  refine foldl_preserve _
    (fun (st : JSMap ContextItem × JSSet) => WFCtxMap st.1) docs ([], []) ⟨?_, ?_⟩ ?_
  · simp [jmKeys]
  · intro p hp
    exact absurd hp (List.not_mem_nil p)
  intro st doc _ hP
  dsimp only
  split
  · exact hP
  · split
    · exact hP
    · split
      · exact WFCtxMap_set hP rfl
      · split
        · exact WFCtxMap_set hP rfl
        · exact hP

theorem bfsLink_wf {index : JSMap Doc} (hki : (jmKeys index).Nodup)
    (hvi : ∀ p ∈ index, p.2.filePath = p.1) (cp : String)
    (st : JSMap ContextItem × JSSet × List String) (l : DocLink)
    (h : WFCtxMap st.1) : WFCtxMap (bfsLink index cp st l).1 := by
  unfold bfsLink
  split
  · exact h
  · split
    · exact h
    · next linkedDoc heq =>
      split
      · exact h
      · split
        · exact h
        · have hpath : linkedDoc.filePath = l.filePath :=
            hvi (l.filePath, linkedDoc) ((jmGet_eq_some_iff_mem hki _ _).mp heq)
          split
          · exact WFCtxMap_set h hpath
          · exact WFCtxMap_set h hpath

theorem bfsLoop_wf {index : JSMap Doc} (hki : (jmKeys index).Nodup)
    (hvi : ∀ p ∈ index, p.2.filePath = p.1) :
    ∀ (fuel : Nat) (m : JSMap ContextItem) (visited : JSSet) (queue : List String),
      WFCtxMap m → WFCtxMap (bfsLoop index fuel m visited queue) := by
  intro fuel
  induction fuel with
  | zero => intro m _ _ h; exact h
  | succ fuel ih =>
    intro m visited queue h
    rw [bfsLoop.eq_def]
    dsimp only
    split
    · exact h
    · split
      · exact ih _ _ _ h
      · split
        · exact ih _ _ _ h
        · refine ih _ _ _ ?_
          exact foldl_preserve _
            (fun (st : JSMap ContextItem × JSSet × List String) => WFCtxMap st.1) _ _ h
            (fun st l _ hs => bfsLink_wf hki hvi _ st l hs)

theorem collectItems_wf (env : CtxEnv) (root : String) {index : JSMap Doc}
    (hki : (jmKeys index).Nodup) (hvi : ∀ p ∈ index, p.2.filePath = p.1)
    (attached agent : List String) :
    WFCtxMap (collectItems env root index attached agent) :=
  bfsLoop_wf hki hvi _ _ _ _ (buildSeeds_wf env root attached agent (jmValues index))

theorem wf_values_nodup {m : JSMap ContextItem} (h : WFCtxMap m) :
    ((jmValues m).map pathOf).Nodup := by
  have heq : (jmValues m).map pathOf = jmKeys m := by
    unfold jmValues jmKeys
    rw [List.map_map]
    exact List.map_congr_left (fun p hp => h.2 p hp)
  rw [heq]
  exact h.1

/-- **C2.**  For every input the assembled sequence is a permutation of
the collected context items (classified seeds plus BFS-discovered
related items): nothing is dropped or duplicated, and — since the
collected map keys its items by path — each path occurs at most once in
the output.  The index is assumed well-formed: unique keys, and each
document stored under its own path. -/
theorem buildContextItems_is_permutation (env : CtxEnv) (root : String)
    (hoist : Bool) (index : JSMap Doc) (attached agent : List String)
    (hki : (jmKeys index).Nodup) (hvi : ∀ p ∈ index, p.2.filePath = p.1) :
    (buildContextItems env root hoist index attached agent).Perm
        (jmValues (collectItems env root index attached agent)) ∧
      ((buildContextItems env root hoist index attached agent).map pathOf).Nodup := by
  have hnd : ((jmValues (collectItems env root index attached agent)).map pathOf).Nodup :=
    wf_values_nodup (collectItems_wf env root hki hvi attached agent)
  by_cases hidx : index.length = 0
  · have h0 : index = [] := List.length_eq_zero.mp hidx
    subst h0
    exact ⟨List.Perm.refl [], List.nodup_nil⟩
  · have hb : buildContextItems env root hoist index attached agent =
        sortItems hoist (jmValues (collectItems env root index attached agent)) := by
      unfold buildContextItems
      rw [if_neg hidx]
    rw [hb]
    have hperm := sortItems_perm hoist _ hnd
    exact ⟨hperm, ((hperm.map pathOf).nodup_iff).mpr hnd⟩

/-- A concrete assembler environment for witnesses. -/
def envW : CtxEnv := ⟨fun _ f => f, fun _ _ => false⟩

/-- A concrete one-document index for witnesses. -/
def indexW : JSMap Doc := [("a.md", mkDoc "a.md" true [])]

/-- Witness for `buildContextItems_is_permutation` on a one-document
index. -/
theorem buildContextItems_is_permutation_witness :
    (jmKeys indexW).Nodup ∧ (∀ p ∈ indexW, p.2.filePath = p.1) ∧
      ((buildContextItems envW "" true indexW [] []).Perm
          (jmValues (collectItems envW "" indexW [] [])) ∧
        ((buildContextItems envW "" true indexW [] []).map pathOf).Nodup) :=
  ⟨by decide, by decide,
    buildContextItems_is_permutation envW "" true indexW [] [] (by decide) (by decide)⟩

/-! ### Classification: first-match characterization and seed presence -/

/-- The spec's classification pass: evaluate in strict priority order
always, auto, agent, manual and stop at the first match. -/
def specClassify (env : CtxEnv) (root : String)
    (attachedFiles relevantDocsByDescription : List String) (doc : Doc) :
    Option AttachedItemType :=
  if doc.meta.alwaysApply then some AttachedItemType.always
  else if doc.meta.globs ≠ [] ∧ attachedFiles.any
      (fun f => env.isMatch (env.pathRelative root f) doc.meta.globs) then
    some AttachedItemType.auto
  else if (match doc.meta.description with
      | some d => decide (d ≠ "") && relevantDocsByDescription.contains d
      | none => false) then some AttachedItemType.agent
  else if attachedFiles.contains doc.filePath then some AttachedItemType.manual
  else none

theorem classifyDoc_eq_specClassify (env : CtxEnv) (root : String)
    (attached agent : List String) (doc : Doc) :
    classifyDoc env root attached agent doc =
      specClassify env root attached agent doc := by
  unfold classifyDoc specClassify
  by_cases h1 : doc.meta.alwaysApply
  · simp only [h1, if_true, typePriority]
    norm_num
  · by_cases h2 : doc.meta.globs ≠ [] ∧ (attached.any
        (fun f => env.isMatch (env.pathRelative root f) doc.meta.globs)) = true
    · simp only [h1, h2, if_true, if_false, Bool.false_eq_true, typePriority]
      norm_num [h2.1]
    · by_cases h3 : (match doc.meta.description with
          | some d => decide (d ≠ "") && agent.contains d
          | none => false) = true
      · simp only [h1, h2, h3, if_true, if_false, Bool.false_eq_true, typePriority]
        norm_num
      · by_cases h4 : attached.contains doc.filePath = true
        · simp only [h1, h2, h3, h4, if_true, if_false, Bool.false_eq_true, typePriority]
          norm_num
        · simp only [h1, h2, h3, h4, if_true, if_false, Bool.false_eq_true, typePriority]
          norm_num

theorem jmGet_eq_none_of_not_has {α : Type} {m : JSMap α} {k : String}
    (h : ¬ jmHas m k = true) : jmGet m k = none := by
  unfold jmHas at h
  cases hg : jmGet m k
  · rfl
  · rw [hg] at h
    simp at h

/-- The seed pass made explicit: under duplicate-free document paths
each classified non-error document contributes exactly one appended map
entry and one appended classified path, in document order. -/
theorem buildSeeds_fold (env : CtxEnv) (root : String) (attached agent : List String) :
    ∀ (docs : List Doc) (M0 : JSMap ContextItem) (S0 : JSSet),
      (docs.map Doc.filePath).Nodup →
      (∀ d ∈ docs, ¬ jmHas M0 d.filePath = true) →
      (∀ d ∈ docs, ¬ S0.contains d.filePath = true) →
      docs.foldl
        (fun st doc =>
          if doc.isError then st
          else
            match classifyDoc env root attached agent doc with
            | none => st
            | some t =>
              let m1 :=
                match jmGet st.1 doc.filePath with
                | none => jmSet st.1 doc.filePath ⟨doc, t, none, none⟩
                | some existing =>
                  if typePriority t < typePriority existing.type then
                    jmSet st.1 doc.filePath ⟨doc, t, none, none⟩
                  else st.1
              (m1, sAdd st.2 doc.filePath)) (M0, S0) =
      (M0 ++ docs.filterMap (fun doc =>
          if doc.isError then none
          else match classifyDoc env root attached agent doc with
            | none => none
            | some t => some (doc.filePath, (⟨doc, t, none, none⟩ : ContextItem))),
       S0 ++ docs.filterMap (fun doc =>
          if doc.isError then none
          else match classifyDoc env root attached agent doc with
            | none => none
            | some _ => some doc.filePath)) := by
  intro docs
  induction docs with
  | nil => intro M0 S0 _ _ _; simp
  | cons d docs ih =>
    intro M0 S0 hnd hfm hfs
    simp only [List.map_cons, List.nodup_cons] at hnd
    simp only [List.foldl_cons, List.filterMap_cons]
    by_cases he : d.isError
    · simp only [he, if_true]
      rw [ih M0 S0 hnd.2 (fun x hx => hfm x (List.mem_cons_of_mem d hx))
        (fun x hx => hfs x (List.mem_cons_of_mem d hx))]
    · simp only [he, Bool.false_eq_true, if_false]
      cases hc : classifyDoc env root attached agent d with
      | none =>
        rw [ih M0 S0 hnd.2 (fun x hx => hfm x (List.mem_cons_of_mem d hx))
          (fun x hx => hfs x (List.mem_cons_of_mem d hx))]
      | some t =>
        have hget : jmGet M0 d.filePath = none :=
          jmGet_eq_none_of_not_has (hfm d (List.mem_cons_self d docs))
        have hset : jmSet M0 d.filePath (⟨d, t, none, none⟩ : ContextItem) =
            M0 ++ [(d.filePath, (⟨d, t, none, none⟩ : ContextItem))] :=
          jmSet_not_has (hfm d (List.mem_cons_self d docs)) _
        have hsadd : sAdd S0 d.filePath = S0 ++ [d.filePath] := by
          unfold sAdd
          rw [if_neg]
          intro hcon
          exact hfs d (List.mem_cons_self d docs) hcon
        simp only [hget, hset, hsadd]
        have hfm2 : ∀ x ∈ docs,
            ¬ jmHas (M0 ++ [(d.filePath, (⟨d, t, none, none⟩ : ContextItem))])
              x.filePath = true := by
          intro x hx
          have hne : d.filePath ≠ x.filePath := fun hcontra =>
            hnd.1 (hcontra ▸ List.mem_map_of_mem Doc.filePath hx)
          have := hfm x (List.mem_cons_of_mem d hx)
          simp [jmHas, jmGet_append, jmGet] at this ⊢
          exact ⟨this, hne⟩
        have hfs2 : ∀ x ∈ docs,
            ¬ (S0 ++ [d.filePath]).contains x.filePath = true := by
          intro x hx hcon
          rw [contains_iff] at hcon
          rcases List.mem_append.mp hcon with h | h
          · exact hfs x (List.mem_cons_of_mem d hx) ((contains_iff _ _).mpr h)
          · have hne : d.filePath ≠ x.filePath := fun hcontra =>
              hnd.1 (hcontra ▸ List.mem_map_of_mem Doc.filePath hx)
            exact hne (List.mem_singleton.mp h).symm
        rw [ih _ _ hnd.2 hfm2 hfs2]
        simp [List.append_assoc]

/-- `buildSeeds`, closed form. -/
theorem buildSeeds_eq (env : CtxEnv) (root : String) (attached agent : List String)
    (docs : List Doc) (hnd : (docs.map Doc.filePath).Nodup) :
    buildSeeds env root attached agent docs =
      (docs.filterMap (fun doc =>
          if doc.isError then none
          else match classifyDoc env root attached agent doc with
            | none => none
            | some t => some (doc.filePath, (⟨doc, t, none, none⟩ : ContextItem))),
       docs.filterMap (fun doc =>
          if doc.isError then none
          else match classifyDoc env root attached agent doc with
            | none => none
            | some _ => some doc.filePath)) := by
  unfold buildSeeds
  rw [buildSeeds_fold env root attached agent docs [] [] hnd
    (fun d _ => by simp [jmHas, jmGet]) (fun d _ => by simp [List.contains])]
  simp

theorem bfsLink_mem_mono (index : JSMap Doc) (cp : String)
    (st : JSMap ContextItem × JSSet × List String) (l : DocLink)
    {q : String × ContextItem} (hq : q ∈ st.1) : q ∈ (bfsLink index cp st l).1 := by
  unfold bfsLink
  split
  · exact hq
  · split
    · exact hq
    · split
      · exact hq
      · split
        · exact hq
        · next hhas =>
          rw [jmSet_not_has hhas]
          split
          · exact List.mem_append_left _ hq
          · exact List.mem_append_left _ hq

theorem bfsLoop_mem_mono (index : JSMap Doc) :
    ∀ (fuel : Nat) (m : JSMap ContextItem) (visited : JSSet) (queue : List String)
      {q : String × ContextItem}, q ∈ m → q ∈ bfsLoop index fuel m visited queue := by
  intro fuel
  induction fuel with
  | zero => intro m _ _ q h; exact h
  | succ fuel ih =>
    intro m visited queue q h
    rw [bfsLoop.eq_def]
    dsimp only
    split
    · exact h
    · split
      · exact ih _ _ _ h
      · split
        · exact ih _ _ _ h
        · exact ih _ _ _ (foldl_preserve _
            (fun (st : JSMap ContextItem × JSSet × List String) => q ∈ st.1) _ _ h
            (fun st l _ hs => bfsLink_mem_mono index _ st l hs))

theorem index_values_paths {index : JSMap Doc}
    (hvi : ∀ p ∈ index, p.2.filePath = p.1) :
    (jmValues index).map Doc.filePath = jmKeys index := by
  unfold jmValues jmKeys
  rw [List.map_map]
  exact List.map_congr_left (fun p hp => hvi p hp)

/-- **C1.**  Classification is first-match in strict priority order
always, auto, agent, manual: the threaded `currentType/currentPriority`
logic of `classifyDoc` equals the literal first-match `specClassify`;
in particular every `alwaysApply` node is classified `always` no matter
which other rules also match; and every classified non-error entry of a
well-formed index appears in the assembled output as a seed item with
exactly that classification. -/
theorem buildContextItems_first_match_classification (env : CtxEnv) (root : String)
    (hoist : Bool) (index : JSMap Doc) (attached agent : List String)
    (hki : (jmKeys index).Nodup) (hvi : ∀ p ∈ index, p.2.filePath = p.1) :
    (∀ doc : Doc, classifyDoc env root attached agent doc =
        specClassify env root attached agent doc) ∧
      (∀ doc : Doc, doc.meta.alwaysApply = true →
        classifyDoc env root attached agent doc = some AttachedItemType.always) ∧
      (∀ p doc t, (p, doc) ∈ index → doc.isError = false →
        classifyDoc env root attached agent doc = some t →
        (⟨doc, t, none, none⟩ : ContextItem) ∈
          buildContextItems env root hoist index attached agent) := by
  refine ⟨fun doc => classifyDoc_eq_specClassify env root attached agent doc, ?_, ?_⟩
  · intro doc h
    rw [classifyDoc_eq_specClassify]
    unfold specClassify
    rw [if_pos h]
  · intro p doc t hmem herr hcls
    have hvp : ((jmValues index).map Doc.filePath).Nodup := by
      rw [index_values_paths hvi]
      exact hki
    have hseedmem : (doc.filePath, (⟨doc, t, none, none⟩ : ContextItem)) ∈
        (buildSeeds env root attached agent (jmValues index)).1 := by
      rw [buildSeeds_eq env root attached agent _ hvp]
      refine List.mem_filterMap.mpr ⟨doc, List.mem_map_of_mem Prod.snd hmem, ?_⟩
      simp [herr, hcls]
    have hcoll : (doc.filePath, (⟨doc, t, none, none⟩ : ContextItem)) ∈
        collectItems env root index attached agent :=
      bfsLoop_mem_mono index _ _ _ _ hseedmem
    have hval : (⟨doc, t, none, none⟩ : ContextItem) ∈
        jmValues (collectItems env root index attached agent) := by
      unfold jmValues
      exact List.mem_map_of_mem Prod.snd hcoll
    have hlen : ¬ index.length = 0 := by
      intro h0
      rw [List.length_eq_zero.mp h0] at hmem
      cases hmem
    have hb : buildContextItems env root hoist index attached agent =
        sortItems hoist (jmValues (collectItems env root index attached agent)) := by
      unfold buildContextItems
      rw [if_neg hlen]
    rw [hb]
    have hnd := wf_values_nodup (collectItems_wf env root hki hvi attached agent)
    exact ((sortItems_perm hoist _ hnd).mem_iff).mpr hval

/-- Witness for `buildContextItems_first_match_classification`: the
always document of the one-entry index lands in the output classified
`always`. -/
theorem buildContextItems_first_match_classification_witness :
    (jmKeys indexW).Nodup ∧ (∀ p ∈ indexW, p.2.filePath = p.1) ∧
      (("a.md", mkDoc "a.md" true []) ∈ indexW ∧
        (mkDoc "a.md" true []).isError = false ∧
        classifyDoc envW "" [] [] (mkDoc "a.md" true []) =
          some AttachedItemType.always) ∧
      (⟨mkDoc "a.md" true [], AttachedItemType.always, none, none⟩ : ContextItem) ∈
        buildContextItems envW "" true indexW [] [] :=
  ⟨by decide, by decide, ⟨by decide, by decide, by decide⟩,
    (buildContextItems_first_match_classification envW "" true indexW [] []
      (by decide) (by decide)).2.2 "a.md" (mkDoc "a.md" true [])
      AttachedItemType.always (by decide) (by decide) (by decide)⟩

/-! ### Order facts for the comparators, and sortedness of `jsSort` -/

theorem charListLe_total : ∀ s t : List Char,
    (charListLe s t || charListLe t s) = true := by
  intro s
  induction s with
  | nil => intro t; simp [charListLe]
  | cons a s ih =>
    intro t
    cases t with
    | nil => simp [charListLe]
    | cons b t =>
      by_cases h1 : a.val.toNat < b.val.toNat
      · simp [charListLe, h1]
      · by_cases h2 : b.val.toNat < a.val.toNat
        · simp [charListLe, h1, h2]
        · simp [charListLe, h1, h2, ih t]

theorem charListLe_antisymm : ∀ s t : List Char,
    charListLe s t = true → charListLe t s = true → s = t := by
  intro s
  induction s with
  | nil =>
    intro t h1 h2
    cases t with
    | nil => rfl
    | cons b t =>
      rw [charListLe] at h2
      cases h2
  | cons a s ih =>
    intro t h1 h2
    cases t with
    | nil => rw [charListLe] at h1; cases h1
    | cons b t =>
      by_cases hab : a.val.toNat < b.val.toNat
      · have : ¬ b.val.toNat < a.val.toNat := by omega
        rw [charListLe, if_neg this, if_pos hab] at h2
        cases h2
      · by_cases hba : b.val.toNat < a.val.toNat
        · rw [charListLe, if_neg hab, if_pos hba] at h1
          cases h1
        · have hv : a = b := Char.ext (UInt32.ext (by omega))
          rw [charListLe, if_neg hab, if_neg hba] at h1
          rw [charListLe, if_neg hba, if_neg hab] at h2
          rw [hv, ih t h1 h2]

theorem charListLe_trans : ∀ s t u : List Char,
    charListLe s t = true → charListLe t u = true → charListLe s u = true := by
  intro s
  induction s with
  | nil => intro t u _ _; rw [charListLe]
  | cons a s ih =>
    intro t u h1 h2
    cases t with
    | nil => rw [charListLe] at h1; cases h1
    | cons b t =>
      cases u with
      | nil => rw [charListLe] at h2; cases h2
      | cons c u =>
        rw [charListLe] at h1 h2 ⊢
        by_cases hab : a.val.toNat < b.val.toNat
        · by_cases hbc : b.val.toNat < c.val.toNat
          · rw [if_pos (by omega : a.val.toNat < c.val.toNat)]
          · by_cases hcb : c.val.toNat < b.val.toNat
            · rw [if_neg hbc, if_pos hcb] at h2
              cases h2
            · rw [if_pos (by omega : a.val.toNat < c.val.toNat)]
        · by_cases hba : b.val.toNat < a.val.toNat
          · rw [if_neg hab, if_pos hba] at h1
            cases h1
          · rw [if_neg hab, if_neg hba] at h1
            by_cases hbc : b.val.toNat < c.val.toNat
            · rw [if_pos (by omega : a.val.toNat < c.val.toNat)]
            · by_cases hcb : c.val.toNat < b.val.toNat
              · rw [if_neg hbc, if_pos hcb] at h2
                cases h2
              · rw [if_neg hbc, if_neg hcb] at h2
                rw [if_neg (by omega : ¬ a.val.toNat < c.val.toNat),
                  if_neg (by omega : ¬ c.val.toNat < a.val.toNat)]
                exact ih t u h1 h2

theorem jsStrLe_total (a b : String) : (jsStrLe a b || jsStrLe b a) = true :=
  charListLe_total a.data b.data

theorem jsStrLe_antisymm {a b : String} (h1 : jsStrLe a b = true)
    (h2 : jsStrLe b a = true) : a = b := by
  have hd := charListLe_antisymm a.data b.data h1 h2
  cases a
  cases b
  exact congrArg String.mk hd

theorem jsStrLe_trans {a b c : String} (h1 : jsStrLe a b = true)
    (h2 : jsStrLe b c = true) : jsStrLe a c = true :=
  charListLe_trans a.data b.data c.data h1 h2

theorem pathLe_total (a b : ContextItem) : (pathLe a b || pathLe b a) = true :=
  jsStrLe_total _ _

theorem pathLe_trans (a b c : ContextItem) (h1 : pathLe a b = true)
    (h2 : pathLe b c = true) : pathLe a c = true :=
  jsStrLe_trans h1 h2

theorem pathLe_antisymm_path {a b : ContextItem} (h1 : pathLe a b = true)
    (h2 : pathLe b a = true) : pathOf a = pathOf b :=
  jsStrLe_antisymm h1 h2

theorem nrLe_total (a b : ContextItem) : (nrLe a b || nrLe b a) = true := by
  unfold nrLe
  rcases Nat.lt_trichotomy (typePriority a.type) (typePriority b.type) with h | h | h
  · simp [h]
  · have := jsStrLe_total a.doc.filePath b.doc.filePath
    rw [Bool.or_eq_true] at this
    rcases this with h2 | h2 <;> simp [h, h2]
  · simp [h]

theorem nrLe_trans (a b c : ContextItem) (h1 : nrLe a b = true)
    (h2 : nrLe b c = true) : nrLe a c = true := by
  unfold nrLe at *
  rw [Bool.or_eq_true] at h1 h2 ⊢
  rcases h1 with h1 | h1
  · simp only [decide_eq_true_eq] at h1
    rcases h2 with h2 | h2
    · simp only [decide_eq_true_eq] at h2
      exact Or.inl (by simp only [decide_eq_true_eq]; omega)
    · rw [Bool.and_eq_true] at h2
      have hbc : typePriority b.type = typePriority c.type := by
        simpa using h2.1
      exact Or.inl (by simp only [decide_eq_true_eq]; omega)
  · rw [Bool.and_eq_true] at h1
    have hab : typePriority a.type = typePriority b.type := by simpa using h1.1
    rcases h2 with h2 | h2
    · simp only [decide_eq_true_eq] at h2
      exact Or.inl (by simp only [decide_eq_true_eq]; omega)
    · rw [Bool.and_eq_true] at h2
      have hbc : typePriority b.type = typePriority c.type := by simpa using h2.1
      refine Or.inr ?_
      rw [Bool.and_eq_true]
      exact ⟨by simp [hab, hbc], jsStrLe_trans h1.2 h2.2⟩

theorem nrLe_antisymm_path {a b : ContextItem} (h1 : nrLe a b = true)
    (h2 : nrLe b a = true) : pathOf a = pathOf b := by
  unfold nrLe at h1 h2
  rw [Bool.or_eq_true] at h1 h2
  rcases h1 with h1 | h1 <;> rcases h2 with h2 | h2
  · simp only [decide_eq_true_eq] at h1 h2
    omega
  · rw [Bool.and_eq_true] at h2
    have h2a := h2.1
    simp only [decide_eq_true_eq] at h1 h2a
    omega
  · rw [Bool.and_eq_true] at h1
    have h1a := h1.1
    simp only [decide_eq_true_eq] at h2 h1a
    omega
  · rw [Bool.and_eq_true] at h1 h2
    exact jsStrLe_antisymm h1.2 h2.2

theorem pairwise_sInsert {α : Type} (le : α → α → Bool)
    (htrans : ∀ a b c, le a b = true → le b c = true → le a c = true)
    (htotal : ∀ a b, (le a b || le b a) = true) (a : α) :
    ∀ l : List α, l.Pairwise (fun x y => le x y = true) →
      (sInsert le a l).Pairwise (fun x y => le x y = true) := by
  intro l
  induction l with
  | nil => intro _; simp [sInsert]
  | cons b l ih =>
    intro hp
    rw [List.pairwise_cons] at hp
    cases hab : le a b
    · rw [sInsert, if_neg (by simp [hab])]
      rw [List.pairwise_cons]
      constructor
      · intro x hx
        rcases List.mem_cons.mp ((sInsert_perm le a l).mem_iff.mp hx) with h | h
        · have htot := htotal a b
          rw [hab] at htot
          rw [h]
          simpa using htot
        · exact hp.1 x h
      · exact ih hp.2
    · rw [sInsert, if_pos hab]
      rw [List.pairwise_cons]
      constructor
      · intro x hx
        rcases List.mem_cons.mp hx with h | h
        · subst h; exact hab
        · exact htrans a b x hab (hp.1 x h)
      · exact List.pairwise_cons.mpr hp

theorem pairwise_jsSort {α : Type} (le : α → α → Bool)
    (htrans : ∀ a b c, le a b = true → le b c = true → le a c = true)
    (htotal : ∀ a b, (le a b || le b a) = true) :
    ∀ l : List α, (jsSort l le).Pairwise (fun x y => le x y = true) := by
  intro l
  induction l with
  | nil => simp [jsSort]
  | cons a l ih => exact pairwise_sInsert le htrans htotal a _ ih

/-! ### BFS reachability characterization -/

/-- Paths the BFS can reach: classified seed paths, and — from a
reached path whose index document is non-error — the target of any
non-inline link to a present, non-error document. -/
inductive ReachPath (index : JSMap Doc) (seedKeys : List String) : String → Prop where
  | seed {p : String} : p ∈ seedKeys → ReachPath index seedKeys p
  | step {p : String} {d : Doc} {l : DocLink} {d2 : Doc} :
      ReachPath index seedKeys p → jmGet index p = some d → d.isError = false →
      l ∈ d.linksTo → l.isInline = false → jmGet index l.filePath = some d2 →
      d2.isError = false → ReachPath index seedKeys l.filePath

/-- All qualifying link targets of entry `q` are already keys of `m`. -/
def ClosedEntry (index : JSMap Doc) (m : JSMap ContextItem)
    (q : String × ContextItem) : Prop :=
  ∀ l ∈ q.2.doc.linksTo, l.isInline = false →
    ∀ d2, jmGet index l.filePath = some d2 → d2.isError = false →
      l.filePath ∈ jmKeys m

/-- BFS map entries are untouched seed entries, or discovered related
entries for fresh paths backed by the index. -/
def EntryChar (index : JSMap Doc) (Ms : JSMap ContextItem)
    (q : String × ContextItem) : Prop :=
  q ∈ Ms ∨ (q.1 ∉ jmKeys Ms ∧ ∃ d, jmGet index q.1 = some d ∧ d.isError = false ∧
    q.2.doc = d ∧ q.2.type = AttachedItemType.related)

/-- The loop invariant of the BFS expansion. -/
def BFSInv (index : JSMap Doc) (Ms : JSMap ContextItem) (m : JSMap ContextItem)
    (visited : JSSet) (queue : List String) : Prop :=
  (∀ q ∈ Ms, q ∈ m) ∧
  visited = jmKeys m ∧ (jmKeys m).Nodup ∧
  (∀ q ∈ m, EntryChar index Ms q) ∧
  (∀ k ∈ queue, k ∈ jmKeys m) ∧
  (∀ q ∈ m, q.1 ∈ queue ∨ ClosedEntry index m q) ∧
  (∀ k ∈ jmKeys m, ReachPath index (jmKeys Ms) k)

/-- Index keys not yet in the item map (the strictly shrinking part of
the BFS measure). -/
def defic (index : JSMap Doc) (m : JSMap ContextItem) : Nat :=
  ((jmKeys index).filter (fun k => !(jmHas m k))).length

theorem jmKeys_append {α : Type} (m1 m2 : JSMap α) :
    jmKeys (m1 ++ m2) = jmKeys m1 ++ jmKeys m2 := List.map_append _ m1 m2

theorem jmHas_append_single {α : Type} (m : JSMap α) (k : String) (v : α)
    (k' : String) : jmHas (m ++ [(k, v)]) k' = (jmHas m k' || k = k') := by
  unfold jmHas
  rw [jmGet_append]
  cases hg : jmGet m k' with
  | some w => simp
  | none =>
    by_cases he : k = k' <;> simp [jmGet, he]

theorem mem_keys_of_jmGet_isSome {α : Type} :
    ∀ {m : JSMap α} {k : String}, (jmGet m k).isSome → k ∈ jmKeys m := by
  intro m
  induction m with
  | nil => intro k h; simp [jmGet] at h
  | cons p m ih =>
    intro k h
    by_cases hp : p.1 = k
    · simp [jmKeys, hp]
    · rw [jmGet, if_neg hp] at h
      simp only [jmKeys, List.map_cons, List.mem_cons]
      exact Or.inr (ih h)

theorem filter_length_mono {α : Type} {p q : α → Bool}
    (hmono : ∀ x, q x = true → p x = true) :
    ∀ l : List α, (l.filter q).length ≤ (l.filter p).length := by
  intro l
  induction l with
  | nil => simp
  | cons a l ih =>
    rw [List.filter_cons, List.filter_cons]
    cases hq : q a
    · cases hp : p a
      · simpa using ih
      · simp only [if_true, List.length_cons]
        exact Nat.le_succ_of_le ih
    · rw [hmono a hq]
      simp only [if_true, List.length_cons]
      exact Nat.succ_le_succ ih

theorem filter_length_lt {p q : String → Bool}
    (hmono : ∀ x, q x = true → p x = true) :
    ∀ {l : List String} {k : String}, k ∈ l → p k = true → q k = false →
      (l.filter q).length < (l.filter p).length := by
  intro l
  induction l with
  | nil => intro k hk; cases hk
  | cons a l ih =>
    intro k hk hp hq
    rw [List.filter_cons, List.filter_cons]
    rcases List.mem_cons.mp hk with h | h
    · subst h
      rw [hp, hq]
      simp only [if_true, if_false, List.length_cons]
      exact Nat.lt_succ_of_le (filter_length_mono hmono l)
    · cases hqa : q a
      · cases hpa : p a
        · simpa using ih h hp hq
        · simp only [if_true, if_false, List.length_cons]
          exact Nat.lt_succ_of_lt (ih h hp hq)
      · rw [hmono a hqa]
        simp only [if_true, List.length_cons]
        exact Nat.succ_lt_succ (ih h hp hq)

theorem defic_append_singleton_lt {index : JSMap Doc} {m : JSMap ContextItem}
    {k : String} (hk : k ∈ jmKeys index) (hfresh : jmHas m k = false)
    (v : ContextItem) : defic index (m ++ [(k, v)]) < defic index m := by
  unfold defic
  refine filter_length_lt ?_ hk ?_ ?_
  · intro x hx
    rw [Bool.not_eq_true'] at hx ⊢
    rw [jmHas_append_single] at hx
    rw [Bool.or_eq_false_iff] at hx
    exact hx.1
  · simp [hfresh]
  · simp [jmHas_append_single]

theorem defic_append {index : JSMap Doc} :
    ∀ (Δ m : JSMap ContextItem),
      (∀ q ∈ Δ, q.1 ∈ jmKeys index) →
      (∀ q ∈ Δ, jmHas m q.1 = false) →
      (jmKeys Δ).Nodup →
      defic index (m ++ Δ) + Δ.length ≤ defic index m := by
  intro Δ
  induction Δ with
  | nil => intro m _ _ _; simp
  | cons q Δ ih =>
    intro m hin hfresh hnd
    simp only [jmKeys, List.map_cons, List.nodup_cons] at hnd
    have hassoc : m ++ (q :: Δ) = (m ++ [q]) ++ Δ := by simp
    rw [hassoc]
    have hstep : defic index (m ++ [(q.1, q.2)]) < defic index m :=
      defic_append_singleton_lt (hin q (List.mem_cons_self q Δ))
        (hfresh q (List.mem_cons_self q Δ)) q.2
    have hfresh2 : ∀ x ∈ Δ, jmHas (m ++ [q]) x.1 = false := by
      intro x hx
      have hne : q.1 ≠ x.1 := fun hc =>
        hnd.1 (hc ▸ List.mem_map_of_mem Prod.fst hx)
      rw [show (q : String × ContextItem) = (q.1, q.2) from rfl,
        jmHas_append_single, hfresh x (List.mem_cons_of_mem q hx)]
      simp [hne]
    have hrest := ih (m ++ [q]) (fun x hx => hin x (List.mem_cons_of_mem q hx))
      hfresh2 hnd.2
    have hq2 : (m ++ [(q.1, q.2)]) = m ++ [q] := by simp
    rw [hq2] at hstep
    simp only [List.length_cons]
    omega

/-- One link step of the BFS, under `visited = keys`: it either leaves
the state alone (inline link, absent or error target, or known target)
or appends one fresh discovered entry to map, visited set and queue
alike. -/
theorem bfsLink_cases (index : JSMap Doc) (cp : String)
    (st : JSMap ContextItem × JSSet × List String) (l : DocLink)
    (hv : st.2.1 = jmKeys st.1) :
    (bfsLink index cp st l = st ∧
      (l.isInline = true ∨ (∀ d, jmGet index l.filePath = some d → d.isError = true) ∨
        l.filePath ∈ jmKeys st.1)) ∨
    (∃ d, jmGet index l.filePath = some d ∧ d.isError = false ∧
      l.isInline = false ∧ l.filePath ∉ jmKeys st.1 ∧
      bfsLink index cp st l =
        (st.1 ++ [(l.filePath, ⟨d, AttachedItemType.related, some l.anchorText, some cp⟩)],
         st.2.1 ++ [l.filePath], st.2.2 ++ [l.filePath])) := by
  cases hin : l.isInline
  · cases hg : jmGet index l.filePath with
    | none =>
      refine Or.inl ⟨?_, Or.inr (Or.inl (fun d hd => by simp at hd))⟩
      unfold bfsLink
      rw [hg]
      simp [hin]
    | some d =>
      cases herr : d.isError
      · cases hhas : jmHas st.1 l.filePath
        · have hnk : l.filePath ∉ jmKeys st.1 := fun hc => by
            rw [(jmHas_iff_mem_keys st.1 l.filePath).mpr hc] at hhas
            cases hhas
          have hcon : st.2.1.contains l.filePath = false := by
            rw [hv]
            cases hc : (jmKeys st.1).contains l.filePath
            · rfl
            · exact absurd ((contains_iff _ _).mp hc) hnk
          refine Or.inr ⟨d, rfl, herr, rfl, hnk, ?_⟩
          unfold bfsLink
          rw [hg]
          simp only [hin, Bool.false_eq_true, if_false, herr, hhas, hcon]
          rw [jmSet_not_has (by rw [hhas]; exact Bool.false_ne_true) _]
        · refine Or.inl ⟨?_,
            Or.inr (Or.inr ((jmHas_iff_mem_keys st.1 l.filePath).mp hhas))⟩
          unfold bfsLink
          rw [hg]
          simp [hin, herr, hhas]
      · refine Or.inl ⟨?_, Or.inr (Or.inl (fun d2 hd2 => by
          injection hd2 with h2
          rw [← h2]
          exact herr))⟩
        unfold bfsLink
        rw [hg]
        simp [hin, herr]
  · refine Or.inl ⟨?_, Or.inl rfl⟩
    unfold bfsLink
    simp [hin]

/-- The whole link fold of one BFS expansion: it appends a block `Δ` of
fresh discovered entries, mirrored on the visited set and the queue, and
afterwards every qualifying link target is a key. -/
theorem linkFold_spec (index : JSMap Doc) (cp : String) :
    ∀ (links : List DocLink) (st : JSMap ContextItem × JSSet × List String),
      st.2.1 = jmKeys st.1 →
      ∃ Δ : JSMap ContextItem,
        links.foldl (bfsLink index cp) st =
          (st.1 ++ Δ, st.2.1 ++ jmKeys Δ, st.2.2 ++ jmKeys Δ) ∧
        (∀ q ∈ Δ, ¬ jmHas st.1 q.1 = true ∧
          ∃ d, jmGet index q.1 = some d ∧ d.isError = false ∧
            q.2.doc = d ∧ q.2.type = AttachedItemType.related ∧
            ∃ l2, l2 ∈ links ∧ l2.isInline = false ∧ q.1 = l2.filePath) ∧
        (jmKeys Δ).Nodup ∧
        (∀ l2 ∈ links, l2.isInline = false →
          ∀ d2, jmGet index l2.filePath = some d2 → d2.isError = false →
            l2.filePath ∈ jmKeys (st.1 ++ Δ)) := by
  intro links
  induction links with
  | nil =>
    intro st hv
    refine ⟨[], by simp [jmKeys], by simp, by simp [jmKeys], by simp⟩
  | cons l links ih =>
    intro st hv
    rcases bfsLink_cases index cp st l hv with ⟨heq, hskip⟩ | ⟨d, hg, herr, hin, hnk, heq⟩
    · obtain ⟨Δ, hfold, hchar, hnd, hclosed⟩ := ih st hv
      refine ⟨Δ, by rw [List.foldl_cons, heq]; exact hfold, ?_, hnd, ?_⟩
      · intro q hq
        obtain ⟨hf, d, h1, h2, h3, h4, l2, hl2, hl2i, hl2p⟩ := hchar q hq
        exact ⟨hf, d, h1, h2, h3, h4, l2, List.mem_cons_of_mem l hl2, hl2i, hl2p⟩
      · intro l2 hl2 hl2i d2 hd2 he2
        rcases List.mem_cons.mp hl2 with h | h
        · subst h
          rcases hskip with h | h | h
          · rw [h] at hl2i; cases hl2i
          · rw [h d2 hd2] at he2; cases he2
          · rw [jmKeys_append]
            exact List.mem_append_left _ h
        · exact hclosed l2 h hl2i d2 hd2 he2
    · set it : ContextItem :=
        ⟨d, AttachedItemType.related, some l.anchorText, some cp⟩ with hit
      have hv2 : (st.2.1 ++ [l.filePath]) =
          jmKeys (st.1 ++ [(l.filePath, it)]) := by
        rw [jmKeys_append, hv]
        rfl
      obtain ⟨Δ, hfold, hchar, hnd, hclosed⟩ :=
        ih (st.1 ++ [(l.filePath, it)], st.2.1 ++ [l.filePath],
          st.2.2 ++ [l.filePath]) hv2
      refine ⟨(l.filePath, it) :: Δ, ?_, ?_, ?_, ?_⟩
      · rw [List.foldl_cons, heq, hfold]
        simp [jmKeys]
      · intro q hq
        rcases List.mem_cons.mp hq with h | h
        · subst h
          refine ⟨fun hc => hnk ((jmHas_iff_mem_keys _ _).mp hc), d, hg, herr,
            rfl, rfl, l, List.mem_cons_self l links, hin, rfl⟩
        · obtain ⟨hf, d3, h1, h2, h3, h4, l2, hl2, hl2i, hl2p⟩ := hchar q h
          refine ⟨?_, d3, h1, h2, h3, h4, l2, List.mem_cons_of_mem l hl2, hl2i, hl2p⟩
          intro hc
          apply hf
          rw [jmHas_append_single]
          rw [hc]
          simp
      · simp only [jmKeys, List.map_cons, List.nodup_cons]
        constructor
        · intro hc
          rcases List.mem_map.mp hc with ⟨q, hq, hqe⟩
          have := (hchar q hq).1
          rw [← hqe] at this
          apply this
          rw [jmHas_append_single]
          simp
        · exact hnd
      · intro l2 hl2 hl2i d2 hd2 he2
        rcases List.mem_cons.mp hl2 with h | h
        · subst h
          simp [jmKeys]
        · have hmem := hclosed l2 h hl2i d2 hd2 he2
          rw [jmKeys_append, jmKeys_append] at hmem
          rw [jmKeys_append]
          simp only [jmKeys, List.map_cons, List.map_nil, List.mem_append,
            List.mem_cons, List.mem_singleton] at hmem ⊢
          tauto
/-- What is true of the BFS map when the queue has drained. -/
def FinalChar (index : JSMap Doc) (Ms : JSMap ContextItem)
    (mf : JSMap ContextItem) : Prop :=
  (∀ q ∈ Ms, q ∈ mf) ∧
  (jmKeys mf).Nodup ∧
  (∀ q ∈ mf, EntryChar index Ms q) ∧
  (∀ q ∈ mf, ClosedEntry index mf q) ∧
  (∀ k ∈ jmKeys mf, ReachPath index (jmKeys Ms) k)

/-- With enough fuel (one more than queue length plus missing index
keys) the BFS drains its queue and its map satisfies `FinalChar`. -/
theorem bfsLoop_closed (index : JSMap Doc) (Ms : JSMap ContextItem)
    (hMsIdx : ∀ q ∈ Ms, jmGet index q.1 = some q.2.doc ∧ q.2.doc.isError = false) :
    ∀ (fuel : Nat) (m : JSMap ContextItem) (visited : JSSet) (queue : List String),
      BFSInv index Ms m visited queue →
      queue.length + defic index m < fuel →
      FinalChar index Ms (bfsLoop index fuel m visited queue) := by
  intro fuel
  induction fuel with
  | zero =>
    intro m v q _ hlt
    omega
  | succ fuel ih =>
    intro m visited queue hinv hlt
    obtain ⟨hMs, hv, hnd, hchar, hq, hcl, hreach⟩ := hinv
    have hdoc : ∀ q ∈ m, jmGet index q.1 = some q.2.doc ∧ q.2.doc.isError = false := by
      intro q hq2
      rcases hchar q hq2 with h | ⟨_, d, hg, he, hd, _⟩
      · exact hMsIdx q h
      · rw [hd]
        exact ⟨hg, he⟩
    rw [bfsLoop.eq_def]
    dsimp only
    split
    · exact ⟨hMs, hnd, hchar,
        fun q hq2 => (hcl q hq2).resolve_left (fun hc => absurd hc (List.not_mem_nil _)),
        hreach⟩
    · next currentPath rest =>
      split
      · next hget =>
        exfalso
        have hk : currentPath ∈ jmKeys m := hq currentPath (List.mem_cons_self _ _)
        have := (jmHas_iff_mem_keys m currentPath).mpr hk
        unfold jmHas at this
        rw [hget] at this
        cases this
      · next currentItem hget =>
        have hcmem : (currentPath, currentItem) ∈ m :=
          (jmGet_eq_some_iff_mem hnd currentPath currentItem).mp hget
        split
        · next herr =>
          exfalso
          have := (hdoc _ hcmem).2
          rw [this] at herr
          cases herr
        · next herr =>
          have herr2 : currentItem.doc.isError = false := by
            cases he : currentItem.doc.isError
            · rfl
            · exact absurd he herr
          obtain ⟨Δ, hfold, hΔchar, hΔnd, hΔclosed⟩ :=
            linkFold_spec index currentPath currentItem.doc.linksTo
              (m, visited, rest) hv
          rw [hfold]
          have hΔfreshk : ∀ k ∈ jmKeys Δ, ¬ k ∈ jmKeys m := by
            intro k hk hc
            rcases List.mem_map.mp hk with ⟨q2, hq2, hqe⟩
            exact (hΔchar q2 hq2).1 (hqe ▸ (jmHas_iff_mem_keys m k).mpr hc)
          have hkeysnd : (jmKeys (m ++ Δ)).Nodup := by
            rw [jmKeys_append, List.nodup_append]
            exact ⟨hnd, hΔnd, fun x hx hc => hΔfreshk x hc hx⟩
          have hMsKeys : ∀ k ∈ jmKeys Ms, k ∈ jmKeys m := by
            intro k hk
            rcases List.mem_map.mp hk with ⟨q2, hq2, hqe⟩
            exact hqe ▸ List.mem_map_of_mem Prod.fst (hMs q2 hq2)
          have hreachCP : ReachPath index (jmKeys Ms) currentPath :=
            hreach currentPath (hq currentPath (List.mem_cons_self _ _))
          have hinv2 : BFSInv index Ms (m ++ Δ) (visited ++ jmKeys Δ)
              (rest ++ jmKeys Δ) := by
            refine ⟨fun q2 hq2 => List.mem_append_left _ (hMs q2 hq2),
              by rw [jmKeys_append, hv], hkeysnd, ?_, ?_, ?_, ?_⟩
            · intro q2 hq2
              rcases List.mem_append.mp hq2 with h | h
              · exact hchar q2 h
              · obtain ⟨hf, d, hg2, he2, hd2, ht2, _⟩ := hΔchar q2 h
                refine Or.inr ⟨?_, d, hg2, he2, hd2, ht2⟩
                intro hc
                exact hf ((jmHas_iff_mem_keys m q2.1).mpr (hMsKeys q2.1 hc))
            · intro k hk
              rw [jmKeys_append]
              rcases List.mem_append.mp hk with h | h
              · exact List.mem_append_left _ (hq k (List.mem_cons_of_mem _ h))
              · exact List.mem_append_right _ h
            · intro q2 hq2
              rcases List.mem_append.mp hq2 with h | h
              · rcases hcl q2 h with h2 | h2
                · rcases List.mem_cons.mp h2 with h3 | h3
                  · refine Or.inr ?_
                    have hval : q2.2 = currentItem := by
                      have := (jmGet_eq_some_iff_mem hnd q2.1 q2.2).mpr
                        (by exact h)
                      rw [h3, hget] at this
                      injection this with hval2
                      exact hval2.symm
                    intro l2 hl2 hl2i d2 hd2 he2
                    rw [hval] at hl2
                    exact hΔclosed l2 hl2 hl2i d2 hd2 he2
                  · exact Or.inl (List.mem_append_left _ h3)
                · refine Or.inr ?_
                  intro l2 hl2 hl2i d2 hd2 he2
                  rw [jmKeys_append]
                  exact List.mem_append_left _ (h2 l2 hl2 hl2i d2 hd2 he2)
              · exact Or.inl (List.mem_append_right _
                  (List.mem_map_of_mem Prod.fst h))
            · intro k hk
              rw [jmKeys_append] at hk
              rcases List.mem_append.mp hk with h | h
              · exact hreach k h
              · rcases List.mem_map.mp h with ⟨q2, hq2, hqe⟩
                obtain ⟨_, d, hg2, he2, _, _, l2, hl2, hl2i, hl2p⟩ := hΔchar q2 hq2
                rw [← hqe, hl2p]
                rw [hl2p] at hg2
                exact ReachPath.step hreachCP (hdoc _ hcmem).1 herr2 hl2 hl2i hg2 he2
          refine ih (m ++ Δ) (visited ++ jmKeys Δ) (rest ++ jmKeys Δ) hinv2 ?_
          have hdef := defic_append Δ m
            (fun q2 hq2 => by
              obtain ⟨_, d, hg2, _, _, _, _⟩ := hΔchar q2 hq2
              exact mem_keys_of_jmGet_isSome (by rw [hg2]; rfl))
            (fun q2 hq2 => by
              cases hh : jmHas m q2.1
              · rfl
              · exact absurd hh (hΔchar q2 hq2).1)
            hΔnd
          have hlen : (jmKeys Δ).length = Δ.length := List.length_map Δ Prod.fst
          simp only [List.length_append, List.length_cons] at hlt ⊢
          omega

/-- Forget the BFS provenance fields of an item. -/
def eraseProv (i : ContextItem) : ContextItem := ⟨i.doc, i.type, none, none⟩

/-- The seed-map entry producer (abbreviates the `buildSeeds` closed
form). -/
def fseed (env : CtxEnv) (root : String) (attached agent : List String)
    (doc : Doc) : Option (String × ContextItem) :=
  if doc.isError then none
  else match classifyDoc env root attached agent doc with
    | none => none
    | some t => some (doc.filePath, ⟨doc, t, none, none⟩)

/-- The classified-path producer of `buildSeeds`. -/
def fkey (env : CtxEnv) (root : String) (attached agent : List String)
    (doc : Doc) : Option String :=
  if doc.isError then none
  else match classifyDoc env root attached agent doc with
    | none => none
    | some _ => some doc.filePath

theorem buildSeeds_closed (env : CtxEnv) (root : String)
    (attached agent : List String) (docs : List Doc)
    (hnd : (docs.map Doc.filePath).Nodup) :
    buildSeeds env root attached agent docs =
      (docs.filterMap (fseed env root attached agent),
       docs.filterMap (fkey env root attached agent)) := by
  rw [buildSeeds_eq env root attached agent docs hnd]
  rfl

theorem fseed_mem {env : CtxEnv} {root : String} {attached agent : List String}
    {doc : Doc} {q : String × ContextItem}
    (h : fseed env root attached agent doc = some q) :
    doc.isError = false ∧ q.1 = doc.filePath ∧ q.2.doc = doc ∧
      q.2.linkedViaAnchor = none ∧ q.2.linkedFromPath = none ∧
      classifyDoc env root attached agent doc = some q.2.type := by
  unfold fseed at h
  by_cases he : doc.isError
  · rw [if_pos he] at h
    cases h
  · rw [if_neg he] at h
    cases hc : classifyDoc env root attached agent doc with
    | none => rw [hc] at h; cases h
    | some t =>
      rw [hc] at h
      injection h with h2
      rw [← h2]
      exact ⟨by simpa using he, rfl, rfl, rfl, rfl, rfl⟩

theorem seeds_keys (env : CtxEnv) (root : String) (attached agent : List String)
    (docs : List Doc) :
    jmKeys (docs.filterMap (fseed env root attached agent)) =
      docs.filterMap (fkey env root attached agent) := by
  unfold jmKeys
  rw [List.map_filterMap]
  apply List.filterMap_congr
  intro doc _
  unfold fseed fkey
  by_cases he : doc.isError
  · simp [he]
  · simp only [he, Bool.false_eq_true, if_false]
    cases hc : classifyDoc env root attached agent doc <;> simp

theorem filterMap_sublist_key (env : CtxEnv) (root : String)
    (attached agent : List String) :
    ∀ docs : List Doc,
      List.Sublist (docs.filterMap (fkey env root attached agent))
        (docs.map Doc.filePath) := by
  intro docs
  induction docs with
  | nil => simp
  | cons d docs ih =>
    rw [List.filterMap_cons, List.map_cons]
    cases hc : fkey env root attached agent d with
    | none => exact ih.cons _
    | some k =>
      have hk : k = d.filePath := by
        unfold fkey at hc
        by_cases he : d.isError
        · rw [if_pos he] at hc; cases hc
        · rw [if_neg he] at hc
          cases hc2 : classifyDoc env root attached agent d with
          | none => rw [hc2] at hc; cases hc
          | some t =>
            rw [hc2] at hc
            injection hc with h2
            exact h2.symm
      rw [hk]
      exact ih.cons₂ _

/-- Full characterization of the collected item map: seed entries are
kept verbatim, all entries are index-backed, the map is closed under
qualifying links, and its key set is exactly the reachable paths. -/
theorem collectItems_char (env : CtxEnv) (root : String) {index : JSMap Doc}
    (hki : (jmKeys index).Nodup) (hvi : ∀ p ∈ index, p.2.filePath = p.1)
    (attached agent : List String) :
    FinalChar index ((jmValues index).filterMap (fseed env root attached agent))
      (collectItems env root index attached agent) := by
  have hvp : ((jmValues index).map Doc.filePath).Nodup := by
    rw [index_values_paths hvi]
    exact hki
  have hbs := buildSeeds_closed env root attached agent (jmValues index) hvp
  have hMsIdx : ∀ q ∈ (jmValues index).filterMap (fseed env root attached agent),
      jmGet index q.1 = some q.2.doc ∧ q.2.doc.isError = false := by
    intro q hq
    rcases List.mem_filterMap.mp hq with ⟨doc, hdoc, hf⟩
    obtain ⟨he, hk, hd, _, _, _⟩ := fseed_mem hf
    rcases List.mem_map.mp hdoc with ⟨p, hp, hpe⟩
    have hkey : doc.filePath = p.1 := by
      rw [← hpe] at *
      exact hvi p hp
    constructor
    · rw [hk, hd, hkey]
      have h3 := (jmGet_eq_some_iff_mem hki p.1 p.2).mpr (by exact hp)
      rw [hpe] at h3
      exact h3
    · rw [hd]
      exact he
  have hkeysS : jmKeys ((jmValues index).filterMap (fseed env root attached agent)) =
      (jmValues index).filterMap (fkey env root attached agent) :=
    seeds_keys env root attached agent (jmValues index)
  have hndS : (jmKeys ((jmValues index).filterMap (fseed env root attached agent))).Nodup := by
    rw [hkeysS]
    exact (filterMap_sublist_key env root attached agent (jmValues index)).nodup hvp
  have hinv : BFSInv index ((jmValues index).filterMap (fseed env root attached agent))
      ((jmValues index).filterMap (fseed env root attached agent))
      ((jmValues index).filterMap (fkey env root attached agent))
      ((jmValues index).filterMap (fkey env root attached agent)) := by
    refine ⟨fun q hq => hq, hkeysS.symm, hndS, fun q hq => Or.inl hq, ?_, ?_, ?_⟩
    · intro k hk
      rw [hkeysS]
      exact hk
    · intro q hq
      refine Or.inl ?_
      rw [← hkeysS]
      exact List.mem_map_of_mem Prod.fst hq
    · intro k hk
      exact ReachPath.seed hk
  have hfuel : ((jmValues index).filterMap (fkey env root attached agent)).length +
      defic index ((jmValues index).filterMap (fseed env root attached agent)) <
      index.length +
        (buildSeeds env root attached agent (jmValues index)).2.length + 1 := by
    have h1 : defic index ((jmValues index).filterMap (fseed env root attached agent)) ≤
        (jmKeys index).length := List.length_filter_le _ _
    have h2 : (jmKeys index).length = index.length := List.length_map index Prod.fst
    rw [hbs]
    dsimp only
    omega
  have := bfsLoop_closed index _ hMsIdx
    (index.length + (buildSeeds env root attached agent (jmValues index)).2.length + 1)
    _ _ _ hinv hfuel
  unfold collectItems
  rw [hbs]
  rw [hbs] at this
  exact this

theorem ReachPath_congr {idx1 idx2 : JSMap Doc} {sk1 sk2 : List String}
    (hg : ∀ k, jmGet idx1 k = jmGet idx2 k) (hs : ∀ p, p ∈ sk1 ↔ p ∈ sk2) :
    ∀ {x}, ReachPath idx1 sk1 x → ReachPath idx2 sk2 x := by
  intro x h
  induction h with
  | seed hp => exact ReachPath.seed ((hs _).mp hp)
  | step hr2 hg1 he hl hi hg2 he2 ih =>
    exact ReachPath.step ih ((hg _) ▸ hg1) he hl hi ((hg _) ▸ hg2) he2

/-- The final BFS key set is exactly the reachable paths. -/
theorem finalChar_keys_iff {index : JSMap Doc} {Ms mf : JSMap ContextItem}
    (hMsIdx : ∀ q ∈ Ms, jmGet index q.1 = some q.2.doc ∧ q.2.doc.isError = false)
    (hf : FinalChar index Ms mf) :
    ∀ k, k ∈ jmKeys mf ↔ ReachPath index (jmKeys Ms) k := by
  obtain ⟨hMs, hnd, hchar, hclosed, hreach⟩ := hf
  intro k
  constructor
  · exact hreach k
  · intro hr
    induction hr with
    | seed hp =>
      rcases List.mem_map.mp hp with ⟨q, hq, hqe⟩
      exact hqe ▸ List.mem_map_of_mem Prod.fst (hMs q hq)
    | step hr2 hg he hl hi hg2 he2 ih =>
      rcases List.mem_map.mp ih with ⟨q, hq, hqe⟩
      have hqd : jmGet index q.1 = some q.2.doc ∧ q.2.doc.isError = false := by
        rcases hchar q hq with h | ⟨_, d3, hg3, he3, hd3, _⟩
        · exact hMsIdx q h
        · rw [hd3]
          exact ⟨hg3, he3⟩
      rw [hqe, hg] at hqd
      obtain ⟨hqd1, _⟩ := hqd
      injection hqd1 with hdq
      exact hclosed q hq _ (by rw [← hdq]; exact hl) hi _ hg2 he2

/-- The canonical (provenance-free) value at a reached path: the seed
item if the path was classified, else the related item for the index
document. -/
def CanonVal (index : JSMap Doc) (Ms : JSMap ContextItem) (k : String)
    (v : ContextItem) : Prop :=
  (∃ s, jmGet Ms k = some s ∧ v = eraseProv s) ∨
  (jmGet Ms k = none ∧ ∃ d, jmGet index k = some d ∧ d.isError = false ∧
    v = ⟨d, AttachedItemType.related, none, none⟩)

theorem canonVal_unique {index : JSMap Doc} {Ms : JSMap ContextItem}
    {k : String} {v v' : ContextItem}
    (h1 : CanonVal index Ms k v) (h2 : CanonVal index Ms k v') : v = v' := by
  rcases h1 with ⟨s, hg, hv⟩ | ⟨hn, d, hg, _, hv⟩ <;>
    rcases h2 with ⟨s2, hg2, hv2⟩ | ⟨hn2, d2, hg2, _, hv2⟩
  · rw [hg] at hg2
    injection hg2 with h
    rw [hv, hv2, h]
  · rw [hg] at hn2
    cases hn2
  · rw [hg2] at hn
    cases hn
  · rw [hg] at hg2
    injection hg2 with h
    rw [hv, hv2, h]

theorem entry_canon {index : JSMap Doc} {Ms : JSMap ContextItem}
    (hndS : (jmKeys Ms).Nodup) {q : String × ContextItem}
    (h : EntryChar index Ms q) : CanonVal index Ms q.1 (eraseProv q.2) := by
  rcases h with h | ⟨hnk, d, hg, he, hd, ht⟩
  · exact Or.inl ⟨q.2, (jmGet_eq_some_iff_mem hndS q.1 q.2).mpr (by exact h), rfl⟩
  · refine Or.inr ⟨?_, d, hg, he, ?_⟩
    · exact jmGet_eq_none_of_not_has (fun hc => hnk ((jmHas_iff_mem_keys _ _).mp hc))
    · unfold eraseProv
      rw [hd, ht]

theorem seeds_backed (env : CtxEnv) (root : String) {index : JSMap Doc}
    (hki : (jmKeys index).Nodup) (hvi : ∀ p ∈ index, p.2.filePath = p.1)
    (attached agent : List String) :
    ∀ q ∈ (jmValues index).filterMap (fseed env root attached agent),
      jmGet index q.1 = some q.2.doc ∧ q.2.doc.isError = false := by
  intro q hq
  rcases List.mem_filterMap.mp hq with ⟨doc, hdoc, hf⟩
  obtain ⟨he, hk, hd, _, _, _⟩ := fseed_mem hf
  rcases List.mem_map.mp hdoc with ⟨p, hp, hpe⟩
  have hkey : doc.filePath = p.1 := by
    rw [← hpe] at *
    exact hvi p hp
  constructor
  · rw [hk, hd, hkey]
    have h3 := (jmGet_eq_some_iff_mem hki p.1 p.2).mpr (by exact hp)
    rw [hpe] at h3
    exact h3
  · rw [hd]
    exact he

theorem seeds_nodup (env : CtxEnv) (root : String) {index : JSMap Doc}
    (hki : (jmKeys index).Nodup) (hvi : ∀ p ∈ index, p.2.filePath = p.1)
    (attached agent : List String) :
    (jmKeys ((jmValues index).filterMap (fseed env root attached agent))).Nodup := by
  rw [seeds_keys]
  refine (filterMap_sublist_key env root attached agent (jmValues index)).nodup ?_
  rw [index_values_paths hvi]
  exact hki

theorem erased_entry_mem {index : JSMap Doc} {Ms mf : JSMap ContextItem}
    (hndS : (jmKeys Ms).Nodup)
    (hchar : ∀ q ∈ mf, EntryChar index Ms q) (k : String) (v : ContextItem) :
    ((k, v) ∈ mf.map (fun q => (q.1, eraseProv q.2))) ↔
      (k ∈ jmKeys mf ∧ CanonVal index Ms k v) := by
  constructor
  · intro h
    rcases List.mem_map.mp h with ⟨q, hq, hqe⟩
    injection hqe with h1 h2
    constructor
    · rw [← h1]
      exact List.mem_map_of_mem Prod.fst hq
    · rw [← h1, ← h2]
      exact entry_canon hndS (hchar q hq)
  · intro h
    obtain ⟨hk, hc⟩ := h
    rcases List.mem_map.mp hk with ⟨q, hq, hqe⟩
    have hc2 : CanonVal index Ms q.1 (eraseProv q.2) := entry_canon hndS (hchar q hq)
    rw [hqe] at hc2
    have hv := canonVal_unique hc2 hc
    have hmem := List.mem_map_of_mem (fun q => (q.1, eraseProv q.2)) hq
    have hpair : ((fun (q : String × ContextItem) => (q.1, eraseProv q.2)) q) = (k, v) := by
      show (q.1, eraseProv q.2) = (k, v)
      rw [hqe, hv]
    rw [hpair] at hmem
    exact hmem

/-- Two drained BFS maps over the same path-to-document mapping hold
the same erased entries, as a permutation. -/
theorem erased_entries_perm
    {idx1 idx2 : JSMap Doc} {Ms1 Ms2 mf1 mf2 : JSMap ContextItem}
    (hgI : ∀ k, jmGet idx1 k = jmGet idx2 k)
    (hgS : ∀ k, jmGet Ms1 k = jmGet Ms2 k)
    (hsk : ∀ p, p ∈ jmKeys Ms1 ↔ p ∈ jmKeys Ms2)
    (hMsIdx1 : ∀ q ∈ Ms1, jmGet idx1 q.1 = some q.2.doc ∧ q.2.doc.isError = false)
    (hMsIdx2 : ∀ q ∈ Ms2, jmGet idx2 q.1 = some q.2.doc ∧ q.2.doc.isError = false)
    (hndS1 : (jmKeys Ms1).Nodup) (hndS2 : (jmKeys Ms2).Nodup)
    (hf1 : FinalChar idx1 Ms1 mf1) (hf2 : FinalChar idx2 Ms2 mf2) :
    (mf1.map (fun q => (q.1, eraseProv q.2))).Perm
      (mf2.map (fun q => (q.1, eraseProv q.2))) := by
  have hkeysE1 : jmKeys (mf1.map (fun q => (q.1, eraseProv q.2))) = jmKeys mf1 := by
    unfold jmKeys
    rw [List.map_map]
    rfl
  have hkeysE2 : jmKeys (mf2.map (fun q => (q.1, eraseProv q.2))) = jmKeys mf2 := by
    unfold jmKeys
    rw [List.map_map]
    rfl
  have hnd1 : (mf1.map (fun q => (q.1, eraseProv q.2))).Nodup :=
    List.Nodup.of_map Prod.fst (by
      show (jmKeys _).Nodup
      rw [hkeysE1]
      exact hf1.2.1)
  have hnd2 : (mf2.map (fun q => (q.1, eraseProv q.2))).Nodup :=
    List.Nodup.of_map Prod.fst (by
      show (jmKeys _).Nodup
      rw [hkeysE2]
      exact hf2.2.1)
  rw [List.perm_ext_iff_of_nodup hnd1 hnd2]
  intro q
  obtain ⟨k, v⟩ := q
  have hkey_iff : k ∈ jmKeys mf1 ↔ k ∈ jmKeys mf2 := by
    rw [finalChar_keys_iff hMsIdx1 hf1 k, finalChar_keys_iff hMsIdx2 hf2 k]
    constructor
    · exact ReachPath_congr hgI hsk
    · exact ReachPath_congr (fun k2 => (hgI k2).symm) (fun p => (hsk p).symm)
  have hcanon_iff : CanonVal idx1 Ms1 k v ↔ CanonVal idx2 Ms2 k v := by
    unfold CanonVal
    rw [hgS k, hgI k]
  rw [erased_entry_mem hndS1 hf1.2.2.1 k v, erased_entry_mem hndS2 hf2.2.2.1 k v]
  exact and_congr hkey_iff hcanon_iff

theorem map_eq_self_of_fix {α : Type} (f : α → α) :
    ∀ l : List α, (∀ x ∈ l, f x = x) → l.map f = l := by
  intro l
  induction l with
  | nil => intro _; rfl
  | cons a l ih =>
    intro h
    rw [List.map_cons, h a (List.mem_cons_self a l),
      ih (fun x hx => h x (List.mem_cons_of_mem a hx))]

/-- Sorting by path commutes with erasing provenance: two lists equal
up to provenance (and duplicate-free on paths) sort to erased-equal
lists. -/
theorem erased_sorted_eq (X1 X2 : List ContextItem)
    (hpermX : (X1.map eraseProv).Perm (X2.map eraseProv))
    (hndX1 : (X1.map pathOf).Nodup) :
    (jsSort X1 pathLe).map eraseProv = (jsSort X2 pathLe).map eraseProv := by
  apply eq_of_perm_sorted pathLe
  · exact ((jsSort_perm X1 pathLe).map eraseProv).trans
      (hpermX.trans ((jsSort_perm X2 pathLe).map eraseProv).symm)
  · exact List.Pairwise.map eraseProv (fun a b h => h)
      (pairwise_jsSort pathLe pathLe_trans pathLe_total X1)
  · exact List.Pairwise.map eraseProv (fun a b h => h)
      (pairwise_jsSort pathLe pathLe_trans pathLe_total X2)
  · intro a ha b hb h1 h2
    have hndL : (((jsSort X1 pathLe).map eraseProv).map pathOf).Nodup := by
      rw [List.map_map]
      have hmc : (jsSort X1 pathLe).map (pathOf ∘ eraseProv) =
          (jsSort X1 pathLe).map pathOf := List.map_congr_left (fun x _ => rfl)
      rw [hmc]
      exact (((jsSort_perm X1 pathLe).map pathOf).nodup_iff).mpr hndX1
    exact List.inj_on_of_nodup_map hndL ha hb (pathLe_antisymm_path h1 h2)

/-- The spec assembly is a function of the items up to provenance: two
item multisets with equal erasures (and duplicate-free paths, and
provenance only on related items) assemble to erased-equal sequences. -/
theorem specAssembleAny_eraseProv_congr (hoist : Bool)
    (items1 items2 : List ContextItem)
    (hnd1 : (items1.map pathOf).Nodup) (hnd2 : (items2.map pathOf).Nodup)
    (hfix1 : ∀ i ∈ items1, isRelatedItem i = false → eraseProv i = i)
    (hfix2 : ∀ i ∈ items2, isRelatedItem i = false → eraseProv i = i)
    (hperm : (items1.map eraseProv).Perm (items2.map eraseProv)) :
    (specAssembleAny hoist items1).map eraseProv =
      (specAssembleAny hoist items2).map eraseProv := by
  have hfc : ∀ (c : ContextItem → Bool), (∀ i, c (eraseProv i) = c i) →
      ∀ l : List ContextItem, (l.filter c).map eraseProv =
        (l.map eraseProv).filter c := by
    intro c hc l
    rw [List.filter_map]
    congr 1
    exact (List.filter_congr (fun x _ => hc x)).symm
  have hXperm : ∀ (c : ContextItem → Bool), (∀ i, c (eraseProv i) = c i) →
      ((((items1.filter isRelatedItem).filter c).map eraseProv)).Perm
        ((((items2.filter isRelatedItem).filter c).map eraseProv)) := by
    intro c hc
    rw [hfc c hc (items1.filter isRelatedItem),
      hfc isRelatedItem (fun i => rfl) items1,
      hfc c hc (items2.filter isRelatedItem),
      hfc isRelatedItem (fun i => rfl) items2]
    exact (hperm.filter isRelatedItem).filter c
  have hndX : ∀ (c : ContextItem → Bool),
      ((((items1.filter isRelatedItem).filter c)).map pathOf).Nodup :=
    fun c => ((List.filter_sublist _).map pathOf).nodup
      (((List.filter_sublist _).map pathOf).nodup hnd1)
  have hF1fix : (items1.filter (fun i => !isRelatedItem i)).map eraseProv =
      items1.filter (fun i => !isRelatedItem i) :=
    map_eq_self_of_fix eraseProv _ (fun x hx =>
      hfix1 x (List.mem_filter.mp hx).1
        (by simpa using (List.mem_filter.mp hx).2))
  have hF2fix : (items2.filter (fun i => !isRelatedItem i)).map eraseProv =
      items2.filter (fun i => !isRelatedItem i) :=
    map_eq_self_of_fix eraseProv _ (fun x hx =>
      hfix2 x (List.mem_filter.mp hx).1
        (by simpa using (List.mem_filter.mp hx).2))
  have hFperm : (items1.filter (fun i => !isRelatedItem i)).Perm
      (items2.filter (fun i => !isRelatedItem i)) := by
    rw [← hF1fix, ← hF2fix,
      hfc (fun i => !isRelatedItem i) (fun i => rfl) items1,
      hfc (fun i => !isRelatedItem i) (fun i => rfl) items2]
    exact hperm.filter _
  have hNR : jsSort (items1.filter fun i => !isRelatedItem i) nrLe =
      jsSort (items2.filter fun i => !isRelatedItem i) nrLe := by
    apply eq_of_perm_sorted nrLe
    · exact (jsSort_perm _ _).trans (hFperm.trans (jsSort_perm _ _).symm)
    · exact pairwise_jsSort nrLe nrLe_trans nrLe_total _
    · exact pairwise_jsSort nrLe nrLe_trans nrLe_total _
    · intro a ha b hb h1 h2
      have hpa : a ∈ items1 :=
        (List.mem_filter.mp ((jsSort_perm _ _).mem_iff.mp ha)).1
      have hpb : b ∈ items1 :=
        (List.mem_filter.mp ((jsSort_perm _ _).mem_iff.mp hb)).1
      exact List.inj_on_of_nodup_map hnd1 hpa hpb (nrLe_antisymm_path h1 h2)
  have hnrfix : ∀ nr ∈ jsSort (items1.filter fun i => !isRelatedItem i) nrLe,
      eraseProv nr = nr := by
    intro nr hnr
    have h2 := List.mem_filter.mp ((jsSort_perm _ _).mem_iff.mp hnr)
    exact hfix1 nr h2.1 (by simpa using h2.2)
  show ((jsSort (items1.filter fun i => !isRelatedItem i) nrLe).flatMap
      (fun nr =>
        let grp := jsSort ((items1.filter isRelatedItem).filter
          (fun r =>
            ((jsSort (items1.filter fun i => !isRelatedItem i) nrLe).find?
              (fun x => linksAny x (pathOf r))).map pathOf = some (pathOf nr))) pathLe
        if hoist then grp ++ [nr] else nr :: grp) ++
    jsSort ((items1.filter isRelatedItem).filter
      (fun r =>
        (((jsSort (items1.filter fun i => !isRelatedItem i) nrLe).find?
          (fun x => linksAny x (pathOf r))).map pathOf).isNone)) pathLe).map eraseProv =
    ((jsSort (items2.filter fun i => !isRelatedItem i) nrLe).flatMap
      (fun nr =>
        let grp := jsSort ((items2.filter isRelatedItem).filter
          (fun r =>
            ((jsSort (items2.filter fun i => !isRelatedItem i) nrLe).find?
              (fun x => linksAny x (pathOf r))).map pathOf = some (pathOf nr))) pathLe
        if hoist then grp ++ [nr] else nr :: grp) ++
    jsSort ((items2.filter isRelatedItem).filter
      (fun r =>
        (((jsSort (items2.filter fun i => !isRelatedItem i) nrLe).find?
          (fun x => linksAny x (pathOf r))).map pathOf).isNone)) pathLe).map eraseProv
  rw [← hNR]
  rw [List.map_append, List.map_append]
  congr 1
  · rw [List.map_flatMap, List.map_flatMap]
    apply List.flatMap_congr
    intro nr hnr
    show (if hoist then
        jsSort ((items1.filter isRelatedItem).filter
          (fun r =>
            ((jsSort (items1.filter fun i => !isRelatedItem i) nrLe).find?
              (fun x => linksAny x (pathOf r))).map pathOf = some (pathOf nr))) pathLe ++ [nr]
      else nr :: jsSort ((items1.filter isRelatedItem).filter
          (fun r =>
            ((jsSort (items1.filter fun i => !isRelatedItem i) nrLe).find?
              (fun x => linksAny x (pathOf r))).map pathOf = some (pathOf nr))) pathLe).map
        eraseProv =
      (if hoist then
        jsSort ((items2.filter isRelatedItem).filter
          (fun r =>
            ((jsSort (items1.filter fun i => !isRelatedItem i) nrLe).find?
              (fun x => linksAny x (pathOf r))).map pathOf = some (pathOf nr))) pathLe ++ [nr]
      else nr :: jsSort ((items2.filter isRelatedItem).filter
          (fun r =>
            ((jsSort (items1.filter fun i => !isRelatedItem i) nrLe).find?
              (fun x => linksAny x (pathOf r))).map pathOf = some (pathOf nr))) pathLe).map
        eraseProv
    have hgrp := erased_sorted_eq
      ((items1.filter isRelatedItem).filter
        (fun r =>
          ((jsSort (items1.filter fun i => !isRelatedItem i) nrLe).find?
            (fun x => linksAny x (pathOf r))).map pathOf = some (pathOf nr)))
      ((items2.filter isRelatedItem).filter
        (fun r =>
          ((jsSort (items1.filter fun i => !isRelatedItem i) nrLe).find?
            (fun x => linksAny x (pathOf r))).map pathOf = some (pathOf nr)))
      (hXperm _ (fun i => rfl)) (hndX _)
    cases hoist
    · simp only [Bool.false_eq_true, if_false, List.map_cons]
      rw [hgrp, hnrfix nr hnr]
    · simp only [if_true, List.map_append, List.map_cons, List.map_nil]
      rw [hgrp, hnrfix nr hnr]
  · exact erased_sorted_eq _ _ (hXperm _ (fun i => rfl)) (hndX _)

theorem eraseProv_eq_self {i : ContextItem} (h1 : i.linkedViaAnchor = none)
    (h2 : i.linkedFromPath = none) : eraseProv i = i := by
  cases i with
  | mk doc type a f =>
    unfold eraseProv
    simp only at h1 h2
    rw [h1, h2]

theorem collected_nonRelated_fix (env : CtxEnv) (root : String)
    {index : JSMap Doc} (hki : (jmKeys index).Nodup)
    (hvi : ∀ p ∈ index, p.2.filePath = p.1) (attached agent : List String) :
    ∀ i ∈ jmValues (collectItems env root index attached agent),
      isRelatedItem i = false → eraseProv i = i := by
  intro i hi hrel
  have hf := collectItems_char env root hki hvi attached agent
  have hi2 : i ∈ (collectItems env root index attached agent).map Prod.snd := hi
  rcases List.mem_map.mp hi2 with ⟨q, hq, hqe⟩
  rcases hf.2.2.1 q hq with hMs | ⟨_, d, _, _, _, ht⟩
  · rcases List.mem_filterMap.mp hMs with ⟨doc, _, hfs⟩
    obtain ⟨_, _, _, ha, hp, _⟩ := fseed_mem hfs
    rw [← hqe]
    exact eraseProv_eq_self ha hp
  · rw [← hqe] at hrel
    simp [isRelatedItem, ht] at hrel

theorem collected_erased_perm (env : CtxEnv) (root : String)
    {idx1 idx2 : JSMap Doc} (hki : (jmKeys idx1).Nodup)
    (hvi : ∀ p ∈ idx1, p.2.filePath = p.1) (hperm : idx1.Perm idx2)
    (attached agent : List String) :
    ((jmValues (collectItems env root idx1 attached agent)).map eraseProv).Perm
      ((jmValues (collectItems env root idx2 attached agent)).map eraseProv) := by
  have hki2 : (jmKeys idx2).Nodup := ((jmKeys_perm_of_perm hperm).nodup_iff).mp hki
  have hvi2 : ∀ p ∈ idx2, p.2.filePath = p.1 := fun p hp =>
    hvi p (hperm.mem_iff.mpr hp)
  have hMsPerm : ((jmValues idx1).filterMap (fseed env root attached agent)).Perm
      ((jmValues idx2).filterMap (fseed env root attached agent)) :=
    (hperm.map Prod.snd).filterMap (fseed env root attached agent)
  have hndS1 := seeds_nodup env root hki hvi attached agent
  have hndS2 := seeds_nodup env root hki2 hvi2 attached agent
  have hE := erased_entries_perm
    (jmGet_eq_of_perm hki hperm)
    (jmGet_eq_of_perm hndS1 hMsPerm)
    (fun p => (jmKeys_perm_of_perm hMsPerm).mem_iff)
    (seeds_backed env root hki hvi attached agent)
    (seeds_backed env root hki2 hvi2 attached agent)
    hndS1 hndS2
    (collectItems_char env root hki hvi attached agent)
    (collectItems_char env root hki2 hvi2 attached agent)
  have h1 : (jmValues (collectItems env root idx1 attached agent)).map eraseProv =
      ((collectItems env root idx1 attached agent).map
        (fun q => (q.1, eraseProv q.2))).map Prod.snd := by
    show ((collectItems env root idx1 attached agent).map Prod.snd).map eraseProv = _
    rw [List.map_map, List.map_map]
    exact List.map_congr_left (fun q _ => rfl)
  have h2 : (jmValues (collectItems env root idx2 attached agent)).map eraseProv =
      ((collectItems env root idx2 attached agent).map
        (fun q => (q.1, eraseProv q.2))).map Prod.snd := by
    show ((collectItems env root idx2 attached agent).map Prod.snd).map eraseProv = _
    rw [List.map_map, List.map_map]
    exact List.map_congr_left (fun q _ => rfl)
  rw [h1, h2]
  exact hE.map Prod.snd

def docA9c : Doc := mkDoc "a.md" true [mkLink "r.md" false]

def docB9c : Doc := mkDoc "b.md" true [mkLink "r.md" false]

def docR9c : Doc := mkDoc "r.md" false []

/-- An index holding `a.md`, `b.md` (both `always`, each with a
non-inline link to `r.md`) and `r.md`, inserted in this order. -/
def idx9a : JSMap Doc := [("a.md", docA9c), ("b.md", docB9c), ("r.md", docR9c)]

/-- The same path-to-document mapping as `idx9a`, with `b.md` inserted
before `a.md` (a different I/O completion order). -/
def idx9b : JSMap Doc := [("b.md", docB9c), ("a.md", docA9c), ("r.md", docR9c)]

/-- **C9 counterexample.**  Assembly is NOT deterministic in the index
contents alone: two indexes with the same path-to-document mapping
(same entries, permuted insertion order) and identical caller inputs
yield different ordered sequences, because the BFS visits the seeds in
index insertion order and stamps the discovered related item with the
provenance (`linkedFromPath`) of whichever seed reached it first:
`r.md` is recorded as linked from `a.md` in one run and from `b.md` in
the other. -/
theorem buildContextItems_insertion_order_counterexample :
    idx9a.Perm idx9b ∧ (jmKeys idx9a).Nodup ∧
      (∀ p ∈ idx9a, p.2.filePath = p.1) ∧
      buildContextItems envW "." true idx9a [] [] ≠
        buildContextItems envW "." true idx9b [] [] := by
  refine ⟨by decide, by decide, by decide, by decide⟩

/-- **C9 (amended).**  Assembly is deterministic in the index contents
up to the provenance fields: over a well-formed index (duplicate-free
keys, each document stored under its own path) and any insertion
re-ordering of it, with identical `attachedFiles`, `agentSelected` and
hoist flag, the two returned sequences agree after erasing each item's
`linkedViaAnchor`/`linkedFromPath` provenance — the documents, their
classifications, and the entire output order coincide; only the
recorded discoverer may differ. -/
theorem buildContextItems_deterministic_up_to_provenance
    (env : CtxEnv) (root : String) (hoist : Bool)
    (idx1 idx2 : JSMap Doc) (attached agent : List String)
    (hki : (jmKeys idx1).Nodup) (hvi : ∀ p ∈ idx1, p.2.filePath = p.1)
    (hperm : idx1.Perm idx2) :
    (buildContextItems env root hoist idx1 attached agent).map eraseProv =
      (buildContextItems env root hoist idx2 attached agent).map eraseProv := by
  have hki2 : (jmKeys idx2).Nodup := ((jmKeys_perm_of_perm hperm).nodup_iff).mp hki
  have hvi2 : ∀ p ∈ idx2, p.2.filePath = p.1 := fun p hp =>
    hvi p (hperm.mem_iff.mpr hp)
  have hlen : idx1.length = idx2.length := hperm.length_eq
  unfold buildContextItems
  by_cases h0 : idx1.length = 0
  · rw [if_pos h0, if_pos (hlen ▸ h0)]
  · rw [if_neg h0, if_neg (fun hc => h0 (hlen.symm ▸ hc))]
    have hnd1 := wf_values_nodup (collectItems_wf env root hki hvi attached agent)
    have hnd2 := wf_values_nodup (collectItems_wf env root hki2 hvi2 attached agent)
    rw [sortItems_eq_specAssembleAny hoist _ hnd1,
      sortItems_eq_specAssembleAny hoist _ hnd2]
    exact specAssembleAny_eraseProv_congr hoist _ _ hnd1 hnd2
      (collected_nonRelated_fix env root hki hvi attached agent)
      (collected_nonRelated_fix env root hki2 hvi2 attached agent)
      (collected_erased_perm env root hki hvi hperm attached agent)

/-- The amended C9 theorem applied to the counterexample pair: after
erasing provenance the two runs agree. -/
theorem buildContextItems_deterministic_up_to_provenance_witness :
    (buildContextItems envW "." true idx9a [] []).map eraseProv =
      (buildContextItems envW "." true idx9b [] []).map eraseProv :=
  buildContextItems_deterministic_up_to_provenance envW "." true idx9a idx9b [] []
    (by decide) (by decide) (by decide)

end MdRules
